import Mathlib

/-!
# C-Util: JSON value tree, parser and printer (`Json/Json.c`), growable vector (`Vector/Vector.c`)

Conventions of the embedding.

* A C text is a `List Char`; the cursor `*sp` is the list of the characters from the cursor
  on. Reading `**sp` at the end of the list reads the terminating NUL, and a NUL inside the
  list ends the C string there, exactly as in C.
* `malloc`/`calloc` are taken to succeed, and `free`/`JsonObj_deep_destroy` leave no trace in
  the functional model. Text lengths are taken below `2^32`, so the `uint len` counters of
  `parse_str` and `read_token` do not wrap.
* The mutually recursive parser is indexed by a fuel counter; `Outcome.timeout` is the answer
  of a run whose fuel ran out and is distinct from `Outcome.fail`, the C `NULL`.
* `strtod` and `printf("%lf")` belong to libc and are parameters (`Libc`); `decimal9` is a small
  executable instance used to evaluate concrete texts.
* In `Vector.c` an `int32_t` is an `Int` kept in range by `wrap32`, a `void*` is a `Nat` whose 0
  is `NULL`, and the table is the list of its allocated slots; a read outside the table is
  `none`.
-/

namespace CUtil

/-! ## Collaborators that are not part of `Json.c` -/

/-- The two libc conversions `Json.c` calls, over an abstract carrier `Num` of `double`:
`strtod str` gives the converted value and the number of characters it consumed (the offset of
`after_last_parsed_char` from `str`); `printf_lf` is the text written by the format `%lf`. -/
structure Libc (Num : Type) where
  strtod : List Char → Num × Nat
  printf_lf : Num → List Char

/-- Modelled from the spec: `List_append` of the sequence container (`List/List.h`, not under
src/), "an ordered sequence container" whose `append(item)` takes ownership of the item: the
item becomes the last element. -/
def List_append {α : Type} (l : List α) (item : α) : List α := l ++ [item]

/-- Modelled from the spec: `HashTable_insert` of the associative container (`HT/HashTable.h`,
not under src/), "a black-box associative container with string keys". A dictionary is the list
of its (key, value) pairs in the order the pair iterator visits them; an inserted pair is
recorded after the pairs already there. The spec does not say what happens to a key that is
inserted twice, so the list records every insertion. -/
def HashTable_insert {α : Type} (ht : List (List Char × α)) (key : List Char) (value : α) :
    List (List Char × α) := ht ++ [(key, value)]

/-- Modelled from the spec: `HashTable_element_count` of the associative container
(`HT/HashTable.h`, not under src/): the number of pairs held. -/
def HashTable_element_count {α : Type} (ht : List (List Char × α)) : Nat := ht.length

/-! ## Value model -/

/-- The tagged union `struct JsonObj`: one constructor per `JsonType` tag with its payload. -/
inductive JsonObj (Num : Type) where
  | JString (str : List Char)
  | JNumber (num : Num)
  | JBool (bool : Int)
  | JArray (array : List (JsonObj Num))
  | JDict (dict : List (List Char × JsonObj Num))
  | JNull

/-- The tags of `JsonType`. -/
inductive JsonType where
  | JString | JNumber | JBool | JArray | JDict | JNull
  deriving DecidableEq, Repr

variable {Num : Type}

def JsonObj_get_type : JsonObj Num → JsonType
  | .JString _ => .JString
  | .JNumber _ => .JNumber
  | .JBool _ => .JBool
  | .JArray _ => .JArray
  | .JDict _ => .JDict
  | .JNull => .JNull

def JsonObj_new_string (str : List Char) : JsonObj Num := .JString str

def JsonObj_new_number (num : Num) : JsonObj Num := .JNumber num

def JsonObj_new_bool (boolean : Int) : JsonObj Num := .JBool boolean

def JsonObj_new_array : JsonObj Num := .JArray []

def JsonObj_new_dict : JsonObj Num := .JDict []

def JsonObj_new_null : JsonObj Num := .JNull

/-- The function `JsonObj_array_append`; `none` is the failed `assert(this->type == JArray)`. -/
def JsonObj_array_append (this elem : JsonObj Num) : Option (JsonObj Num) :=
  match this with
  | .JArray array => some (.JArray (List_append array elem))
  | _ => none

/-- The function `JsonObj_dict_add`; `none` is the failed `assert(this->type == JDict)`. -/
def JsonObj_dict_add (this : JsonObj Num) (key : List Char) (value : JsonObj Num) :
    Option (JsonObj Num) :=
  match this with
  | .JDict dict => some (.JDict (HashTable_insert dict key value))
  | _ => none

/-! ## Printer -/

/-- The function `print_indentation`: `depth` times four spaces. -/
def print_indentation : Nat → List Char
  | 0 => []
  | depth + 1 => [' ', ' ', ' ', ' '] ++ print_indentation depth

mutual
/-- The function `JsonObj_print`, with `JsonObj_str_print`, `JsonObj_num_print` and
`JsonObj_bool_print` written in place. The two container branches are `JsonObj_list_print` and
`JsonObj_dict_print` written in place around their loops: a fresh iterator's `peak` is null
exactly on the empty container. -/
def JsonObj_print (L : Libc Num) : JsonObj Num → Nat → List Char
  | .JString str, _ => ['"'] ++ str ++ ['"']
  | .JNumber num, _ => L.printf_lf num
  | .JBool b, _ => if b = 0 then ['f', 'a', 'l', 's', 'e'] else ['t', 'r', 'u', 'e']
  | .JArray array, depth =>
    if array.isEmpty then ['[', ' ', ']']
    else ['[', '\n'] ++ JsonObj_list_print_loop L array depth ++ ['\n']
      ++ print_indentation depth ++ [']']
  | .JDict dict, depth =>
    if dict.isEmpty then ['{', '}']
    else ['{', '\n']
      ++ JsonObj_dict_print_loop L dict depth 1 (HashTable_element_count dict)
      ++ print_indentation depth ++ ['}']
  | .JNull, _ => ['n', 'u', 'l', 'l']
/-- The `while(ListIterator_has_next(iter))` loop of `JsonObj_list_print` followed by the print
of the last item. Modelled from the spec: the iterator of the sequence container
(`ListIterator_has_next`, `ListIterator_next`; List/List.h is not under src/) walks the items in
order and `has_next` holds while an item follows the current one, so that the loop prints
"each child ... followed by a comma except the last child". The argument is what the iterator
has not yet returned; the loop is never entered on the empty list. -/
def JsonObj_list_print_loop (L : Libc Num) : List (JsonObj Num) → Nat → List Char
  | [], _ => []
  | [list_item], depth =>
    print_indentation (depth + 1) ++ JsonObj_print L list_item (depth + 1)
  | list_item :: y :: rest, depth =>
    print_indentation (depth + 1) ++ JsonObj_print L list_item (depth + 1) ++ [',', '\n']
      ++ JsonObj_list_print_loop L (y :: rest) depth
/-- The `while(pair = HTPairIterator_next(iter))` loop of `JsonObj_dict_print`; `pair_num` is the
counter the loop increments, `total_pairs` the element count read before the loop. Modelled
from the spec: the pair iterator of the associative container (HT/HashTable.h is not under
src/) returns the pairs one by one, here in the order of the list. -/
def JsonObj_dict_print_loop (L : Libc Num) :
    List (List Char × JsonObj Num) → Nat → Nat → Nat → List Char
  | [], _, _, _ => []
  | (key, value) :: rest, depth, pair_num, total_pairs =>
    print_indentation (depth + 1) ++ (['"'] ++ key ++ ['"', ' ', ':', ' '])
      ++ JsonObj_print L value (depth + 1)
      ++ (if pair_num < total_pairs then [',', '\n'] else ['\n'])
      ++ JsonObj_dict_print_loop L rest depth (pair_num + 1) total_pairs
end

/-- The function `JsonObj_list_print`, on the array payload. -/
def JsonObj_list_print (L : Libc Num) (array : List (JsonObj Num)) (depth : Nat) : List Char :=
  if array.isEmpty then ['[', ' ', ']']
  else ['[', '\n'] ++ JsonObj_list_print_loop L array depth ++ ['\n']
    ++ print_indentation depth ++ [']']

/-- The function `JsonObj_dict_print`, on the dictionary payload. -/
def JsonObj_dict_print (L : Libc Num) (dict : List (List Char × JsonObj Num)) (depth : Nat) :
    List Char :=
  if dict.isEmpty then ['{', '}']
  else ['{', '\n']
    ++ JsonObj_dict_print_loop L dict depth 1 (HashTable_element_count dict)
    ++ print_indentation depth ++ ['}']

/-- The function `JsonObj_fprint`: the text written to `fp`; `none` is the failed
`assert(this->type == JDict)`. -/
def JsonObj_fprint (L : Libc Num) (this : JsonObj Num) : Option (List Char) :=
  match this with
  | .JDict dict => some (JsonObj_dict_print L dict 0 ++ ['\n'])
  | _ => none

/-! ## Parser -/

/-- The terminating NUL of a C string. -/
def NUL : Char := Char.ofNat 0

/-- The character `**sp`. -/
def deref (sp : List Char) : Char := sp.headD NUL

/-- The function `skip_empty`: the cursor moved over spaces, newlines, tabs and carriage
returns. -/
def skip_empty : List Char → List Char
  | [] => []
  | c :: rest =>
    if c = ' ' ∨ c = '\n' ∨ c = '\t' ∨ c = '\r' then skip_empty rest else c :: rest

/-- The `while(c = **sp)` loop of `parse_str`: `acc` holds the `len` characters passed since
`str_start`. As in the source, `prev` is only ever reset to 0, never set to the character just
read. -/
def parse_str_loop : List Char → Char → List Char → Option (List Char × List Char)
  | [], _, _ => none
  | c :: rest, prev, acc =>
    if c = NUL then none
    else if c = '\\' ∧ prev = '\\' then parse_str_loop rest NUL (acc ++ [c])
    else if c = '"' ∧ prev ≠ '\\' then some (acc, rest)
    else parse_str_loop rest prev (acc ++ [c])

/-- The function `parse_str`: the copied string and the cursor after the closing quote. Both
callers enter with the cursor on a double quote (`assert(**sp == '"')`); any other cursor gives
`none`. -/
def parse_str (sp : List Char) : Option (List Char × List Char) :=
  match sp with
  | [] => none
  | c :: rest => if c = '"' then parse_str_loop rest NUL [] else none

/-- The characters `skip_empty` steps over. -/
def isBlank (c : Char) : Prop := c = ' ' ∨ c = '\n' ∨ c = '\t' ∨ c = '\r'

/-- The characters at which `read_token` stops. -/
def isTokenEnd (c : Char) : Prop :=
  c = ' ' ∨ c = '\t' ∨ c = '\r' ∨ c = '\n' ∨ c = ',' ∨ c = '}'

instance (c : Char) : Decidable (isTokenEnd c) := by
  unfold isTokenEnd; infer_instance

/-- The `while(c = **sp)` loop of `read_token`: `acc` holds the `len` characters passed since
`token_start`. -/
def read_token_loop : List Char → List Char → Option (List Char × List Char)
  | [], _ => none
  | c :: rest, acc =>
    if c = NUL then none
    else if isTokenEnd c then some (acc, c :: rest)
    else read_token_loop rest (acc ++ [c])

/-- The function `read_token`: the token and the cursor, left on the character that ended it. -/
def read_token (sp : List Char) : Option (List Char × List Char) := read_token_loop sp []

/-- The result of a parsing function run with a fuel bound: a value, the C `NULL`, or the
answer of a run that used up its fuel. -/
inductive Outcome (α : Type) where
  | ok (a : α)
  | fail
  | timeout

/-- A result of the loop-free parsing functions as an `Outcome`. -/
def Outcome.ofOption {α : Type} : Option α → Outcome α
  | some a => .ok a
  | none => .fail

/-- The function `JsonObj_parse_str`. -/
def JsonObj_parse_str (sp : List Char) : Option (JsonObj Num × List Char) :=
  match parse_str sp with
  | none => none
  | some (str, sp1) => some (JsonObj_new_string str, sp1)

/-- The function `JsonObj_parse_bool_true`. -/
def JsonObj_parse_bool_true (sp : List Char) : Option (JsonObj Num × List Char) :=
  match read_token sp with
  | none => none
  | some (str, sp1) =>
    if str ≠ ['t', 'r', 'u', 'e'] then none else some (JsonObj_new_bool 1, sp1)

/-- The function `JsonObj_parse_bool_false`. -/
def JsonObj_parse_bool_false (sp : List Char) : Option (JsonObj Num × List Char) :=
  match read_token sp with
  | none => none
  | some (str, sp1) =>
    if str ≠ ['f', 'a', 'l', 's', 'e'] then none else some (JsonObj_new_bool 0, sp1)

/-- The function `JsonObj_parse_null`. -/
def JsonObj_parse_null (sp : List Char) : Option (JsonObj Num × List Char) :=
  match read_token sp with
  | none => none
  | some (str, sp1) =>
    if str ≠ ['n', 'u', 'l', 'l'] then none else some (JsonObj_new_null, sp1)

/-- The function `JsonObj_parse_number`. -/
def JsonObj_parse_number (L : Libc Num) (sp : List Char) : Option (JsonObj Num × List Char) :=
  match read_token sp with
  | none => none
  | some (str, sp1) =>
    if str.length = 0 ∨ (L.strtod str).2 ≠ str.length then none
    else some (JsonObj_new_number (L.strtod str).1, sp1)

mutual
/-- The function `parse_unknown`. The two container branches are `JsonObj_parse_dict` and
`JsonObj_parse_array` with their first two statements in place: the cursor steps over the
bracket and the loop starts on a new empty container. -/
def parse_unknown (L : Libc Num) : Nat → List Char → Outcome (JsonObj Num × List Char)
  | 0, _ => .timeout
  | fuel + 1, sp =>
    if deref (skip_empty sp) = '{' then JsonObj_parse_dict_loop L fuel [] (skip_empty sp).tail
    else if deref (skip_empty sp) = '"' then Outcome.ofOption (JsonObj_parse_str (skip_empty sp))
    else if deref (skip_empty sp) = '[' then
      JsonObj_parse_array_loop L fuel [] (skip_empty sp).tail
    else if deref (skip_empty sp) = 't' then
      Outcome.ofOption (JsonObj_parse_bool_true (skip_empty sp))
    else if deref (skip_empty sp) = 'f' then
      Outcome.ofOption (JsonObj_parse_bool_false (skip_empty sp))
    else if deref (skip_empty sp) = 'n' then
      Outcome.ofOption (JsonObj_parse_null (skip_empty sp))
    else Outcome.ofOption (JsonObj_parse_number L (skip_empty sp))
/-- The `while(1)` loop of `JsonObj_parse_array`; `jarray` is the list built so far. -/
def JsonObj_parse_array_loop (L : Libc Num) :
    Nat → List (JsonObj Num) → List Char → Outcome (JsonObj Num × List Char)
  | 0, _, _ => .timeout
  | fuel + 1, jarray, sp =>
    if deref (skip_empty sp) = ']' then .ok (.JArray jarray, (skip_empty sp).tail)
    else
      match parse_unknown L fuel (skip_empty sp) with
      | .timeout => .timeout
      | .fail => .fail
      | .ok (json_obj, sp1) =>
        if deref (skip_empty sp1) = ',' then
          JsonObj_parse_array_loop L fuel (List_append jarray json_obj) (skip_empty sp1).tail
        else JsonObj_parse_array_loop L fuel (List_append jarray json_obj) (skip_empty sp1)
/-- The `while(1)` loop of `JsonObj_parse_dict`; `jdict` is the dictionary built so far. -/
def JsonObj_parse_dict_loop (L : Libc Num) :
    Nat → List (List Char × JsonObj Num) → List Char → Outcome (JsonObj Num × List Char)
  | 0, _, _ => .timeout
  | fuel + 1, jdict, sp =>
    if deref (skip_empty sp) = '"' then
      match parse_str (skip_empty sp) with
      | none => .fail
      | some (key, sp1) =>
        if deref (skip_empty sp1) ≠ ':' then .fail
        else
          match parse_unknown L fuel (skip_empty (skip_empty sp1).tail) with
          | .timeout => .timeout
          | .fail => .fail
          | .ok (value, sp2) =>
            if deref (skip_empty sp2) = ',' then
              JsonObj_parse_dict_loop L fuel (HashTable_insert jdict key value)
                (skip_empty sp2).tail
            else if deref (skip_empty sp2) = '}' then
              .ok (.JDict (HashTable_insert jdict key value), (skip_empty sp2).tail)
            else .fail
    else .fail
end

/-- The function `JsonObj_parse_array`, entered with the cursor on the opening bracket. -/
def JsonObj_parse_array (L : Libc Num) (fuel : Nat) (sp : List Char) :
    Outcome (JsonObj Num × List Char) :=
  JsonObj_parse_array_loop L fuel [] sp.tail

/-- The function `JsonObj_parse_dict`, entered with the cursor on the opening brace. -/
def JsonObj_parse_dict (L : Libc Num) (fuel : Nat) (sp : List Char) :
    Outcome (JsonObj Num × List Char) :=
  JsonObj_parse_dict_loop L fuel [] sp.tail

/-- The function `JsonObj_parse_string` run with a given fuel. -/
def JsonObj_parse_string_fuel (L : Libc Num) (fuel : Nat) (sp : List Char) :
    Outcome (JsonObj Num) :=
  match parse_unknown L fuel sp with
  | .timeout => .timeout
  | .fail => .fail
  | .ok (this, _) =>
    match this with
    | .JDict dict => .ok (.JDict dict)
    | _ => .fail

/-- The function `JsonObj_parse_string`, run with fuel that is enough for every text
(`parse_fuel_enough`). -/
def JsonObj_parse_string (L : Libc Num) (sp : List Char) : Outcome (JsonObj Num) :=
  JsonObj_parse_string_fuel L (2 * sp.length + 1) sp

/-! ## An executable instance of the libc conversions -/

/-- Value of a run of decimal digits read left to right, starting from `acc`. -/
def digitsValue : List Char → Nat → Nat
  | [], acc => acc
  | c :: rest, acc => digitsValue rest (acc * 10 + (c.toNat - 48))

/-- Decimal `strtod` on numbers counted in units of `10^-9`: an optional sign, digits, and an
optional point followed by digits, of which nine are kept. With no digit at all nothing is
converted (value 0, zero characters consumed). Exponents, hexadecimal forms, `inf` and
`nan` are not in this instance. -/
def decimal9_strtod (str : List Char) : Int × Nat :=
  let nsign : Nat := if deref str = '-' ∨ deref str = '+' then 1 else 0
  let s1 := str.drop nsign
  let ip := s1.takeWhile Char.isDigit
  let s2 := s1.dropWhile Char.isDigit
  let fp := if deref s2 = '.' then s2.tail.takeWhile Char.isDigit else []
  let npoint : Nat := if deref s2 = '.' then 1 else 0
  if ip.length + fp.length = 0 then (0, 0)
  else
    let frac9 := (fp ++ List.replicate 9 '0').take 9
    let mag : Int := ((digitsValue ip 0 * 1000000000 + digitsValue frac9 0 : Nat) : Int)
    (if deref str = '-' then -mag else mag, nsign + ip.length + npoint + fp.length)

/-- The format `%lf` on numbers counted in units of `10^-9`: sign, integer part, a point and
six decimals (the decimals after the sixth are dropped). -/
def decimal9_printf_lf (x : Int) : List Char :=
  let frac := Nat.toDigits 10 (x.natAbs % 1000000000 / 1000)
  (if x < 0 then ['-'] else []) ++ Nat.toDigits 10 (x.natAbs / 1000000000) ++ ['.']
    ++ List.replicate (6 - frac.length) '0' ++ frac

/-- An executable instance of `Libc` for decimal texts. -/
def decimal9 : Libc Int := ⟨decimal9_strtod, decimal9_printf_lf⟩

/-! ## Definitions that follow the words of the specification -/

/-- Spec-side definition of "the token", in the words of the specification: the characters
"up to (not including) the first occurrence of one of: space, tab, CR, LF, comma, `}`". The C
string at the cursor ends at the first NUL; a string with none of the six characters has no
token. -/
def specToken (sp : List Char) : Option (List Char) :=
  if (sp.takeWhile (fun c => c ≠ NUL)).all (fun c => ¬ isTokenEnd c) then none
  else some ((sp.takeWhile (fun c => c ≠ NUL)).takeWhile (fun c => ¬ isTokenEnd c))

mutual
/-- Spec-side definition of the printed text of a value at nesting depth `depth`, in the words
of the specification: scalars inline; "empty array prints `[ ]` on one line, empty dict prints
`{}`; non-empty arrays/dicts print an opening brace/bracket, newline, each child indented one
level deeper followed by a comma except the last child, newline, then the closing
brace/bracket at the parent's indentation", with "4 spaces per nesting depth". -/
def specLayout (L : Libc Num) : JsonObj Num → Nat → List Char
  | .JString str, _ => ['"'] ++ str ++ ['"']
  | .JNumber num, _ => L.printf_lf num
  | .JBool b, _ => if b = 0 then ['f', 'a', 'l', 's', 'e'] else ['t', 'r', 'u', 'e']
  | .JNull, _ => ['n', 'u', 'l', 'l']
  | .JArray array, depth =>
    if array.isEmpty then ['[', ' ', ']']
    else ['[', '\n'] ++ List.intercalate [',', '\n'] (specArrayLines L array depth) ++ ['\n']
      ++ List.replicate (4 * depth) ' ' ++ [']']
  | .JDict dict, depth =>
    if dict.isEmpty then ['{', '}']
    else ['{', '\n'] ++ List.intercalate [',', '\n'] (specDictLines L dict depth) ++ ['\n']
      ++ List.replicate (4 * depth) ' ' ++ ['}']
/-- Spec-side: the lines of the children of an array at depth `depth`, each prefixed by
`4 * (depth + 1)` spaces. -/
def specArrayLines (L : Libc Num) : List (JsonObj Num) → Nat → List (List Char)
  | [], _ => []
  | x :: xs, depth =>
    (List.replicate (4 * (depth + 1)) ' ' ++ specLayout L x (depth + 1))
      :: specArrayLines L xs depth
/-- Spec-side: the lines of the children of a dict at depth `depth`, each written as
`"key" : value` and prefixed by `4 * (depth + 1)` spaces. -/
def specDictLines (L : Libc Num) : List (List Char × JsonObj Num) → Nat → List (List Char)
  | [], _ => []
  | (key, value) :: rest, depth =>
    (List.replicate (4 * (depth + 1)) ' ' ++ (['"'] ++ key ++ ['"', ' ', ':', ' '])
        ++ specLayout L value (depth + 1))
      :: specDictLines L rest depth
end

/-! ## Trees that survive printing and parsing -/

/-- Text that can be written between double quotes and read back: it holds no double quote
and, being a C string, no NUL. -/
def quotable (s : List Char) : Bool := s.all (fun c => c ≠ '"' ∧ c ≠ NUL)

/-- A number whose `%lf` text is read back as the same number: the text is a non-empty token
(no NUL, none of the six token-ending characters), does not start with a character that
`parse_unknown` or the array loop dispatch on, and `strtod` converts all of it to the number
that was printed. -/
def numberReadsBack [DecidableEq Num] (L : Libc Num) (x : Num) : Bool :=
  decide (L.printf_lf x ≠ []) && (L.printf_lf x).all (fun c => c ≠ NUL ∧ ¬ isTokenEnd c)
    && decide (deref (L.printf_lf x) ∉ ['{', '"', '[', ']', 't', 'f', 'n'])
    && decide (L.strtod (L.printf_lf x) = (x, (L.printf_lf x).length))

mutual
/-- The trees of the amended round trip: strings and keys are quotable, Bool payloads are 0 or
1, numbers read back, and no dict is empty. -/
def roundTrips [DecidableEq Num] (L : Libc Num) : JsonObj Num → Bool
  | .JString str => quotable str
  | .JNumber num => numberReadsBack L num
  | .JBool b => decide (b = 0 ∨ b = 1)
  | .JNull => true
  | .JArray array => roundTripsList L array
  | .JDict dict => !dict.isEmpty && roundTripsPairs L dict
/-- Every element of an array payload satisfies `roundTrips`. -/
def roundTripsList [DecidableEq Num] (L : Libc Num) : List (JsonObj Num) → Bool
  | [] => true
  | x :: xs => roundTrips L x && roundTripsList L xs
/-- Every key of a dict payload is quotable and every value satisfies `roundTrips`. -/
def roundTripsPairs [DecidableEq Num] (L : Libc Num) : List (List Char × JsonObj Num) → Bool
  | [] => true
  | (key, value) :: rest => quotable key && roundTrips L value && roundTripsPairs L rest
end

/-! ## Vector (`Vector/Vector.c`) -/

/-- The value of an `int32_t` object that holds the low 32 bits of `x` (two's complement). -/
def wrap32 (x : Int) : Int := (x + 2147483648) % 4294967296 - 2147483648

/-- The value of an `int32_t` converted to `uint32_t`. -/
def toU32 (x : Int) : Nat := (x % 4294967296).toNat

/-- The structure `struct Vector`. A `void*` is a natural number, 0 being `NULL`; `table` holds
the slots that were allocated. -/
structure Vector where
  table : List Nat
  capacity : Int
  element_count : Int
  deriving DecidableEq, Repr

def DEF_SIZE : Nat := 50

/-- The libc call `calloc(n, sizeof(void*))`: `n` null slots. -/
def calloc (n : Nat) : List Nat := List.replicate n 0

/-- The libc call `memcpy(dst, src, n * sizeof(void*))` on slot tables: the first `n` slots of
`dst` are replaced by those of `src`. -/
def memcpy (dst src : List Nat) (n : Nat) : List Nat := src.take n ++ dst.drop n

/-- The assignment `table[idx] = data`. A store outside the allocated slots is undefined
behaviour in C; the model leaves the table as it is. -/
def store (table : List Nat) (idx : Int) (data : Nat) : List Nat :=
  if 0 ≤ idx ∧ idx < table.length then table.set idx.toNat data else table

/-- The function `Vector_expand`: the return code and the vector. A negative element count
(a doubling that left the `int32_t` range) converts to a `size_t` no allocation can serve, so
`calloc` returns `NULL` and the function returns -1. -/
def Vector_expand (this : Vector) : Int × Vector :=
  if wrap32 (this.capacity * 2) < 0 then (-1, this)
  else
    (0, { this with
      table := memcpy (calloc (wrap32 (this.capacity * 2)).toNat) this.table this.capacity.toNat
      capacity := wrap32 (this.capacity * 2) })

/-- The function `Vector_new_init_size`; `size` is an `unsigned int`. -/
def Vector_new_init_size (size : Nat) : Vector :=
  { table := calloc size, capacity := wrap32 size, element_count := 0 }

/-- The function `Vector_new`. -/
def Vector_new : Vector := Vector_new_init_size DEF_SIZE

/-- The function `Vector_size`. -/
def Vector_size (this : Vector) : Nat := toU32 this.element_count

/-- The function `Vector_clear`: the slots below `capacity` are set to `NULL`. -/
def Vector_clear (this : Vector) : Vector :=
  { this with
    table := List.replicate (min this.capacity.toNat this.table.length) 0
      ++ this.table.drop this.capacity.toNat
    element_count := 0 }

/-- The function `Vector_pushback`: the return code and the vector. -/
def Vector_pushback (this : Vector) (data : Nat) : Int × Vector :=
  if data = 0 then (-2, this)
  else if this.element_count ≥ this.capacity then
    if (Vector_expand this).1 = -1 then (-1, (Vector_expand this).2)
    else
      (0, { (Vector_expand this).2 with
        table := store (Vector_expand this).2.table this.element_count data
        element_count := wrap32 ((Vector_expand this).2.element_count + 1) })
  else
    (0, { this with
      table := store this.table this.element_count data
      element_count := wrap32 (this.element_count + 1) })

/-- The function `Vector_set`: the return code and the vector; `index` is a `uint32_t`, and
the comparisons with `element_count` are made in `uint32_t`. -/
def Vector_set (this : Vector) (data : Nat) (index : Nat) : Int × Vector :=
  if index > toU32 this.element_count then (-1, this)
  else if index = toU32 this.element_count then Vector_pushback this data
  else if data = 0 then (-2, this)
  else (0, { this with table := store this.table index data })

/-! ## Vector: reading, iterating, deserializing -/

/-- The read `table[idx]`; `none` is a read outside the allocated slots, which is undefined
behaviour in C. -/
def load (table : List Nat) (idx : Int) : Option Nat :=
  if 0 ≤ idx then table.get? idx.toNat else none

/-- The function `Vector_get`: the pointer returned, `some 0` being `NULL`; `index` is a
`uint32_t` and the comparison with `element_count` is made in `uint32_t`. -/
def Vector_get (this : Vector) (index : Nat) : Option Nat :=
  if index ≥ toU32 this.element_count then some 0 else load this.table index

/-- The function `Vector_front`. -/
def Vector_front (this : Vector) : Option Nat := load this.table 0

/-- The function `Vector_back`. -/
def Vector_back (this : Vector) : Option Nat :=
  if this.element_count = 0 then some 0 else load this.table (this.element_count - 1)

/-- Modelled from the spec: the type `VIterator` is declared in Vector.h, which is not under
src/; "a position-based iterator" with the two fields that `VIterator_new` fills, typed as in
the struct commented out at the top of Vector.c (`Vector* vector; int32_t index;`). The
iterator of the model holds the vector it points to. -/
structure VIterator where
  vector : Vector
  index : Int
  deriving DecidableEq, Repr

/-- The function `VIterator_new`. -/
def VIterator_new (vector : Vector) : VIterator := { vector := vector, index := 0 }

/-- The function `VIterator_peak`: the pointer returned; the iterator is not assigned to. -/
def VIterator_peak (this : VIterator) : Option Nat :=
  if this.index ≥ this.vector.element_count then some 0
  else load this.vector.table this.index

/-- The function `VIterator_next`: the pointer returned and the iterator after the call. -/
def VIterator_next (this : VIterator) : Option Nat × VIterator :=
  if this.index ≥ this.vector.element_count then (some 0, this)
  else (load this.vector.table this.index, { this with index := wrap32 (this.index + 1) })

/-- The function `VIterator_reset`. -/
def VIterator_reset (this : VIterator) : VIterator := { this with index := 0 }

/-- The `for` loop of `Vector_deserialize`, with `count` turns left: `fp` is the state of the
stream, `item_deserializer` the caller's reader (the pointer it returns and the stream after
it), `items` the pointers the reader has returned so far, in call order. -/
def Vector_deserialize_loop {σ : Type} (item_deserializer : σ → Nat × σ) :
    Nat → σ → Vector → List Nat → Vector × σ × List Nat
  | 0, fp, this, items => (this, fp, items)
  | count + 1, fp, this, items =>
    Vector_deserialize_loop item_deserializer count (item_deserializer fp).2
      (if (item_deserializer fp).1 ≠ 0 then (Vector_pushback this (item_deserializer fp).1).2
        else this)
      (items ++ [(item_deserializer fp).1])

/-- The function `Vector_deserialize`: the vector returned, the stream after the call and the
pointers the reader returned. `fread_count` is the `fread` of the 4-byte `uint32_t` element
count: the count and the stream after it. -/
def Vector_deserialize {σ : Type} (fread_count : σ → Nat × σ)
    (item_deserializer : σ → Nat × σ) (fp : σ) : Vector × σ × List Nat :=
  Vector_deserialize_loop item_deserializer (fread_count fp).1 (fread_count fp).2
    (Vector_new_init_size (fread_count fp).1) []

/-! ## Sequences of calls -/

/-- Successive calls of `Vector_pushback`, one per item: the return codes in call order and
the vector after the last call. -/
def Vector_pushback_list (this : Vector) : List Nat → List Int × Vector
  | [] => ([], this)
  | data :: rest =>
    ((Vector_pushback this data).1 :: (Vector_pushback_list (Vector_pushback this data).2 rest).1,
      (Vector_pushback_list (Vector_pushback this data).2 rest).2)

/-- A call of one of the functions that assign to a vector, with its arguments. -/
inductive VectorCall where
  | pushback (data : Nat)
  | set (data : Nat) (index : Nat)
  | clear
  deriving DecidableEq, Repr

/-- The vector after a call. -/
def VectorCall.run (this : Vector) : VectorCall → Vector
  | .pushback data => (Vector_pushback this data).2
  | .set data index => (Vector_set this data index).2
  | .clear => Vector_clear this

/-- The vector after a sequence of calls. -/
def Vector_after (this : Vector) (calls : List VectorCall) : Vector :=
  calls.foldl VectorCall.run this

/-- Successive calls of `VIterator_next`: the pointers returned in call order and the iterator
after the last call. -/
def VIterator_next_list (this : VIterator) : Nat → List (Option Nat) × VIterator
  | 0 => ([], this)
  | calls + 1 =>
    ((VIterator_next this).1 :: (VIterator_next_list (VIterator_next this).2 calls).1,
      (VIterator_next_list (VIterator_next this).2 calls).2)

/-- A vector that holds the items `xs` in a table of `cap` slots: the items fill the first
slots in order, the slots after them are null, and the two counters are the number of items
and the number of slots, within the `int32_t` range. -/
def Vector_holds (this : Vector) (xs : List Nat) (cap : Nat) : Prop :=
  this.table = xs ++ List.replicate (cap - xs.length) 0 ∧ this.capacity = cap ∧
    this.element_count = xs.length ∧ xs.length ≤ cap ∧ cap < 2147483648

/-- Spec-side: the capacity `cap` is the initial capacity `c` doubled the least number of
times that makes room for `n` items: `cap = c * 2^k` for the least `k` with `c * 2^k >= n`. -/
def leastDoubling (c cap n : Nat) : Prop :=
  ∃ k, cap = c * 2 ^ k ∧ n ≤ c * 2 ^ k ∧ ∀ j, j < k → c * 2 ^ j < n

/-- The vectors met after calls on a new vector whose initial size is an `int32_t`: either a
table without slots and capacity 0, or a table of at least one slot that holds non-null
items. -/
def Vector_reached (this : Vector) : Prop :=
  (this.table = [] ∧ this.capacity = 0) ∨
    ∃ xs cap, Vector_holds this xs cap ∧ 1 ≤ cap ∧ ∀ x ∈ xs, x ≠ 0

/-! ## Trees without an empty dict -/

mutual
/-- No dict of the tree is empty, at any depth. -/
def noEmptyDict : JsonObj Num → Bool
  | .JString _ => true
  | .JNumber _ => true
  | .JBool _ => true
  | .JNull => true
  | .JArray array => noEmptyDictList array
  | .JDict dict => !dict.isEmpty && noEmptyDictPairs dict
/-- No dict of the elements of an array payload is empty. -/
def noEmptyDictList : List (JsonObj Num) → Bool
  | [] => true
  | x :: xs => noEmptyDict x && noEmptyDictList xs
/-- No dict of the values of a dict payload is empty. -/
def noEmptyDictPairs : List (List Char × JsonObj Num) → Bool
  | [] => true
  | (_, value) :: rest => noEmptyDict value && noEmptyDictPairs rest
end

/-! ## The functions written in place in the recursive definitions -/

theorem parse_unknown_calls_parse_dict (L : Libc Num) (fuel : Nat) (sp : List Char)
    (h : deref (skip_empty sp) = '{') :
    parse_unknown L (fuel + 1) sp = JsonObj_parse_dict L fuel (skip_empty sp) := by
  rw [parse_unknown, if_pos h, JsonObj_parse_dict]

theorem parse_unknown_calls_parse_array (L : Libc Num) (fuel : Nat) (sp : List Char)
    (h : deref (skip_empty sp) = '[') :
    parse_unknown L (fuel + 1) sp = JsonObj_parse_array L fuel (skip_empty sp) := by
  rw [parse_unknown, if_neg (by rw [h]; decide), if_neg (by rw [h]; decide), if_pos h,
    JsonObj_parse_array]

theorem print_calls_list_print (L : Libc Num) (array : List (JsonObj Num)) (depth : Nat) :
    JsonObj_print L (.JArray array) depth = JsonObj_list_print L array depth := by
  rw [JsonObj_print, JsonObj_list_print]

theorem print_calls_dict_print (L : Libc Num) (dict : List (List Char × JsonObj Num))
    (depth : Nat) : JsonObj_print L (.JDict dict) depth = JsonObj_dict_print L dict depth := by
  rw [JsonObj_print, JsonObj_dict_print]

theorem array_append_eq (array : List (JsonObj Num)) (elem : JsonObj Num) :
    JsonObj_array_append (.JArray array) elem = some (.JArray (List_append array elem)) := rfl

theorem dict_add_eq (dict : List (List Char × JsonObj Num)) (key : List Char)
    (value : JsonObj Num) :
    JsonObj_dict_add (.JDict dict) key value
      = some (.JDict (HashTable_insert dict key value)) := rfl

/-! ## Cursor movement of the loop-free parsing functions -/

theorem skip_empty_suffix (sp : List Char) : ∃ ws, sp = ws ++ skip_empty sp := by
  induction sp with
  | nil => exact ⟨[], rfl⟩
  | cons c rest ih =>
    unfold skip_empty
    split
    · obtain ⟨ws, h⟩ := ih
      exact ⟨c :: ws, by rw [List.cons_append, ← h]⟩
    · exact ⟨[], rfl⟩

theorem skip_empty_length_le (sp : List Char) : (skip_empty sp).length ≤ sp.length := by
  obtain ⟨ws, h⟩ := skip_empty_suffix sp
  have := congrArg List.length h
  simp at this; omega

theorem deref_cons_of_ne_NUL {sp : List Char} {c : Char} (h : deref sp = c) (hc : c ≠ NUL) :
    sp = c :: sp.tail := by
  cases sp with
  | nil => simp [deref] at h; exact absurd h.symm hc
  | cons a r => simp [deref] at h; simp [h]

theorem parse_str_loop_suffix : ∀ (s : List Char) (prev : Char) (acc str rest : List Char),
    parse_str_loop s prev acc = some (str, rest) → ∃ mid, s = mid ++ '"' :: rest := by
  intro s
  induction s with
  | nil => intro prev acc str rest h; simp [parse_str_loop] at h
  | cons c r ih =>
    intro prev acc str rest h
    unfold parse_str_loop at h
    split at h
    · simp at h
    · split at h
      · obtain ⟨mid, hm⟩ := ih _ _ _ _ h
        exact ⟨c :: mid, by rw [hm]; rfl⟩
      · split at h
        · rename_i hq
          simp at h
          exact ⟨[], by simp [hq.1, h.2]⟩
        · obtain ⟨mid, hm⟩ := ih _ _ _ _ h
          exact ⟨c :: mid, by rw [hm]; rfl⟩

theorem parse_str_suffix {sp str rest : List Char} (h : parse_str sp = some (str, rest)) :
    ∃ mid, sp = '"' :: mid ++ '"' :: rest := by
  unfold parse_str at h
  split at h
  · simp at h
  · split at h
    · rename_i hq
      obtain ⟨mid, hm⟩ := parse_str_loop_suffix _ _ _ _ _ h
      exact ⟨mid, by rw [hq, hm]; rfl⟩
    · simp at h

theorem read_token_loop_spec : ∀ (s acc tok rest : List Char),
    read_token_loop s acc = some (tok, rest) →
      ∃ pre d tl, s = pre ++ d :: tl ∧ rest = d :: tl ∧ tok = acc ++ pre ∧ isTokenEnd d ∧
        ∀ c ∈ pre, c ≠ NUL ∧ ¬ isTokenEnd c := by
  intro s
  induction s with
  | nil => intro acc tok rest h; simp [read_token_loop] at h
  | cons c r ih =>
    intro acc tok rest h
    unfold read_token_loop at h
    split at h
    · simp at h
    · rename_i hn
      split at h
      · rename_i he
        simp at h
        exact ⟨[], c, r, rfl, h.2.symm, by simp [h.1], he, by simp⟩
      · rename_i he
        obtain ⟨pre, d, tl, h1, h2, h3, h4, h5⟩ := ih _ _ _ h
        refine ⟨c :: pre, d, tl, by rw [h1]; rfl, h2, by simp [h3], h4, ?_⟩
        intro x hx
        simp at hx
        rcases hx with rfl | hx
        · exact ⟨hn, he⟩
        · exact h5 x hx

theorem ofOption_eq_ok {α : Type} {o : Option α} {a : α} (h : Outcome.ofOption o = .ok a) :
    o = some a := by
  cases o with
  | none => simp [Outcome.ofOption] at h
  | some b => simp [Outcome.ofOption] at h; simp [h]

theorem ofOption_ne_timeout {α : Type} (o : Option α) : Outcome.ofOption o ≠ .timeout := by
  cases o <;> simp [Outcome.ofOption]

theorem read_token_suffix {sp tok rest : List Char} (h : read_token sp = some (tok, rest)) :
    ∃ d tl, sp = tok ++ d :: tl ∧ rest = d :: tl ∧ isTokenEnd d ∧
      ∀ c ∈ tok, c ≠ NUL ∧ ¬ isTokenEnd c := by
  obtain ⟨pre, d, tl, h1, h2, h3, h4, h5⟩ := read_token_loop_spec _ _ _ _ h
  simp at h3
  subst h3
  exact ⟨d, tl, h1, h2, h4, h5⟩

/-- The scalar branches of `parse_unknown` leave the cursor on a proper suffix. -/
theorem scalar_suffix (L : Libc Num) {sp : List Char} {v : JsonObj Num} {rest : List Char} :
    (JsonObj_parse_str sp = some (v, rest) → ∃ pre, pre ≠ [] ∧ sp = pre ++ rest) ∧
    (JsonObj_parse_bool_true sp = some (v, rest) → ∃ pre, pre ≠ [] ∧ sp = pre ++ rest) ∧
    (JsonObj_parse_bool_false sp = some (v, rest) → ∃ pre, pre ≠ [] ∧ sp = pre ++ rest) ∧
    (JsonObj_parse_null sp = some (v, rest) → ∃ pre, pre ≠ [] ∧ sp = pre ++ rest) ∧
    (JsonObj_parse_number L sp = some (v, rest) → ∃ pre, pre ≠ [] ∧ sp = pre ++ rest) := by
  refine ⟨?_, ?_, ?_, ?_, ?_⟩
  · intro h
    unfold JsonObj_parse_str at h
    split at h
    · simp at h
    · rename_i str sp1 hs
      simp at h
      obtain ⟨mid, hm⟩ := parse_str_suffix hs
      exact ⟨'"' :: mid ++ ['"'], by simp, by rw [hm, ← h.2]; simp⟩
  · intro h
    unfold JsonObj_parse_bool_true at h
    split at h
    · simp at h
    · rename_i str sp1 hs
      split at h
      · simp at h
      · rename_i hne
        simp at h hne
        obtain ⟨d, tl, h1, h2, -, -⟩ := read_token_suffix hs
        exact ⟨str, by simp [hne], by rw [h1, ← h.2, h2]⟩
  · intro h
    unfold JsonObj_parse_bool_false at h
    split at h
    · simp at h
    · rename_i str sp1 hs
      split at h
      · simp at h
      · rename_i hne
        simp at h hne
        obtain ⟨d, tl, h1, h2, -, -⟩ := read_token_suffix hs
        exact ⟨str, by simp [hne], by rw [h1, ← h.2, h2]⟩
  · intro h
    unfold JsonObj_parse_null at h
    split at h
    · simp at h
    · rename_i str sp1 hs
      split at h
      · simp at h
      · rename_i hne
        simp at h hne
        obtain ⟨d, tl, h1, h2, -, -⟩ := read_token_suffix hs
        exact ⟨str, by simp [hne], by rw [h1, ← h.2, h2]⟩
  · intro h
    unfold JsonObj_parse_number at h
    split at h
    · simp at h
    · rename_i str sp1 hs
      split at h
      · simp at h
      · rename_i hne
        simp at h hne
        obtain ⟨d, tl, h1, h2, -, -⟩ := read_token_suffix hs
        exact ⟨str, by intro h0; simp [h0] at hne, by rw [h1, ← h.2, h2]⟩

/-- Cursor movement of the three mutually recursive parsing functions: a value returned by
`parse_unknown` consumed at least one character, and the two loops return just after a closing
bracket of their kind. -/
theorem parse_suffix (L : Libc Num) : ∀ fuel : Nat,
    (∀ sp v rest, parse_unknown L fuel sp = .ok (v, rest) → ∃ pre, pre ≠ [] ∧ sp = pre ++ rest) ∧
    (∀ acc sp v rest, JsonObj_parse_array_loop L fuel acc sp = .ok (v, rest) →
      ∃ pre, sp = pre ++ ']' :: rest) ∧
    (∀ acc sp v rest, JsonObj_parse_dict_loop L fuel acc sp = .ok (v, rest) →
      ∃ pre, sp = pre ++ '}' :: rest) := by
  intro fuel
  induction fuel with
  | zero =>
    refine ⟨?_, ?_, ?_⟩ <;> intros <;> simp_all [parse_unknown, JsonObj_parse_array_loop,
      JsonObj_parse_dict_loop]
  | succ fuel ih =>
    obtain ⟨ihU, ihA, ihD⟩ := ih
    have wrap : ∀ (sp rest : List Char), (∃ pre, pre ≠ [] ∧ skip_empty sp = pre ++ rest) →
        ∃ pre, pre ≠ [] ∧ sp = pre ++ rest := by
      intro sp rest ⟨pre, hp, he⟩
      obtain ⟨ws, hw⟩ := skip_empty_suffix sp
      exact ⟨ws ++ pre, by simp [hp], by rw [List.append_assoc, ← he, ← hw]⟩
    refine ⟨?_, ?_, ?_⟩
    · intro sp v rest h
      apply wrap
      unfold parse_unknown at h
      split at h
      · rename_i hc
        obtain ⟨pre, hp⟩ := ihD _ _ _ _ h
        refine ⟨'{' :: pre ++ ['}'], by simp, ?_⟩
        rw [deref_cons_of_ne_NUL hc (by decide), hp]; simp
      · split at h
        · exact (scalar_suffix L).1 (ofOption_eq_ok h)
        · split at h
          · rename_i hc
            obtain ⟨pre, hp⟩ := ihA _ _ _ _ h
            refine ⟨'[' :: pre ++ [']'], by simp, ?_⟩
            rw [deref_cons_of_ne_NUL hc (by decide), hp]; simp
          · split at h
            · exact (scalar_suffix L).2.1 (ofOption_eq_ok h)
            · split at h
              · exact (scalar_suffix L).2.2.1 (ofOption_eq_ok h)
              · split at h
                · exact (scalar_suffix L).2.2.2.1 (ofOption_eq_ok h)
                · exact (scalar_suffix L).2.2.2.2 (ofOption_eq_ok h)
    · intro acc sp v rest h
      obtain ⟨ws, hw⟩ := skip_empty_suffix sp
      unfold JsonObj_parse_array_loop at h
      split at h
      · rename_i hc
        simp at h
        refine ⟨ws, ?_⟩
        rw [← h.2, ← deref_cons_of_ne_NUL hc (by decide)]; exact hw
      · split at h
        · simp at h
        · simp at h
        · rename_i json_obj sp1 hu
          obtain ⟨pre1, -, hp1⟩ := ihU _ _ _ hu
          obtain ⟨ws1, hw1⟩ := skip_empty_suffix sp1
          split at h
          · rename_i hc
            obtain ⟨pre2, hp2⟩ := ihA _ _ _ _ h
            refine ⟨ws ++ pre1 ++ ws1 ++ ',' :: pre2, ?_⟩
            rw [hw, hp1, hw1, deref_cons_of_ne_NUL hc (by decide), hp2]; simp
          · obtain ⟨pre2, hp2⟩ := ihA _ _ _ _ h
            refine ⟨ws ++ pre1 ++ ws1 ++ pre2, ?_⟩
            rw [hw, hp1, hw1, hp2]; simp
    · intro acc sp v rest h
      obtain ⟨ws, hw⟩ := skip_empty_suffix sp
      unfold JsonObj_parse_dict_loop at h
      split at h
      · split at h
        · simp at h
        · rename_i key sp1 hk
          obtain ⟨mid, hm⟩ := parse_str_suffix hk
          obtain ⟨ws1, hw1⟩ := skip_empty_suffix sp1
          split at h
          · simp at h
          · rename_i hc
            simp at hc
            obtain ⟨ws2, hw2⟩ := skip_empty_suffix (skip_empty sp1).tail
            split at h
            · simp at h
            · simp at h
            · rename_i value sp2 hu
              obtain ⟨pre1, -, hp1⟩ := ihU _ _ _ hu
              obtain ⟨ws3, hw3⟩ := skip_empty_suffix sp2
              have hkv : sp = ws ++ ('"' :: mid ++ '"' :: (ws1 ++ ':' :: (ws2 ++ (pre1 ++ sp2)))) := by
                rw [← hp1, ← hw2, ← deref_cons_of_ne_NUL hc (by decide), ← hw1, ← hm, ← hw]
              split at h
              · rename_i hc2
                obtain ⟨pre2, hp2⟩ := ihD _ _ _ _ h
                refine ⟨ws ++ ('"' :: mid ++ '"' :: (ws1 ++ ':' :: (ws2 ++ (pre1 ++ (ws3 ++ ',' :: pre2))))), ?_⟩
                rw [hkv, hw3, deref_cons_of_ne_NUL hc2 (by decide), hp2]; simp
              · split at h
                · rename_i hc2
                  simp at h
                  refine ⟨ws ++ ('"' :: mid ++ '"' :: (ws1 ++ ':' :: (ws2 ++ (pre1 ++ ws3)))), ?_⟩
                  rw [hkv, hw3, deref_cons_of_ne_NUL hc2 (by decide), h.2]; simp
                · simp at h
      · simp at h

/-! ## Fuel -/

theorem length_of_suffix {sp pre rest : List Char} (h : sp = pre ++ rest) (hp : pre ≠ []) :
    rest.length < sp.length := by
  have := congrArg List.length h
  have hl : 0 < pre.length := List.length_pos.mpr hp
  simp at this; omega

theorem tail_length_of_deref {sp : List Char} {c : Char} (h : deref sp = c) (hc : c ≠ NUL) :
    sp.tail.length + 1 = sp.length := by
  cases sp with
  | nil => simp [deref] at h; exact absurd h.symm hc
  | cons a r => simp

/-- Enough fuel: twice the remaining length (plus one, or plus two in a loop) is never used
up. -/
theorem parse_fuel_enough (L : Libc Num) : ∀ fuel : Nat,
    (∀ sp, 2 * sp.length + 1 ≤ fuel → parse_unknown L fuel sp ≠ .timeout) ∧
    (∀ acc sp, 2 * sp.length + 2 ≤ fuel → JsonObj_parse_array_loop L fuel acc sp ≠ .timeout) ∧
    (∀ acc sp, 2 * sp.length + 2 ≤ fuel → JsonObj_parse_dict_loop L fuel acc sp ≠ .timeout) := by
  intro fuel
  induction fuel with
  | zero => refine ⟨?_, ?_, ?_⟩ <;> intros <;> omega
  | succ fuel ih =>
    obtain ⟨ihU, ihA, ihD⟩ := ih
    refine ⟨?_, ?_, ?_⟩
    · intro sp hf
      have hs := skip_empty_length_le sp
      unfold parse_unknown
      split
      · rename_i hc
        have := tail_length_of_deref hc (by decide)
        exact ihD _ _ (by omega)
      · split
        · exact ofOption_ne_timeout _
        · split
          · rename_i hc
            have := tail_length_of_deref hc (by decide)
            exact ihA _ _ (by omega)
          · split
            · exact ofOption_ne_timeout _
            · split
              · exact ofOption_ne_timeout _
              · split
                · exact ofOption_ne_timeout _
                · exact ofOption_ne_timeout _
    · intro acc sp hf
      have hs := skip_empty_length_le sp
      unfold JsonObj_parse_array_loop
      split
      · simp
      · split
        · rename_i hu
          exact absurd hu (ihU _ (by omega))
        · simp
        · rename_i json_obj sp1 hu
          obtain ⟨pre, hp, he⟩ := (parse_suffix L fuel).1 _ _ _ hu
          have h1 := length_of_suffix he hp
          have hs1 := skip_empty_length_le sp1
          split
          · rename_i hc
            have := tail_length_of_deref hc (by decide)
            exact ihA _ _ (by omega)
          · exact ihA _ _ (by omega)
    · intro acc sp hf
      have hs := skip_empty_length_le sp
      unfold JsonObj_parse_dict_loop
      split
      · split
        · simp
        · rename_i key sp1 hk
          obtain ⟨mid, hm⟩ := parse_str_suffix hk
          have h0 : sp1.length + 2 ≤ (skip_empty sp).length := by
            have := congrArg List.length hm
            simp at this; omega
          have hs1 := skip_empty_length_le sp1
          split
          · simp
          · rename_i hc
            simp at hc
            have ht := tail_length_of_deref hc (by decide)
            have hs2 := skip_empty_length_le (skip_empty sp1).tail
            split
            · rename_i hu
              exact absurd hu (ihU _ (by omega))
            · simp
            · rename_i value sp2 hu
              obtain ⟨pre, hp, he⟩ := (parse_suffix L fuel).1 _ _ _ hu
              have h1 := length_of_suffix he hp
              have hs3 := skip_empty_length_le sp2
              split
              · rename_i hc2
                have := tail_length_of_deref hc2 (by decide)
                exact ihD _ _ (by omega)
              · split
                · simp
                · simp
      · simp

/-- Tags of what the two loops return. -/
theorem loop_tags (L : Libc Num) : ∀ fuel : Nat,
    (∀ acc sp v rest, JsonObj_parse_array_loop L fuel acc sp = .ok (v, rest) →
      ∃ l, v = .JArray l) ∧
    (∀ acc sp v rest, JsonObj_parse_dict_loop L fuel acc sp = .ok (v, rest) →
      ∃ d, d ≠ [] ∧ v = .JDict d) := by
  intro fuel
  induction fuel with
  | zero =>
    refine ⟨?_, ?_⟩ <;> intros <;> simp_all [JsonObj_parse_array_loop, JsonObj_parse_dict_loop]
  | succ fuel ih =>
    obtain ⟨ihA, ihD⟩ := ih
    refine ⟨?_, ?_⟩
    · intro acc sp v rest h
      unfold JsonObj_parse_array_loop at h
      split at h
      · simp at h; exact ⟨acc, h.1.symm⟩
      · split at h
        · simp at h
        · simp at h
        · split at h
          · exact ihA _ _ _ _ h
          · exact ihA _ _ _ _ h
    · intro acc sp v rest h
      unfold JsonObj_parse_dict_loop at h
      split at h
      · split at h
        · simp at h
        · split at h
          · simp at h
          · split at h
            · simp at h
            · simp at h
            · split at h
              · exact ihD _ _ _ _ h
              · split at h
                · simp at h
                  exact ⟨_, by simp [HashTable_insert], h.1.symm⟩
                · simp at h
      · simp at h

/-- A dictionary returned by `parse_unknown` was closed by a `}` of the text. -/
theorem parse_unknown_dict_brace (L : Libc Num) {fuel : Nat} {sp rest : List Char}
    {d : List (List Char × JsonObj Num)}
    (h : parse_unknown L fuel sp = .ok (.JDict d, rest)) : '}' ∈ sp := by
  cases fuel with
  | zero => simp [parse_unknown] at h
  | succ fuel =>
    obtain ⟨ws, hw⟩ := skip_empty_suffix sp
    unfold parse_unknown at h
    split at h
    · obtain ⟨pre, hp⟩ := (parse_suffix L fuel).2.2 _ _ _ _ h
      have : '}' ∈ (skip_empty sp).tail := by rw [hp]; simp
      rw [hw]
      exact List.mem_append_right _ (List.mem_of_mem_tail this)
    · split at h
      · have := ofOption_eq_ok h
        simp [JsonObj_parse_str, JsonObj_new_string] at this
        split at this <;> simp at this
      · split at h
        · obtain ⟨l, hl⟩ := (loop_tags L fuel).1 _ _ _ _ h
          simp at hl
        · split at h
          · have := ofOption_eq_ok h
            simp [JsonObj_parse_bool_true, JsonObj_new_bool] at this
            split at this <;> simp at this
          · split at h
            · have := ofOption_eq_ok h
              simp [JsonObj_parse_bool_false, JsonObj_new_bool] at this
              split at this <;> simp at this
            · split at h
              · have := ofOption_eq_ok h
                simp [JsonObj_parse_null, JsonObj_new_null] at this
                split at this <;> simp at this
              · have := ofOption_eq_ok h
                simp [JsonObj_parse_number, JsonObj_new_number] at this
                split at this <;> simp at this

/-! ## Claims on the top-level rule, nesting and unterminated texts -/

theorem parse_string_fuel_ne_timeout (L : Libc Num) (sp : List Char) (fuel : Nat)
    (hf : 2 * sp.length + 1 ≤ fuel) : JsonObj_parse_string_fuel L fuel sp ≠ .timeout := by
  have h := (parse_fuel_enough L fuel).1 sp hf
  unfold JsonObj_parse_string_fuel
  split
  · rename_i hu; exact absurd hu h
  · simp
  · split <;> simp

/-- A text without a closing brace is rejected. -/
theorem parse_string_fail_of_no_brace (L : Libc Num) (sp : List Char) (h : '}' ∉ sp) :
    JsonObj_parse_string L sp = .fail := by
  have ht := parse_string_fuel_ne_timeout L sp (2 * sp.length + 1) (Nat.le_refl _)
  unfold JsonObj_parse_string
  unfold JsonObj_parse_string_fuel at ht ⊢
  split
  · rename_i hu; rw [hu] at ht; simp at ht
  · rfl
  · rename_i this rest hu
    split
    · exact absurd (parse_unknown_dict_brace L hu) h
    · rfl

/-- C2. Top-level object rule: a value returned by `JsonObj_parse_string` has the tag `JDict`;
a text whose top-level value parses to any other tag yields no value; the text `[1,2,3]`
yields no value. -/
theorem top_level_must_be_object (L : Libc Num) :
    (∀ sp v, JsonObj_parse_string L sp = .ok v → JsonObj_get_type v = .JDict) ∧
    (∀ sp v rest, parse_unknown L (2 * sp.length + 1) sp = .ok (v, rest) →
      JsonObj_get_type v ≠ .JDict → JsonObj_parse_string L sp = .fail) ∧
    JsonObj_parse_string L ['[', '1', ',', '2', ',', '3', ']'] = .fail := by
  refine ⟨?_, ?_, ?_⟩
  · intro sp v h
    unfold JsonObj_parse_string JsonObj_parse_string_fuel at h
    split at h
    · simp at h
    · simp at h
    · split at h
      · simp at h; rw [← h]; rfl
      · simp at h
  · intro sp v rest h hv
    unfold JsonObj_parse_string JsonObj_parse_string_fuel
    rw [h]
    cases v <;> simp_all [JsonObj_get_type]
  · exact parse_string_fail_of_no_brace L _ (by decide)

/-- Witness of C2 on the executable libc instance: the text `[ ]` parses to an array at top
level and is rejected. -/
theorem top_level_must_be_object_witness :
    parse_unknown decimal9 (2 * ['[', ' ', ']'].length + 1) ['[', ' ', ']'] = .ok (.JArray [], []) ∧
    JsonObj_get_type (.JArray [] : JsonObj Int) ≠ .JDict ∧
    JsonObj_parse_string decimal9 ['[', ' ', ']'] = .fail :=
  ⟨rfl, by decide,
    (top_level_must_be_object decimal9).2.1 ['[', ' ', ']'] (.JArray []) [] rfl (by decide)⟩

/-- C3. Nested parse: the text `{"a": [1, {"b": 2}]}` parses to a Dict with the one key `a`
whose value is the Array of Number 1 and a Dict with the one key `b` mapped to Number 2, where
the two numbers are what `strtod` makes of the tokens `1` and `2`. -/
theorem nested_parse (L : Libc Num) (one two : Num)
    (h1 : L.strtod ['1'] = (one, 1)) (h2 : L.strtod ['2'] = (two, 1)) :
    JsonObj_parse_string L
      ['{', '"', 'a', '"', ':', ' ', '[', '1', ',', ' ', '{', '"', 'b', '"', ':', ' ', '2', '}',
        ']', '}']
      = .ok (.JDict [(['a'], .JArray [.JNumber one, .JDict [(['b'], .JNumber two)]])]) := by
  simp [JsonObj_parse_string, JsonObj_parse_string_fuel, parse_unknown, JsonObj_parse_dict_loop,
    JsonObj_parse_array_loop, parse_str, parse_str_loop, skip_empty, deref, JsonObj_parse_number,
    read_token, read_token_loop, isTokenEnd, NUL, Outcome.ofOption, h1, h2, HashTable_insert,
    List_append, JsonObj_new_number]

/-- Witness of C3 on the executable libc instance. -/
theorem nested_parse_witness :
    JsonObj_parse_string decimal9
      ['{', '"', 'a', '"', ':', ' ', '[', '1', ',', ' ', '{', '"', 'b', '"', ':', ' ', '2', '}',
        ']', '}']
      = .ok (.JDict [(['a'], .JArray [.JNumber 1000000000,
          .JDict [(['b'], .JNumber 2000000000)]])]) :=
  nested_parse decimal9 1000000000 2000000000 rfl rfl

/-- C6. Unterminated input is rejected: a text that contains no `}` yields no value, in
particular the one-character text `{`. -/
theorem unterminated_rejected (L : Libc Num) :
    (∀ sp : List Char, '}' ∉ sp → JsonObj_parse_string L sp = .fail) ∧
    JsonObj_parse_string L ['{'] = .fail :=
  ⟨parse_string_fail_of_no_brace L, parse_string_fail_of_no_brace L _ (by decide)⟩

/-- Witness of C6: an object text that lost its closing brace. -/
theorem unterminated_rejected_witness :
    '}' ∉ ['{', '"', 'a', '"', ':', ' ', '1', ' '] ∧
    JsonObj_parse_string decimal9 ['{', '"', 'a', '"', ':', ' ', '1', ' '] = .fail :=
  ⟨by decide, (unterminated_rejected decimal9).1 _ (by decide)⟩

/-! ## Termination -/

/-- More fuel does not change an answer that was reached. -/
theorem parse_fuel_succ (L : Libc Num) : ∀ fuel : Nat,
    (∀ sp, parse_unknown L fuel sp ≠ .timeout →
      parse_unknown L (fuel + 1) sp = parse_unknown L fuel sp) ∧
    (∀ acc sp, JsonObj_parse_array_loop L fuel acc sp ≠ .timeout →
      JsonObj_parse_array_loop L (fuel + 1) acc sp = JsonObj_parse_array_loop L fuel acc sp) ∧
    (∀ acc sp, JsonObj_parse_dict_loop L fuel acc sp ≠ .timeout →
      JsonObj_parse_dict_loop L (fuel + 1) acc sp = JsonObj_parse_dict_loop L fuel acc sp) := by
  intro fuel
  induction fuel with
  | zero =>
    refine ⟨?_, ?_, ?_⟩ <;> intros <;> simp_all [parse_unknown, JsonObj_parse_array_loop,
      JsonObj_parse_dict_loop]
  | succ fuel ih =>
    obtain ⟨ihU, ihA, ihD⟩ := ih
    refine ⟨?_, ?_, ?_⟩
    · intro sp h
      rw [parse_unknown] at h
      rw [parse_unknown, parse_unknown]
      split
      · rename_i hc; rw [if_pos hc] at h; exact ihD _ _ h
      · rename_i hc
        rw [if_neg hc] at h
        split
        · rfl
        · rename_i hc2
          rw [if_neg hc2] at h
          split
          · rename_i hc3; rw [if_pos hc3] at h; exact ihA _ _ h
          · rfl
    · intro acc sp h
      rw [JsonObj_parse_array_loop] at h
      rw [JsonObj_parse_array_loop, JsonObj_parse_array_loop]
      split
      · rfl
      · rename_i hc
        rw [if_neg hc] at h
        have hu : parse_unknown L fuel (skip_empty sp) ≠ .timeout := by
          intro hu; rw [hu] at h; simp at h
        rw [ihU _ hu]
        cases hr : parse_unknown L fuel (skip_empty sp) with
        | timeout => exact absurd hr hu
        | fail => rfl
        | ok a =>
          obtain ⟨json_obj, sp1⟩ := a
          rw [hr] at h
          simp only at h ⊢
          split
          · rename_i hc2; rw [if_pos hc2] at h; exact ihA _ _ h
          · rename_i hc2; rw [if_neg hc2] at h; exact ihA _ _ h
    · intro acc sp h
      rw [JsonObj_parse_dict_loop] at h
      rw [JsonObj_parse_dict_loop, JsonObj_parse_dict_loop]
      split
      · rename_i hc
        rw [if_pos hc] at h
        cases hk : parse_str (skip_empty sp) with
        | none => rfl
        | some a =>
          obtain ⟨key, sp1⟩ := a
          rw [hk] at h
          simp only at h ⊢
          split
          · rfl
          · rename_i hc2
            rw [if_neg hc2] at h
            have hu : parse_unknown L fuel (skip_empty (skip_empty sp1).tail) ≠ .timeout := by
              intro hu; rw [hu] at h; simp at h
            rw [ihU _ hu]
            cases hr : parse_unknown L fuel (skip_empty (skip_empty sp1).tail) with
            | timeout => exact absurd hr hu
            | fail => rfl
            | ok a =>
              obtain ⟨value, sp2⟩ := a
              rw [hr] at h
              simp only at h ⊢
              split
              · rename_i hc3; rw [if_pos hc3] at h; exact ihD _ _ h
              · rfl
      · rfl

theorem parse_unknown_fuel_le (L : Libc Num) (sp : List Char) (fuel : Nat)
    (h : parse_unknown L fuel sp ≠ .timeout) :
    ∀ k, parse_unknown L (fuel + k) sp = parse_unknown L fuel sp := by
  intro k
  induction k with
  | zero => rfl
  | succ k ih =>
    rw [← Nat.add_assoc, (parse_fuel_succ L (fuel + k)).1 sp (by rw [ih]; exact h), ih]

/-- One turn of the `while(1)` loop of `JsonObj_parse_array`: it returns, fails, or goes round
again with a strictly shorter rest of the text. -/
theorem array_loop_turn (L : Libc Num) (fuel : Nat) (acc : List (JsonObj Num)) (sp : List Char)
    (hf : 2 * sp.length + 2 ≤ fuel + 1) :
    (∃ rest, JsonObj_parse_array_loop L (fuel + 1) acc sp = .ok (.JArray acc, rest)) ∨
    JsonObj_parse_array_loop L (fuel + 1) acc sp = .fail ∨
    (∃ acc1 sp1, sp1.length < sp.length ∧
      JsonObj_parse_array_loop L (fuel + 1) acc sp = JsonObj_parse_array_loop L fuel acc1 sp1) := by
  have hs := skip_empty_length_le sp
  rw [JsonObj_parse_array_loop]
  split
  · exact Or.inl ⟨_, rfl⟩
  · cases hr : parse_unknown L fuel (skip_empty sp) with
    | timeout => exact absurd hr ((parse_fuel_enough L fuel).1 _ (by omega))
    | fail => exact Or.inr (Or.inl rfl)
    | ok a =>
      obtain ⟨json_obj, sp1⟩ := a
      obtain ⟨pre, hp, he⟩ := (parse_suffix L fuel).1 _ _ _ hr
      have h1 := length_of_suffix he hp
      have hs1 := skip_empty_length_le sp1
      simp only
      split
      · exact Or.inr (Or.inr ⟨_, _, by rw [List.length_tail]; omega, rfl⟩)
      · exact Or.inr (Or.inr ⟨_, _, by omega, rfl⟩)

/-- One turn of the `while(1)` loop of `JsonObj_parse_dict`: it returns, fails, or goes round
again with a strictly shorter rest of the text. -/
theorem dict_loop_turn (L : Libc Num) (fuel : Nat) (acc : List (List Char × JsonObj Num))
    (sp : List Char) (hf : 2 * sp.length + 2 ≤ fuel + 1) :
    (∃ d rest, JsonObj_parse_dict_loop L (fuel + 1) acc sp = .ok (.JDict d, rest)) ∨
    JsonObj_parse_dict_loop L (fuel + 1) acc sp = .fail ∨
    (∃ acc1 sp1, sp1.length < sp.length ∧
      JsonObj_parse_dict_loop L (fuel + 1) acc sp = JsonObj_parse_dict_loop L fuel acc1 sp1) := by
  have hs := skip_empty_length_le sp
  rw [JsonObj_parse_dict_loop]
  split
  · cases hk : parse_str (skip_empty sp) with
    | none => exact Or.inr (Or.inl rfl)
    | some a =>
      obtain ⟨key, sp1⟩ := a
      obtain ⟨mid, hm⟩ := parse_str_suffix hk
      have h0 : sp1.length + 2 ≤ (skip_empty sp).length := by
        have := congrArg List.length hm
        simp at this; omega
      have hs1 := skip_empty_length_le sp1
      simp only
      split
      · exact Or.inr (Or.inl rfl)
      · have hs2 := skip_empty_length_le (skip_empty sp1).tail
        have ht : (skip_empty sp1).tail.length ≤ (skip_empty sp1).length := by
          rw [List.length_tail]; omega
        cases hr : parse_unknown L fuel (skip_empty (skip_empty sp1).tail) with
        | timeout => exact absurd hr ((parse_fuel_enough L fuel).1 _ (by omega))
        | fail => exact Or.inr (Or.inl rfl)
        | ok a =>
          obtain ⟨value, sp2⟩ := a
          obtain ⟨pre, hp, he⟩ := (parse_suffix L fuel).1 _ _ _ hr
          have h1 := length_of_suffix he hp
          have hs3 := skip_empty_length_le sp2
          simp only
          split
          · exact Or.inr (Or.inr ⟨_, _, by rw [List.length_tail]; omega, rfl⟩)
          · split
            · exact Or.inl ⟨_, _, rfl⟩
            · exact Or.inr (Or.inl rfl)
  · exact Or.inr (Or.inl rfl)

/-- C8. Parser termination: `JsonObj_parse_string` reaches an answer on every text (its fuel
is never used up, and any larger fuel gives the same answer); a value returned by
`parse_unknown` leaves a strictly shorter rest of the text; every turn of the array loop and
of the dict loop returns, fails, or continues on a strictly shorter rest of the text. -/
theorem parser_terminates (L : Libc Num) :
    (∀ sp, JsonObj_parse_string L sp ≠ .timeout) ∧
    (∀ sp k, JsonObj_parse_string_fuel L (2 * sp.length + 1 + k) sp = JsonObj_parse_string L sp) ∧
    (∀ fuel sp v rest, parse_unknown L fuel sp = .ok (v, rest) → rest.length < sp.length) ∧
    (∀ fuel acc sp, 2 * sp.length + 2 ≤ fuel + 1 →
      (∃ rest, JsonObj_parse_array_loop L (fuel + 1) acc sp = .ok (.JArray acc, rest)) ∨
      JsonObj_parse_array_loop L (fuel + 1) acc sp = .fail ∨
      (∃ acc1 sp1, sp1.length < sp.length ∧
        JsonObj_parse_array_loop L (fuel + 1) acc sp
          = JsonObj_parse_array_loop L fuel acc1 sp1)) ∧
    (∀ fuel acc sp, 2 * sp.length + 2 ≤ fuel + 1 →
      (∃ d rest, JsonObj_parse_dict_loop L (fuel + 1) acc sp = .ok (.JDict d, rest)) ∨
      JsonObj_parse_dict_loop L (fuel + 1) acc sp = .fail ∨
      (∃ acc1 sp1, sp1.length < sp.length ∧
        JsonObj_parse_dict_loop L (fuel + 1) acc sp
          = JsonObj_parse_dict_loop L fuel acc1 sp1)) := by
  refine ⟨?_, ?_, ?_, array_loop_turn L, dict_loop_turn L⟩
  · intro sp
    exact parse_string_fuel_ne_timeout L sp _ (Nat.le_refl _)
  · intro sp k
    unfold JsonObj_parse_string JsonObj_parse_string_fuel
    rw [parse_unknown_fuel_le L sp _ ((parse_fuel_enough L _).1 sp (Nat.le_refl _)) k]
  · intro fuel sp v rest h
    obtain ⟨pre, hp, he⟩ := (parse_suffix L fuel).1 _ _ _ h
    exact length_of_suffix he hp

/-- Witness of C8 on a malformed text: the parse ends with a value for the first element and
a shorter rest, and the array loop fails on the one-character rest `x`. -/
theorem parser_terminates_witness :
    JsonObj_parse_string decimal9 ['{', '"', 'a', '"', ':', '[', '1', ' ', '[', 'x'] ≠ .timeout ∧
    [' ', '[', 'x'].length < ['1', ' ', '[', 'x'].length ∧
    ((∃ rest, JsonObj_parse_array_loop decimal9 (9 + 1) [] ['x'] = .ok (.JArray [], rest)) ∨
      JsonObj_parse_array_loop decimal9 (9 + 1) [] ['x'] = .fail ∨
      (∃ acc1 sp1, sp1.length < ['x'].length ∧
        JsonObj_parse_array_loop decimal9 (9 + 1) [] ['x']
          = JsonObj_parse_array_loop decimal9 9 acc1 sp1)) :=
  ⟨(parser_terminates decimal9).1 _,
    (parser_terminates decimal9).2.2.1 5 ['1', ' ', '[', 'x'] (.JNumber 1000000000)
      [' ', '[', 'x'] rfl,
    (parser_terminates decimal9).2.2.2.1 9 [] ['x'] (by decide)⟩

/-! ## Tokens: numbers, literals, trailing comma -/

theorem read_token_loop_eq_specToken : ∀ (s acc : List Char),
    read_token_loop s acc = (specToken s).map (fun tok => (acc ++ tok, s.drop tok.length)) := by
  intro s
  induction s with
  | nil => intro acc; simp [read_token_loop, specToken]
  | cons c r ih =>
    intro acc
    unfold read_token_loop
    split
    · rename_i hn
      simp [specToken, hn]
    · rename_i hn
      split
      · rename_i he
        simp [specToken, hn, he]
      · rename_i he
        rw [ih]
        unfold specToken
        simp only [List.takeWhile_cons, hn, he, ne_eq, not_false_eq_true, decide_True,
          List.all_cons, Bool.true_and, if_true]
        split
        · simp
        · simp

/-- The function `read_token` reads the token of the specification and leaves the cursor just
after it. -/
theorem read_token_eq_specToken (sp : List Char) :
    read_token sp = (specToken sp).map (fun tok => (tok, sp.drop tok.length)) := by
  unfold read_token
  rw [read_token_loop_eq_specToken]
  simp

/-- C4. Number values: on a cursor that is on none of the six dispatch characters
`parse_unknown` hands over to `JsonObj_parse_number`, which returns a value exactly when the
token is non-empty and `strtod` consumes all of it, the value being the Number `strtod`
converted, with the cursor just after the token. The text `{"n": 3.5}` parses to the Dict with
the single key `n` mapped to that Number, and `{"n": 3.5x}` yields no value. -/
theorem number_values (L : Libc Num) (x : Num) (h1 : L.strtod ['3', '.', '5'] = (x, 3))
    (h2 : (L.strtod ['3', '.', '5', 'x']).2 ≠ 4) :
    (∀ fuel sp, deref (skip_empty sp) ≠ '{' → deref (skip_empty sp) ≠ '"' →
      deref (skip_empty sp) ≠ '[' → deref (skip_empty sp) ≠ 't' →
      deref (skip_empty sp) ≠ 'f' → deref (skip_empty sp) ≠ 'n' →
      parse_unknown L (fuel + 1) sp = Outcome.ofOption (JsonObj_parse_number L (skip_empty sp))) ∧
    (∀ sp v rest, JsonObj_parse_number L sp = some (v, rest) ↔
      ∃ tok, specToken sp = some tok ∧ tok ≠ [] ∧ (L.strtod tok).2 = tok.length ∧
        v = .JNumber (L.strtod tok).1 ∧ rest = sp.drop tok.length) ∧
    JsonObj_parse_string L ['{', '"', 'n', '"', ':', ' ', '3', '.', '5', '}']
      = .ok (.JDict [(['n'], .JNumber x)]) ∧
    JsonObj_parse_string L ['{', '"', 'n', '"', ':', ' ', '3', '.', '5', 'x', '}'] = .fail := by
  refine ⟨?_, ?_, ?_, ?_⟩
  · intro fuel sp c1 c2 c3 c4 c5 c6
    rw [parse_unknown]
    simp only [c1, c2, c3, c4, c5, c6, if_false]
  · intro sp v rest
    unfold JsonObj_parse_number
    rw [read_token_eq_specToken]
    cases specToken sp with
    | none => simp
    | some tok =>
      simp only [Option.map_some', JsonObj_new_number]
      constructor
      · intro h
        split at h
        · simp at h
        · rename_i hc
          simp at h hc
          refine ⟨tok, rfl, ?_, hc.2, h.1.symm, h.2.symm⟩
          intro h0; rw [h0] at hc; simp at hc
      · rintro ⟨tok1, ht, hne, hs, hv, hr⟩
        simp at ht
        subst ht
        have : ¬ (tok.length = 0 ∨ (L.strtod tok).2 ≠ tok.length) := by
          simp [hs]; exact hne
        rw [if_neg this, hv, hr]
  · simp [JsonObj_parse_string, JsonObj_parse_string_fuel, parse_unknown,
      JsonObj_parse_dict_loop, parse_str, parse_str_loop, skip_empty, deref,
      JsonObj_parse_number, read_token, read_token_loop, isTokenEnd, NUL, Outcome.ofOption, h1,
      HashTable_insert, JsonObj_new_number]
  · simp [JsonObj_parse_string, JsonObj_parse_string_fuel, parse_unknown,
      JsonObj_parse_dict_loop, parse_str, parse_str_loop, skip_empty, deref,
      JsonObj_parse_number, read_token, read_token_loop, isTokenEnd, NUL, Outcome.ofOption, h2]

/-- Witness of C4 on the executable libc instance, where 3.5 is 3500000000 units of
`10^-9`. -/
theorem number_values_witness :
    JsonObj_parse_string decimal9 ['{', '"', 'n', '"', ':', ' ', '3', '.', '5', '}']
      = .ok (.JDict [(['n'], .JNumber 3500000000)]) ∧
    JsonObj_parse_string decimal9 ['{', '"', 'n', '"', ':', ' ', '3', '.', '5', 'x', '}']
      = .fail :=
  ⟨(number_values decimal9 3500000000 rfl (by decide)).2.2.1,
    (number_values decimal9 3500000000 rfl (by decide)).2.2.2⟩

theorem literal_iff (sp : List Char) (lit : List Char) (v r : JsonObj Num)
    (rest : List Char) :
    ((match read_token sp with
      | none => none
      | some (str, sp1) => if str ≠ lit then none else some (r, sp1)) = some (v, rest)) ↔
      (specToken sp = some lit ∧ v = r ∧ rest = sp.drop lit.length) := by
  rw [read_token_eq_specToken]
  cases specToken sp with
  | none => simp
  | some tok =>
    simp only [Option.map_some']
    constructor
    · intro h
      split at h
      · simp at h
      · rename_i hc
        simp at h hc
        subst hc
        exact ⟨rfl, h.1.symm, h.2.symm⟩
    · rintro ⟨ht, hv, hr⟩
      simp at ht
      subst ht
      simp [hv, hr]

/-- C5. Literal spelling: on a cursor on `t`, `f` or `n`, `parse_unknown` hands over to the
literal's function, which returns a value exactly when the token is `true`, `false` or `null`
respectively, giving Bool(1), Bool(0) or Null with the cursor just after the token; a failed
value makes the enclosing array loop, dict loop and `JsonObj_parse_string` fail. The text
`{"b": true, "x": null}` parses to the Dict of `b` mapped to Bool(1) and `x` mapped to Null;
the text `{"a": tru}` yields no value. -/
theorem literal_spelling (L : Libc Num) :
    (∀ fuel sp, deref (skip_empty sp) = 't' →
      parse_unknown L (fuel + 1) sp = Outcome.ofOption (JsonObj_parse_bool_true (skip_empty sp))) ∧
    (∀ fuel sp, deref (skip_empty sp) = 'f' →
      parse_unknown L (fuel + 1) sp
        = Outcome.ofOption (JsonObj_parse_bool_false (skip_empty sp))) ∧
    (∀ fuel sp, deref (skip_empty sp) = 'n' →
      parse_unknown L (fuel + 1) sp = Outcome.ofOption (JsonObj_parse_null (skip_empty sp))) ∧
    (∀ sp (v : JsonObj Num) rest, JsonObj_parse_bool_true sp = some (v, rest) ↔
      (specToken sp = some ['t', 'r', 'u', 'e'] ∧ v = .JBool 1 ∧ rest = sp.drop 4)) ∧
    (∀ sp (v : JsonObj Num) rest, JsonObj_parse_bool_false sp = some (v, rest) ↔
      (specToken sp = some ['f', 'a', 'l', 's', 'e'] ∧ v = .JBool 0 ∧ rest = sp.drop 5)) ∧
    (∀ sp (v : JsonObj Num) rest, JsonObj_parse_null sp = some (v, rest) ↔
      (specToken sp = some ['n', 'u', 'l', 'l'] ∧ v = .JNull ∧ rest = sp.drop 4)) ∧
    (∀ fuel acc sp, deref (skip_empty sp) ≠ ']' →
      parse_unknown L fuel (skip_empty sp) = .fail →
      JsonObj_parse_array_loop L (fuel + 1) acc sp = .fail) ∧
    (∀ fuel acc sp key sp1, deref (skip_empty sp) = '"' →
      parse_str (skip_empty sp) = some (key, sp1) → deref (skip_empty sp1) = ':' →
      parse_unknown L fuel (skip_empty (skip_empty sp1).tail) = .fail →
      JsonObj_parse_dict_loop L (fuel + 1) acc sp = .fail) ∧
    (∀ fuel sp, parse_unknown L fuel sp = .fail → JsonObj_parse_string_fuel L fuel sp = .fail) ∧
    JsonObj_parse_string L
      ['{', '"', 'b', '"', ':', ' ', 't', 'r', 'u', 'e', ',', ' ', '"', 'x', '"', ':', ' ',
        'n', 'u', 'l', 'l', '}']
      = .ok (.JDict [(['b'], .JBool 1), (['x'], .JNull)]) ∧
    JsonObj_parse_string L ['{', '"', 'a', '"', ':', ' ', 't', 'r', 'u', '}'] = .fail := by
  refine ⟨?_, ?_, ?_, ?_, ?_, ?_, ?_, ?_, ?_, ?_, ?_⟩
  · intro fuel sp c
    rw [parse_unknown]
    simp [c]
  · intro fuel sp c
    rw [parse_unknown]
    simp [c]
  · intro fuel sp c
    rw [parse_unknown]
    simp [c]
  · intro sp v rest
    exact literal_iff sp ['t', 'r', 'u', 'e'] v (.JBool 1) rest
  · intro sp v rest
    exact literal_iff sp ['f', 'a', 'l', 's', 'e'] v (.JBool 0) rest
  · intro sp v rest
    exact literal_iff sp ['n', 'u', 'l', 'l'] v .JNull rest
  · intro fuel acc sp c h
    rw [JsonObj_parse_array_loop, if_neg c, h]
  · intro fuel acc sp key sp1 c hk c2 h
    rw [JsonObj_parse_dict_loop, if_pos c, hk]
    simp [c2, h]
  · intro fuel sp h
    unfold JsonObj_parse_string_fuel
    rw [h]
  · simp [JsonObj_parse_string, JsonObj_parse_string_fuel, parse_unknown,
      JsonObj_parse_dict_loop, parse_str, parse_str_loop, skip_empty, deref,
      JsonObj_parse_bool_true, JsonObj_parse_null, read_token, read_token_loop, isTokenEnd, NUL,
      Outcome.ofOption, HashTable_insert, JsonObj_new_bool, JsonObj_new_null]
  · simp [JsonObj_parse_string, JsonObj_parse_string_fuel, parse_unknown,
      JsonObj_parse_dict_loop, parse_str, parse_str_loop, skip_empty, deref,
      JsonObj_parse_bool_true, read_token, read_token_loop, isTokenEnd, NUL, Outcome.ofOption]

/-- Witness of C5: the misspelt literal `tru` fails as a value and makes the array loop
around it fail. -/
theorem literal_spelling_witness :
    parse_unknown decimal9 (0 + 1) ['t', 'r', 'u', ' ', ']']
      = Outcome.ofOption (JsonObj_parse_bool_true (skip_empty ['t', 'r', 'u', ' ', ']'])) ∧
    JsonObj_parse_array_loop decimal9 (1 + 1) [] ['t', 'r', 'u', ' ', ']'] = .fail :=
  ⟨(literal_spelling decimal9).1 0 ['t', 'r', 'u', ' ', ']'] rfl,
    (literal_spelling decimal9).2.2.2.2.2.2.1 1 [] ['t', 'r', 'u', ' ', ']'] (by decide) rfl⟩

/-- C7. Trailing comma in an object: a turn of the dict loop whose first non-blank character
is not a double quote fails, so after a key/value pair and a comma any character other than a
double quote (`}` included) makes `JsonObj_parse_dict` fail; the text `{"a":1,}` ends without
a value. -/
theorem dict_trailing_comma (L : Libc Num) :
    (∀ fuel acc sp, deref (skip_empty sp) ≠ '"' →
      JsonObj_parse_dict_loop L (fuel + 1) acc sp = .fail) ∧
    (∀ fuel acc sp key sp1 value sp2, deref (skip_empty sp) = '"' →
      parse_str (skip_empty sp) = some (key, sp1) → deref (skip_empty sp1) = ':' →
      parse_unknown L (fuel + 1) (skip_empty (skip_empty sp1).tail) = .ok (value, sp2) →
      deref (skip_empty sp2) = ',' → deref (skip_empty (skip_empty sp2).tail) ≠ '"' →
      JsonObj_parse_dict_loop L (fuel + 2) acc sp = .fail) ∧
    JsonObj_parse_string L ['{', '"', 'a', '"', ':', '1', ',', '}'] = .fail := by
  refine ⟨?_, ?_, ?_⟩
  · intro fuel acc sp c
    rw [JsonObj_parse_dict_loop, if_neg c]
  · intro fuel acc sp key sp1 value sp2 c hk c2 hu c3 c4
    rw [JsonObj_parse_dict_loop, if_pos c, hk]
    simp only [c2, ne_eq, not_true_eq_false, if_false, hu, c3, if_true]
    rw [JsonObj_parse_dict_loop, if_neg c4]
  · by_cases h : (L.strtod ['1']).2 = 1
    · simp [JsonObj_parse_string, JsonObj_parse_string_fuel, parse_unknown,
        JsonObj_parse_dict_loop, parse_str, parse_str_loop, skip_empty, deref,
        JsonObj_parse_number, read_token, read_token_loop, isTokenEnd, NUL, Outcome.ofOption, h]
    · simp [JsonObj_parse_string, JsonObj_parse_string_fuel, parse_unknown,
        JsonObj_parse_dict_loop, parse_str, parse_str_loop, skip_empty, deref,
        JsonObj_parse_number, read_token, read_token_loop, isTokenEnd, NUL, Outcome.ofOption, h]

/-- Witness of C7: inside `{"a":1,}` the loop parses the pair `"a":1`, consumes the comma and
fails on the `}` that follows. -/
theorem dict_trailing_comma_witness :
    JsonObj_parse_dict_loop decimal9 (1 + 2) [] ['"', 'a', '"', ':', '1', ',', '}'] = .fail ∧
    JsonObj_parse_dict_loop decimal9 (0 + 1) [(['a'], .JNumber 1000000000)] ['}'] = .fail :=
  ⟨(dict_trailing_comma decimal9).2.1 1 [] ['"', 'a', '"', ':', '1', ',', '}'] ['a']
      [':', '1', ',', '}'] (.JNumber 1000000000) [',', '}'] rfl rfl rfl rfl rfl (by decide),
    (dict_trailing_comma decimal9).1 0 _ ['}'] (by decide)⟩

/-! ## Printer layout -/

theorem print_indentation_eq (depth : Nat) :
    print_indentation depth = List.replicate (4 * depth) ' ' := by
  induction depth with
  | zero => rfl
  | succ d ih =>
    rw [print_indentation, ih, show 4 * (d + 1) = 4 + 4 * d by omega, List.replicate_add]
    rfl

theorem intercalate_cons_of_ne_nil {α : Type} (sep a : List α) (l : List (List α))
    (h : l ≠ []) : List.intercalate sep (a :: l) = a ++ sep ++ List.intercalate sep l := by
  cases l with
  | nil => exact absurd rfl h
  | cons b l => simp [List.intercalate, List.intersperse]

mutual
theorem print_eq_specLayout (L : Libc Num) :
    ∀ (v : JsonObj Num) (depth : Nat), JsonObj_print L v depth = specLayout L v depth
  | .JString _, _ => by simp [JsonObj_print, specLayout]
  | .JNumber _, _ => by simp [JsonObj_print, specLayout]
  | .JBool _, _ => by simp [JsonObj_print, specLayout]
  | .JNull, _ => by simp [JsonObj_print, specLayout]
  | .JArray [], _ => by simp [JsonObj_print, specLayout]
  | .JArray (x :: xs), depth => by
    rw [JsonObj_print, specLayout, list_loop_eq_specLines L (x :: xs) depth,
      print_indentation_eq]
  | .JDict [], _ => by simp [JsonObj_print, specLayout]
  | .JDict (p :: ps), depth => by
    rw [JsonObj_print, specLayout,
      dict_loop_eq_specLines L (p :: ps) depth 1 _ (by simp)
        (by simp [HashTable_element_count]; omega),
      print_indentation_eq]
    simp
theorem list_loop_eq_specLines (L : Libc Num) :
    ∀ (l : List (JsonObj Num)) (depth : Nat),
      JsonObj_list_print_loop L l depth = List.intercalate [',', '\n'] (specArrayLines L l depth)
  | [], _ => by simp [JsonObj_list_print_loop, specArrayLines, List.intercalate]
  | [x], depth => by
    rw [JsonObj_list_print_loop, print_eq_specLayout L x (depth + 1), print_indentation_eq]
    simp [specArrayLines, List.intercalate]
  | x :: y :: rest, depth => by
    rw [JsonObj_list_print_loop, print_eq_specLayout L x (depth + 1),
      list_loop_eq_specLines L (y :: rest) depth, print_indentation_eq,
      show specArrayLines L (x :: y :: rest) depth
        = (List.replicate (4 * (depth + 1)) ' ' ++ specLayout L x (depth + 1))
          :: specArrayLines L (y :: rest) depth from by rw [specArrayLines],
      intercalate_cons_of_ne_nil _ _ _ (by simp [specArrayLines])]
theorem dict_loop_eq_specLines (L : Libc Num) :
    ∀ (d : List (List Char × JsonObj Num)) (depth pair_num total_pairs : Nat), d ≠ [] →
      pair_num + d.length = total_pairs + 1 →
      JsonObj_dict_print_loop L d depth pair_num total_pairs
        = List.intercalate [',', '\n'] (specDictLines L d depth) ++ ['\n']
  | [], _, _, _, h, _ => absurd rfl h
  | [(key, value)], depth, pair_num, total_pairs, _, hn => by
    rw [JsonObj_dict_print_loop, print_eq_specLayout L value (depth + 1), print_indentation_eq,
      JsonObj_dict_print_loop]
    have : ¬ pair_num < total_pairs := by simp at hn; omega
    simp [specDictLines, List.intercalate, this]
  | (key, value) :: q :: rest, depth, pair_num, total_pairs, _, hn => by
    rw [JsonObj_dict_print_loop, print_eq_specLayout L value (depth + 1), print_indentation_eq,
      dict_loop_eq_specLines L (q :: rest) depth (pair_num + 1) total_pairs (by simp)
        (by simp at hn ⊢; omega),
      show specDictLines L ((key, value) :: q :: rest) depth
        = (List.replicate (4 * (depth + 1)) ' ' ++ (['"'] ++ key ++ ['"', ' ', ':', ' '])
            ++ specLayout L value (depth + 1)) :: specDictLines L (q :: rest) depth
        from by rw [specDictLines],
      intercalate_cons_of_ne_nil _ _ _ (by simp [specDictLines])]
    have : pair_num < total_pairs := by simp at hn; omega
    simp [this]
end

/-- C9. Printer layout: an empty array is written `[ ]` and an empty dict `{}`; every value is
written as the layout of the specification (children on their own lines, 4 more spaces per
depth, a comma after each child but the last, the closing bracket at the parent's indentation);
`JsonObj_fprint` writes the layout of the root dict at depth 0 followed by one newline. The
tree Dict{a: Array[Number 1, Dict{b: Number 2}]} is written as the eight lines of the claim. -/
theorem printer_layout (L : Libc Num) (one two : Num)
    (h1 : L.printf_lf one = ['1', '.', '0', '0', '0', '0', '0', '0'])
    (h2 : L.printf_lf two = ['2', '.', '0', '0', '0', '0', '0', '0']) :
    (∀ depth, JsonObj_print L (.JArray []) depth = ['[', ' ', ']']) ∧
    (∀ depth, JsonObj_print L (.JDict []) depth = ['{', '}']) ∧
    (∀ v depth, JsonObj_print L v depth = specLayout L v depth) ∧
    (∀ dict, JsonObj_fprint L (.JDict dict) = some (specLayout L (.JDict dict) 0 ++ ['\n'])) ∧
    JsonObj_fprint L (.JDict [(['a'], .JArray [.JNumber one, .JDict [(['b'], .JNumber two)]])])
      = some ("\x7b\n    \"a\" : [\n        1.000000,\n        \x7b\n            \"b\" : 2.000000\n        \x7d\n    ]\n\x7d\n").toList := by
  refine ⟨?_, ?_, print_eq_specLayout L, ?_, ?_⟩
  · intro depth; simp [JsonObj_print]
  · intro depth; simp [JsonObj_print]
  · intro dict
    rw [← print_eq_specLayout]
    simp [JsonObj_fprint, JsonObj_print, JsonObj_dict_print]
  · simp [JsonObj_fprint, JsonObj_dict_print, JsonObj_dict_print_loop, JsonObj_print,
      JsonObj_list_print, JsonObj_list_print_loop, print_indentation, HashTable_element_count,
      h1, h2]

/-- Witness of C9 on the executable libc instance. -/
theorem printer_layout_witness :
    JsonObj_fprint decimal9
        (.JDict [(['a'], .JArray [.JNumber 1000000000, .JDict [(['b'], .JNumber 2000000000)]])])
      = some ("\x7b\n    \"a\" : [\n        1.000000,\n        \x7b\n            \"b\" : 2.000000\n        \x7d\n    ]\n\x7d\n").toList :=
  (printer_layout decimal9 1000000000 2000000000 (by decide) (by decide)).2.2.2.2

/-! ## Round trip -/

theorem skip_empty_cons_of_not_blank (c : Char) (r : List Char) (h : ¬ isBlank c) :
    skip_empty (c :: r) = c :: r := by
  unfold isBlank at h
  rw [skip_empty, if_neg h]

theorem skip_empty_blank_append (ws s : List Char) (h : ∀ c ∈ ws, isBlank c) :
    skip_empty (ws ++ s) = skip_empty s := by
  induction ws with
  | nil => rfl
  | cons c r ih =>
    have hc : isBlank c := h c (by simp)
    unfold isBlank at hc
    rw [List.cons_append, skip_empty, if_pos hc]
    exact ih (fun x hx => h x (by simp [hx]))

theorem print_indentation_blank (depth : Nat) : ∀ c ∈ print_indentation depth, isBlank c := by
  rw [print_indentation_eq]
  intro c hc
  rw [List.mem_replicate] at hc
  exact Or.inl hc.2

theorem skip_empty_newline_indent (depth : Nat) (s : List Char) :
    skip_empty ('\n' :: (print_indentation depth ++ s)) = skip_empty s := by
  have : ∀ c ∈ '\n' :: print_indentation depth, isBlank c := by
    intro c hc
    rcases List.mem_cons.mp hc with rfl | hc
    · exact Or.inr (Or.inl rfl)
    · exact print_indentation_blank depth c hc
  rw [← List.cons_append, skip_empty_blank_append _ _ this]

theorem parse_str_loop_quoted (rest : List Char) : ∀ (s acc : List Char),
    quotable s = true → parse_str_loop (s ++ '"' :: rest) NUL acc = some (acc ++ s, rest) := by
  intro s
  induction s with
  | nil =>
    intro acc _
    simp [parse_str_loop, NUL]
  | cons c r ih =>
    intro acc h
    simp [quotable] at h
    obtain ⟨⟨h1, h2⟩, h3⟩ := h
    have hq : quotable r = true := by simp [quotable]; exact h3
    rw [List.cons_append, parse_str_loop, if_neg h2, if_neg (by simp [NUL]), if_neg (by simp [h1]),
      ih _ hq]
    simp

theorem parse_str_quoted (s rest : List Char) (h : quotable s = true) :
    parse_str ('"' :: (s ++ '"' :: rest)) = some (s, rest) := by
  rw [parse_str]
  simp [parse_str_loop_quoted rest s [] h]

theorem read_token_loop_token (rest : List Char) (hr : isTokenEnd (deref rest)) :
    ∀ (tok acc : List Char), (∀ c ∈ tok, c ≠ NUL ∧ ¬ isTokenEnd c) →
      read_token_loop (tok ++ rest) acc = some (acc ++ tok, rest) := by
  intro tok
  induction tok with
  | nil =>
    intro acc _
    cases rest with
    | nil => simp [deref, isTokenEnd, NUL] at hr
    | cons d tl =>
      simp only [deref, List.headD_cons] at hr
      have hn : d ≠ NUL := by
        intro h; rw [h] at hr; simp [isTokenEnd, NUL] at hr
      simp [read_token_loop, hn, hr]
  | cons c r ih =>
    intro acc h
    have hc := h c (by simp)
    rw [List.cons_append, read_token_loop, if_neg hc.1, if_neg hc.2,
      ih _ (fun x hx => h x (by simp [hx]))]
    simp

theorem read_token_token (tok rest : List Char) (hr : isTokenEnd (deref rest))
    (h : ∀ c ∈ tok, c ≠ NUL ∧ ¬ isTokenEnd c) : read_token (tok ++ rest) = some (tok, rest) := by
  rw [read_token, read_token_loop_token rest hr tok [] h]
  simp

theorem not_blank_of_not_tokenEnd {c : Char} (h : ¬ isTokenEnd c) : ¬ isBlank c := by
  intro hb
  apply h
  rcases hb with h | h | h | h <;> simp [isTokenEnd, h]

theorem numberReadsBack_spec [DecidableEq Num] {L : Libc Num} {x : Num}
    (h : numberReadsBack L x = true) :
    ∃ c r, L.printf_lf x = c :: r ∧ (∀ a ∈ c :: r, a ≠ NUL ∧ ¬ isTokenEnd a) ∧
      c ∉ ['{', '"', '[', ']', 't', 'f', 'n'] ∧ L.strtod (c :: r) = (x, (c :: r).length) := by
  simp only [numberReadsBack, Bool.and_eq_true, decide_eq_true_eq, List.all_eq_true] at h
  obtain ⟨⟨⟨hne, hall⟩, hhead⟩, hst⟩ := h
  cases ht : L.printf_lf x with
  | nil => exact absurd ht hne
  | cons c r =>
    rw [ht] at hall hhead hst
    refine ⟨c, r, rfl, ?_, by simpa [deref] using hhead, hst⟩
    intro a ha
    simpa using hall a ha

/-- The printed text of a tree of the round trip starts with a character that is neither blank
nor a closing bracket. -/
theorem print_head [DecidableEq Num] (L : Libc Num) (v : JsonObj Num) (depth : Nat)
    (hv : roundTrips L v = true) :
    ∃ c r, JsonObj_print L v depth = c :: r ∧ ¬ isBlank c ∧ c ≠ ']' := by
  cases v with
  | JString s => exact ⟨'"', s ++ ['"'], by simp [JsonObj_print], by simp [isBlank], by simp⟩
  | JNumber x =>
    rw [roundTrips] at hv
    obtain ⟨c, r, ht, hall, hhead, -⟩ := numberReadsBack_spec hv
    refine ⟨c, r, by rw [JsonObj_print, ht], not_blank_of_not_tokenEnd (hall c (by simp)).2, ?_⟩
    intro h; rw [h] at hhead; simp at hhead
  | JBool b =>
    by_cases hb : b = 0
    · exact ⟨'f', ['a', 'l', 's', 'e'], by simp [JsonObj_print, hb], by simp [isBlank], by simp⟩
    · exact ⟨'t', ['r', 'u', 'e'], by simp [JsonObj_print, hb], by simp [isBlank], by simp⟩
  | JNull => exact ⟨'n', ['u', 'l', 'l'], by simp [JsonObj_print], by simp [isBlank], by simp⟩
  | JArray l =>
    cases l with
    | nil => exact ⟨'[', [' ', ']'], by simp [JsonObj_print],
        by simp [isBlank], by simp⟩
    | cons x xs => exact ⟨'[', _, by simp [JsonObj_print]; rfl,
        by simp [isBlank], by simp⟩
  | JDict d =>
    cases d with
    | nil => exact ⟨'{', ['}'], by simp [JsonObj_print],
        by simp [isBlank], by simp⟩
    | cons x xs => exact ⟨'{', _, by simp [JsonObj_print]; rfl,
        by simp [isBlank], by simp⟩

theorem tokenEnd_of_comma_or_newline {rest : List Char}
    (hr : deref rest = ',' ∨ deref rest = '\n') : isTokenEnd (deref rest) := by
  rcases hr with h | h <;> simp [isTokenEnd, h]

/-- Reading back a printed string. -/
theorem parse_unknown_string (L : Libc Num) (s rest : List Char) (fuel : Nat)
    (hs : quotable s = true) :
    parse_unknown L (fuel + 1) (JsonObj_print L (.JString s) 0 ++ rest) = .ok (.JString s, rest) := by
  have ht : JsonObj_print L (.JString s) 0 ++ rest = '"' :: (s ++ '"' :: rest) := by
    simp [JsonObj_print]
  rw [ht, parse_unknown, skip_empty_cons_of_not_blank _ _ (by simp [isBlank])]
  simp [deref, JsonObj_parse_str, parse_str_quoted s rest hs, Outcome.ofOption, JsonObj_new_string]

/-- Reading back a printed number. -/
theorem parse_unknown_number [DecidableEq Num] (L : Libc Num) (x : Num) (rest : List Char)
    (fuel : Nat) (hx : numberReadsBack L x = true)
    (hr : deref rest = ',' ∨ deref rest = '\n') :
    parse_unknown L (fuel + 1) (L.printf_lf x ++ rest) = .ok (.JNumber x, rest) := by
  obtain ⟨c, r, ht, hall, hhead, hst⟩ := numberReadsBack_spec hx
  simp only [List.mem_cons, List.mem_singleton, not_or, List.not_mem_nil, or_false] at hhead
  obtain ⟨c1, c2, c3, -, c5, c6, c7⟩ := hhead
  rw [ht, parse_unknown, List.cons_append,
    skip_empty_cons_of_not_blank _ _ (not_blank_of_not_tokenEnd (hall c (by simp)).2)]
  simp only [deref, List.headD_cons, c1, c2, c3, c5, c6, c7, if_false]
  rw [JsonObj_parse_number, ← List.cons_append,
    read_token_token _ _ (tokenEnd_of_comma_or_newline hr) hall]
  simp [hst, Outcome.ofOption, JsonObj_new_number]

/-- Reading back a printed literal. -/
theorem parse_unknown_literal (L : Libc Num) (rest : List Char) (fuel : Nat)
    (hr : deref rest = ',' ∨ deref rest = '\n') :
    parse_unknown L (fuel + 1) (['t', 'r', 'u', 'e'] ++ rest) = .ok (.JBool 1, rest) ∧
    parse_unknown L (fuel + 1) (['f', 'a', 'l', 's', 'e'] ++ rest) = .ok (.JBool 0, rest) ∧
    parse_unknown L (fuel + 1) (['n', 'u', 'l', 'l'] ++ rest) = .ok (.JNull, rest) := by
  have he := tokenEnd_of_comma_or_newline hr
  have h1 : (JsonObj_parse_bool_true (['t', 'r', 'u', 'e'] ++ rest) :
      Option (JsonObj Num × List Char)) = some (.JBool 1, rest) := by
    rw [JsonObj_parse_bool_true, read_token_token _ _ he (by simp [isTokenEnd, NUL])]
    simp [JsonObj_new_bool]
  have h2 : (JsonObj_parse_bool_false (['f', 'a', 'l', 's', 'e'] ++ rest) :
      Option (JsonObj Num × List Char)) = some (.JBool 0, rest) := by
    rw [JsonObj_parse_bool_false, read_token_token _ _ he (by simp [isTokenEnd, NUL])]
    simp [JsonObj_new_bool]
  have h3 : (JsonObj_parse_null (['n', 'u', 'l', 'l'] ++ rest) :
      Option (JsonObj Num × List Char)) = some (.JNull, rest) := by
    rw [JsonObj_parse_null, read_token_token _ _ he (by simp [isTokenEnd, NUL])]
    simp [JsonObj_new_null]
  simp only [List.cons_append, List.nil_append] at h1 h2 h3 ⊢
  refine ⟨?_, ?_, ?_⟩
  · rw [parse_unknown, skip_empty_cons_of_not_blank _ _ (by simp [isBlank])]
    simp [deref, h1, Outcome.ofOption]
  · rw [parse_unknown, skip_empty_cons_of_not_blank _ _ (by simp [isBlank])]
    simp [deref, h2, Outcome.ofOption]
  · rw [parse_unknown, skip_empty_cons_of_not_blank _ _ (by simp [isBlank])]
    simp [deref, h3, Outcome.ofOption]

theorem skip_empty_print [DecidableEq Num] (L : Libc Num) (v : JsonObj Num) (depth : Nat)
    (tail : List Char) (hv : roundTrips L v = true) :
    skip_empty (JsonObj_print L v depth ++ tail) = JsonObj_print L v depth ++ tail ∧
      deref (JsonObj_print L v depth ++ tail) ≠ ']' := by
  obtain ⟨c, r, hp, hb, hc⟩ := print_head L v depth hv
  rw [hp, List.cons_append]
  exact ⟨skip_empty_cons_of_not_blank _ _ hb, by simpa [deref] using hc⟩

theorem array_loop_step_comma (L : Libc Num) (fuel : Nat) (acc : List (JsonObj Num))
    (sp s tail : List Char) (x : JsonObj Num) (h1 : skip_empty sp = s) (h2 : deref s ≠ ']')
    (h3 : parse_unknown L fuel s = .ok (x, ',' :: tail)) :
    JsonObj_parse_array_loop L (fuel + 1) acc sp
      = JsonObj_parse_array_loop L fuel (acc ++ [x]) tail := by
  rw [JsonObj_parse_array_loop, h1, if_neg h2, h3]
  simp only
  rw [skip_empty_cons_of_not_blank _ _ (by simp [isBlank])]
  simp [deref, List_append]

theorem array_loop_step_last (L : Libc Num) (fuel : Nat) (acc : List (JsonObj Num))
    (sp s rest : List Char) (depth : Nat) (x : JsonObj Num) (h1 : skip_empty sp = s)
    (h2 : deref s ≠ ']')
    (h3 : parse_unknown L (fuel + 1) s
      = .ok (x, '\n' :: (print_indentation depth ++ ']' :: rest))) :
    JsonObj_parse_array_loop L (fuel + 2) acc sp = .ok (.JArray (acc ++ [x]), rest) := by
  rw [JsonObj_parse_array_loop, h1, if_neg h2, h3]
  simp only
  rw [skip_empty_newline_indent, skip_empty_cons_of_not_blank _ _ (by simp [isBlank])]
  simp only [deref, List.headD_cons]
  rw [if_neg (by decide), JsonObj_parse_array_loop,
    skip_empty_cons_of_not_blank _ _ (by simp [isBlank])]
  simp [deref, List_append]

theorem dict_loop_key (L : Libc Num) (fuel : Nat) (acc : List (List Char × JsonObj Num))
    (sp s1 : List Char) (key : List Char) (hk : quotable key = true)
    (h1 : skip_empty sp = '"' :: (key ++ '"' :: ' ' :: ':' :: ' ' :: s1))
    (h2 : skip_empty s1 = s1) :
    JsonObj_parse_dict_loop L (fuel + 1) acc sp =
      match parse_unknown L fuel s1 with
      | .timeout => .timeout
      | .fail => .fail
      | .ok (value, sp2) =>
        if deref (skip_empty sp2) = ',' then
          JsonObj_parse_dict_loop L fuel (HashTable_insert acc key value) (skip_empty sp2).tail
        else if deref (skip_empty sp2) = '}' then
          .ok (.JDict (HashTable_insert acc key value), (skip_empty sp2).tail)
        else .fail := by
  have hs : skip_empty (' ' :: ':' :: ' ' :: s1) = ':' :: ' ' :: s1 := by
    rw [skip_empty, if_pos (Or.inl rfl), skip_empty_cons_of_not_blank _ _ (by simp [isBlank])]
  have hs2 : skip_empty (' ' :: s1) = s1 := by
    rw [skip_empty, if_pos (Or.inl rfl), h2]
  rw [JsonObj_parse_dict_loop, h1, if_pos (by simp [deref]), parse_str_quoted _ _ hk]
  simp only [hs, deref, List.headD_cons, ne_eq, not_true_eq_false, if_false, List.tail_cons, hs2]

theorem dict_loop_step_comma (L : Libc Num) (fuel : Nat) (acc : List (List Char × JsonObj Num))
    (sp s1 tail : List Char) (key : List Char) (value : JsonObj Num) (hk : quotable key = true)
    (h1 : skip_empty sp = '"' :: (key ++ '"' :: ' ' :: ':' :: ' ' :: s1))
    (h2 : skip_empty s1 = s1) (h3 : parse_unknown L fuel s1 = .ok (value, ',' :: tail)) :
    JsonObj_parse_dict_loop L (fuel + 1) acc sp
      = JsonObj_parse_dict_loop L fuel (acc ++ [(key, value)]) tail := by
  rw [dict_loop_key L fuel acc sp s1 key hk h1 h2, h3]
  simp only
  rw [skip_empty_cons_of_not_blank _ _ (by simp [isBlank])]
  simp [deref, HashTable_insert]

theorem dict_loop_step_last (L : Libc Num) (fuel : Nat) (acc : List (List Char × JsonObj Num))
    (sp s1 rest : List Char) (depth : Nat) (key : List Char) (value : JsonObj Num)
    (hk : quotable key = true)
    (h1 : skip_empty sp = '"' :: (key ++ '"' :: ' ' :: ':' :: ' ' :: s1))
    (h2 : skip_empty s1 = s1)
    (h3 : parse_unknown L fuel s1 = .ok (value, '\n' :: (print_indentation depth ++ '}' :: rest))) :
    JsonObj_parse_dict_loop L (fuel + 1) acc sp = .ok (.JDict (acc ++ [(key, value)]), rest) := by
  rw [dict_loop_key L fuel acc sp s1 key hk h1 h2, h3]
  simp only
  rw [skip_empty_newline_indent, skip_empty_cons_of_not_blank _ _ (by simp [isBlank])]
  simp [deref, HashTable_insert]

mutual
/-- Reading back the printed text of a tree of the round trip, whatever follows it, as long as
a comma or a newline comes next. -/
theorem parse_print [DecidableEq Num] (L : Libc Num) :
    ∀ (v : JsonObj Num), roundTrips L v = true → ∀ (depth : Nat) (rest : List Char) (fuel : Nat),
      (deref rest = ',' ∨ deref rest = '\n') →
      2 * (JsonObj_print L v depth ++ rest).length + 1 ≤ fuel →
      parse_unknown L fuel (JsonObj_print L v depth ++ rest) = .ok (v, rest)
  | .JString s, hv, depth, rest, fuel, _, hf => by
    obtain ⟨f, rfl⟩ : ∃ f, fuel = f + 1 := ⟨fuel - 1, by omega⟩
    rw [roundTrips] at hv
    simpa [JsonObj_print] using parse_unknown_string L s rest f hv
  | .JNumber x, hv, depth, rest, fuel, hr, hf => by
    obtain ⟨f, rfl⟩ : ∃ f, fuel = f + 1 := ⟨fuel - 1, by omega⟩
    rw [roundTrips] at hv
    rw [JsonObj_print]
    exact parse_unknown_number L x rest f hv hr
  | .JBool b, hv, depth, rest, fuel, hr, hf => by
    obtain ⟨f, rfl⟩ : ∃ f, fuel = f + 1 := ⟨fuel - 1, by omega⟩
    simp only [roundTrips, decide_eq_true_eq] at hv
    rcases hv with rfl | rfl
    · simpa [JsonObj_print] using (parse_unknown_literal L rest f hr).2.1
    · simpa [JsonObj_print] using (parse_unknown_literal L rest f hr).1
  | .JNull, _, depth, rest, fuel, hr, hf => by
    obtain ⟨f, rfl⟩ : ∃ f, fuel = f + 1 := ⟨fuel - 1, by omega⟩
    simpa [JsonObj_print] using (parse_unknown_literal L rest f hr).2.2
  | .JArray [], _, depth, rest, fuel, _, hf => by
    simp only [JsonObj_print, List.isEmpty_nil, if_true, List.cons_append, List.nil_append,
      List.length_cons] at hf ⊢
    obtain ⟨f, rfl⟩ : ∃ f, fuel = f + 2 := ⟨fuel - 2, by omega⟩
    rw [parse_unknown, skip_empty_cons_of_not_blank _ _ (by simp [isBlank])]
    simp only [deref, List.headD_cons, List.tail_cons, if_true]
    rw [JsonObj_parse_array_loop]
    simp [skip_empty, deref]
  | .JArray (x :: xs), hv, depth, rest, fuel, _, hf => by
    rw [roundTrips] at hv
    have hin : JsonObj_print L (.JArray (x :: xs)) depth ++ rest
        = '[' :: '\n' :: (JsonObj_list_print_loop L (x :: xs) depth
            ++ '\n' :: (print_indentation depth ++ ']' :: rest)) := by
      simp [JsonObj_print]
    rw [hin] at hf ⊢
    simp only [List.length_cons] at hf
    obtain ⟨f, rfl⟩ : ∃ f, fuel = f + 1 := ⟨fuel - 1, by omega⟩
    rw [parse_unknown, skip_empty_cons_of_not_blank _ _ (by simp [isBlank])]
    simp only [deref, List.headD_cons, List.tail_cons, if_true]
    have := parse_print_list L (x :: xs) hv (by simp) [] depth rest f
      (by simp only [List.length_cons]; omega)
    simpa using this
  | .JDict [], hv, _, _, _, _, _ => by simp [roundTrips] at hv
  | .JDict (p :: ps), hv, depth, rest, fuel, _, hf => by
    simp only [roundTrips, List.isEmpty_cons, Bool.not_false, Bool.true_and] at hv
    have hin : JsonObj_print L (.JDict (p :: ps)) depth ++ rest
        = '{' :: '\n' :: (JsonObj_dict_print_loop L (p :: ps) depth 1 (ps.length + 1)
            ++ (print_indentation depth ++ '}' :: rest)) := by
      simp [JsonObj_print, HashTable_element_count]
    rw [hin] at hf ⊢
    simp only [List.length_cons] at hf
    obtain ⟨f, rfl⟩ : ∃ f, fuel = f + 1 := ⟨fuel - 1, by omega⟩
    rw [parse_unknown, skip_empty_cons_of_not_blank _ _ (by simp [isBlank])]
    simp only [deref, List.headD_cons, List.tail_cons, if_true]
    have := parse_print_pairs L (p :: ps) hv (by simp) [] depth 1 (ps.length + 1) rest f
      (by simp only [List.length_cons]; omega) (by simp only [List.length_cons]; omega)
    simpa using this
/-- The array loop reads back the printed items of a non-empty array. -/
theorem parse_print_list [DecidableEq Num] (L : Libc Num) :
    ∀ (l : List (JsonObj Num)), roundTripsList L l = true → l ≠ [] →
      ∀ (acc : List (JsonObj Num)) (depth : Nat) (rest : List Char) (fuel : Nat),
      2 * ('\n' :: (JsonObj_list_print_loop L l depth
          ++ '\n' :: (print_indentation depth ++ ']' :: rest))).length + 2 ≤ fuel →
      JsonObj_parse_array_loop L fuel acc ('\n' :: (JsonObj_list_print_loop L l depth
          ++ '\n' :: (print_indentation depth ++ ']' :: rest)))
        = .ok (.JArray (acc ++ l), rest)
  | [], _, hne, _, _, _, _, _ => absurd rfl hne
  | [x], hl, _, acc, depth, rest, fuel, hf => by
    simp only [roundTripsList, Bool.and_true] at hl
    have hin : '\n' :: (JsonObj_list_print_loop L [x] depth
          ++ '\n' :: (print_indentation depth ++ ']' :: rest))
        = '\n' :: (print_indentation (depth + 1) ++ (JsonObj_print L x (depth + 1)
          ++ '\n' :: (print_indentation depth ++ ']' :: rest))) := by
      simp [JsonObj_list_print_loop]
    rw [hin] at hf ⊢
    simp only [List.length_cons, List.length_append] at hf
    obtain ⟨f, rfl⟩ : ∃ f, fuel = f + 2 := ⟨fuel - 2, by omega⟩
    have hs := skip_empty_print L x (depth + 1)
      ('\n' :: (print_indentation depth ++ ']' :: rest)) hl
    refine array_loop_step_last L f acc _ _ rest depth x
      (by rw [skip_empty_newline_indent]; exact hs.1) hs.2 ?_
    exact parse_print L x hl (depth + 1) _ (f + 1) (Or.inr rfl)
      (by simp only [List.length_cons, List.length_append]; omega)
  | x :: y :: r, hl, _, acc, depth, rest, fuel, hf => by
    rw [roundTripsList, Bool.and_eq_true] at hl
    have hin : '\n' :: (JsonObj_list_print_loop L (x :: y :: r) depth
          ++ '\n' :: (print_indentation depth ++ ']' :: rest))
        = '\n' :: (print_indentation (depth + 1) ++ (JsonObj_print L x (depth + 1)
          ++ ',' :: '\n' :: (JsonObj_list_print_loop L (y :: r) depth
          ++ '\n' :: (print_indentation depth ++ ']' :: rest)))) := by
      simp [JsonObj_list_print_loop]
    rw [hin] at hf ⊢
    simp only [List.length_cons, List.length_append] at hf
    obtain ⟨f, rfl⟩ : ∃ f, fuel = f + 1 := ⟨fuel - 1, by omega⟩
    have hs := skip_empty_print L x (depth + 1)
      (',' :: '\n' :: (JsonObj_list_print_loop L (y :: r) depth
          ++ '\n' :: (print_indentation depth ++ ']' :: rest))) hl.1
    rw [array_loop_step_comma L f acc _ _ _ x
      (by rw [skip_empty_newline_indent]; exact hs.1) hs.2
      (parse_print L x hl.1 (depth + 1) _ f (Or.inl rfl)
        (by simp only [List.length_cons, List.length_append]; omega))]
    have := parse_print_list L (y :: r) hl.2 (by simp) (acc ++ [x]) depth rest f
      (by simp only [List.length_cons, List.length_append]; omega)
    simpa using this
/-- The dict loop reads back the printed pairs of a non-empty dict. -/
theorem parse_print_pairs [DecidableEq Num] (L : Libc Num) :
    ∀ (d : List (List Char × JsonObj Num)), roundTripsPairs L d = true → d ≠ [] →
      ∀ (acc : List (List Char × JsonObj Num)) (depth pair_num total_pairs : Nat)
        (rest : List Char) (fuel : Nat),
      pair_num + d.length = total_pairs + 1 →
      2 * ('\n' :: (JsonObj_dict_print_loop L d depth pair_num total_pairs
          ++ (print_indentation depth ++ '}' :: rest))).length + 2 ≤ fuel →
      JsonObj_parse_dict_loop L fuel acc ('\n' :: (JsonObj_dict_print_loop L d depth pair_num
          total_pairs ++ (print_indentation depth ++ '}' :: rest)))
        = .ok (.JDict (acc ++ d), rest)
  | [], _, hne, _, _, _, _, _, _, _, _ => absurd rfl hne
  | [(key, value)], hd, _, acc, depth, pair_num, total_pairs, rest, fuel, hn, hf => by
    simp only [roundTripsPairs, Bool.and_true, Bool.and_eq_true] at hd
    have hlt : ¬ pair_num < total_pairs := by simp at hn; omega
    have hin : '\n' :: (JsonObj_dict_print_loop L [(key, value)] depth pair_num total_pairs
          ++ (print_indentation depth ++ '}' :: rest))
        = '\n' :: (print_indentation (depth + 1) ++ '"' :: (key ++ '"' :: ' ' :: ':' :: ' ' ::
          (JsonObj_print L value (depth + 1)
            ++ '\n' :: (print_indentation depth ++ '}' :: rest)))) := by
      simp [JsonObj_dict_print_loop, hlt]
    rw [hin] at hf ⊢
    simp only [List.length_cons, List.length_append] at hf
    obtain ⟨f, rfl⟩ : ∃ f, fuel = f + 1 := ⟨fuel - 1, by omega⟩
    have hs := skip_empty_print L value (depth + 1)
      ('\n' :: (print_indentation depth ++ '}' :: rest)) hd.2
    refine dict_loop_step_last L f acc _ _ rest depth key value hd.1
      (by rw [skip_empty_newline_indent]; exact skip_empty_cons_of_not_blank _ _ (by simp [isBlank]))
      hs.1 ?_
    exact parse_print L value hd.2 (depth + 1) _ f (Or.inr rfl)
      (by simp only [List.length_cons, List.length_append]; omega)
  | (key, value) :: q :: r, hd, _, acc, depth, pair_num, total_pairs, rest, fuel, hn, hf => by
    rw [roundTripsPairs, Bool.and_eq_true, Bool.and_eq_true] at hd
    have hlt : pair_num < total_pairs := by simp at hn; omega
    have hin : '\n' :: (JsonObj_dict_print_loop L ((key, value) :: q :: r) depth pair_num
          total_pairs ++ (print_indentation depth ++ '}' :: rest))
        = '\n' :: (print_indentation (depth + 1) ++ '"' :: (key ++ '"' :: ' ' :: ':' :: ' ' ::
          (JsonObj_print L value (depth + 1)
            ++ ',' :: '\n' :: (JsonObj_dict_print_loop L (q :: r) depth (pair_num + 1)
              total_pairs ++ (print_indentation depth ++ '}' :: rest))))) := by
      rw [JsonObj_dict_print_loop]
      simp [hlt]
    rw [hin] at hf ⊢
    simp only [List.length_cons, List.length_append] at hf
    obtain ⟨f, rfl⟩ : ∃ f, fuel = f + 1 := ⟨fuel - 1, by omega⟩
    have hs := skip_empty_print L value (depth + 1)
      (',' :: '\n' :: (JsonObj_dict_print_loop L (q :: r) depth (pair_num + 1)
              total_pairs ++ (print_indentation depth ++ '}' :: rest))) hd.1.2
    rw [dict_loop_step_comma L f acc _ _ _ key value hd.1.1
      (by rw [skip_empty_newline_indent]; exact skip_empty_cons_of_not_blank _ _ (by simp [isBlank]))
      hs.1
      (parse_print L value hd.1.2 (depth + 1) _ f (Or.inl rfl)
        (by simp only [List.length_cons, List.length_append]; omega))]
    have := parse_print_pairs L (q :: r) hd.2 (by simp) (acc ++ [(key, value)]) depth
      (pair_num + 1) total_pairs rest f (by simp only [List.length_cons] at hn ⊢; omega)
      (by simp only [List.length_cons, List.length_append]; omega)
    simpa using this
end

/-- C1 (amended). Round trip: for every Dict-rooted tree in which no dict is empty, every Bool
payload is 0 or 1, every Number reads back from its `%lf` text, and every string and key is
free of double quotes, `JsonObj_fprint` writes a text on which `JsonObj_parse_string` succeeds
and returns the tree itself (arrays in order, dicts pair by pair). -/
theorem round_trip [DecidableEq Num] (L : Libc Num) (T : JsonObj Num)
    (hroot : JsonObj_get_type T = .JDict) (hT : roundTrips L T = true) :
    ∃ text, JsonObj_fprint L T = some text ∧ JsonObj_parse_string L text = .ok T := by
  cases T with
  | JDict dict =>
    refine ⟨JsonObj_dict_print L dict 0 ++ ['\n'], rfl, ?_⟩
    have h := parse_print L (.JDict dict) hT 0 ['\n'] _ (Or.inr rfl) (Nat.le_refl _)
    have hp : JsonObj_print L (.JDict dict) 0 = JsonObj_dict_print L dict 0 := by
      rw [JsonObj_print, JsonObj_dict_print]
    rw [hp] at h
    unfold JsonObj_parse_string JsonObj_parse_string_fuel
    rw [h]
  | _ => simp [JsonObj_get_type] at hroot

/-- Witness of C1 (amended) on the executable libc instance: a tree with every tag, an empty
array, a nested dict and a backslash in a string. -/
theorem round_trip_witness :
    ∃ text,
      JsonObj_fprint decimal9
          (.JDict [(['a'], .JArray [.JNumber 1000000000, .JDict [(['b'], .JNumber (-2500000000))],
            .JArray []]), (['s'], .JString ['x', '\\', 'y']), (['t'], .JBool 1),
            (['f'], .JBool 0), (['n'], .JNull)]) = some text ∧
      JsonObj_parse_string decimal9 text
        = .ok (.JDict [(['a'], .JArray [.JNumber 1000000000,
            .JDict [(['b'], .JNumber (-2500000000))], .JArray []]),
            (['s'], .JString ['x', '\\', 'y']), (['t'], .JBool 1), (['f'], .JBool 0),
            (['n'], .JNull)]) :=
  round_trip decimal9 _ rfl rfl

/-- C1 (as stated) fails. With the executable libc instance: the empty dict is printed as `{}`,
which the parser rejects, at the root and as a child; Bool(2) is printed as `true` and read
back as Bool(1); the number `10^-9` is printed as `0.000000` and read back as 0. -/
theorem round_trip_counterexample :
    (JsonObj_fprint decimal9 (.JDict []) = some ['{', '}', '\n'] ∧
      JsonObj_parse_string decimal9 ['{', '}', '\n'] = .fail) ∧
    (JsonObj_fprint decimal9 (.JDict [(['a'], .JDict [])])
        = some ("\x7b\n    \"a\" : \x7b\x7d\n\x7d\n").toList ∧
      JsonObj_parse_string decimal9 ("\x7b\n    \"a\" : \x7b\x7d\n\x7d\n").toList = .fail) ∧
    (JsonObj_fprint decimal9 (.JDict [(['a'], .JBool 2)])
        = some ("\x7b\n    \"a\" : true\n\x7d\n").toList ∧
      JsonObj_parse_string decimal9 ("\x7b\n    \"a\" : true\n\x7d\n").toList
        = .ok (.JDict [(['a'], .JBool 1)])) ∧
    (JsonObj_fprint decimal9 (.JDict [(['a'], .JNumber 1)])
        = some ("\x7b\n    \"a\" : 0.000000\n\x7d\n").toList ∧
      JsonObj_parse_string decimal9 ("\x7b\n    \"a\" : 0.000000\n\x7d\n").toList
        = .ok (.JDict [(['a'], .JNumber 0)])) :=
  ⟨⟨rfl, rfl⟩, ⟨rfl, rfl⟩, ⟨rfl, rfl⟩, ⟨rfl, rfl⟩⟩

/-- C10 (failing input). A vector created with initial size 0 and one `Vector_pushback`:
`Vector_expand` doubles the capacity 0 to 0, the item is stored at slot 0 of a table without
slots, and `element_count` becomes 1, above the capacity 0. -/
theorem vector_zero_capacity_pushback :
    (Vector_expand (Vector_new_init_size 0)).2.capacity = 0 ∧
    Vector_pushback (Vector_new_init_size 0) 1
      = (0, { table := [], capacity := 0, element_count := 1 }) ∧
    ¬ ((Vector_pushback (Vector_new_init_size 0) 1).2.element_count
        ≤ (Vector_pushback (Vector_new_init_size 0) 1).2.capacity) := by
  decide

/-! ## Vector: pushes onto a vector that holds its items -/

theorem wrap32_eq {x : Int} (h1 : -2147483648 ≤ x) (h2 : x < 2147483648) : wrap32 x = x := by
  unfold wrap32; omega

theorem toU32_natCast (n : Nat) (h : n < 4294967296) : toU32 (n : Int) = n := by
  unfold toU32; omega

theorem set_append_replicate (xs : List Nat) (k x : Nat) (hk : 1 ≤ k) :
    (xs ++ List.replicate k 0).set xs.length x
      = (xs ++ [x]) ++ List.replicate (k - 1) 0 := by
  obtain ⟨j, rfl⟩ : ∃ j, k = j + 1 := ⟨k - 1, by omega⟩
  simp [List.replicate_succ, List.set_append]

theorem store_holds (xs : List Nat) (k x : Nat) (hk : 1 ≤ k) :
    store (xs ++ List.replicate k 0) (xs.length : Int) x
      = (xs ++ [x]) ++ List.replicate (k - 1) 0 := by
  unfold store
  rw [if_pos (by simp; omega)]
  simpa using set_append_replicate xs k x hk

theorem new_holds (c : Nat) (hc : c < 2147483648) :
    Vector_holds (Vector_new_init_size c) [] c := by
  refine ⟨by simp [Vector_new_init_size, calloc], ?_, rfl, Nat.zero_le _, hc⟩
  simp only [Vector_new_init_size]
  exact wrap32_eq (by omega) (by omega)

/-- A push of a non-null item onto a vector with a free slot stores the item after the items
held and leaves the capacity as it is. -/
theorem pushback_free_slot (v : Vector) (xs : List Nat) (cap x : Nat)
    (h : Vector_holds v xs cap) (hx : x ≠ 0) (hn : xs.length < cap) :
    (Vector_pushback v x).1 = 0 ∧ Vector_holds (Vector_pushback v x).2 (xs ++ [x]) cap := by
  obtain ⟨ht, hc, he, hle, hcap⟩ := h
  have hlt : ¬ v.element_count ≥ v.capacity := by rw [he, hc]; omega
  unfold Vector_pushback
  rw [if_neg hx, if_neg hlt]
  refine ⟨rfl, ?_, hc, ?_, by simp; omega, hcap⟩
  · simp only [ht, he]
    rw [store_holds xs _ x (by omega)]
    simp; omega
  · simp only [he]
    rw [wrap32_eq (by omega) (by omega)]
    simp

/-- A push of a non-null item onto a full vector of at least one slot, whose doubled capacity
is an `int32_t`, doubles the table and stores the item after the items held. -/
theorem pushback_full (v : Vector) (xs : List Nat) (cap x : Nat)
    (h : Vector_holds v xs cap) (hx : x ≠ 0) (hn : xs.length = cap) (h1 : 1 ≤ cap)
    (h2 : 2 * cap < 2147483648) :
    (Vector_pushback v x).1 = 0 ∧
      Vector_holds (Vector_pushback v x).2 (xs ++ [x]) (2 * cap) := by
  obtain ⟨ht, hc, he, hle, hcap⟩ := h
  have hge : v.element_count ≥ v.capacity := by rw [he, hc]; omega
  have hw : wrap32 (v.capacity * 2) = ((2 * cap : Nat) : Int) := by
    rw [hc, wrap32_eq (by omega) (by omega)]; push_cast; ring
  have hex : Vector_expand v = (0, { v with
      table := xs ++ List.replicate cap 0, capacity := ((2 * cap : Nat) : Int) }) := by
    unfold Vector_expand
    rw [if_neg (by rw [hw]; omega), hw]
    simp only [memcpy, calloc, ht, hc, hn, Int.toNat_ofNat]
    simp [← hn]
    omega
  unfold Vector_pushback
  rw [if_neg hx, if_pos hge, hex]
  simp only
  rw [if_neg (by decide)]
  refine ⟨rfl, ?_, rfl, ?_, by simp; omega, h2⟩
  · simp only [he, ← hn]
    rw [store_holds xs _ x (by omega)]
    simp; omega
  · simp only [he]
    rw [wrap32_eq (by omega) (by omega)]
    simp

/-- A push onto a full vector whose doubled capacity is not an `int32_t` returns -1 and leaves
the vector as it is. -/
theorem pushback_overflow (v : Vector) (xs : List Nat) (cap x : Nat)
    (h : Vector_holds v xs cap) (hx : x ≠ 0) (hn : xs.length = cap)
    (h2 : 2147483648 ≤ 2 * cap) : Vector_pushback v x = (-1, v) := by
  obtain ⟨ht, hc, he, hle, hcap⟩ := h
  have hge : v.element_count ≥ v.capacity := by rw [he, hc]; omega
  have hex : Vector_expand v = (-1, v) := by
    unfold Vector_expand
    rw [if_pos (by rw [hc]; unfold wrap32; omega)]
  unfold Vector_pushback
  rw [if_neg hx, if_pos hge, hex]
  simp

/-- A push of a non-null item onto a vector whose capacity is negative, and whose doubled
capacity is a negative `int32_t` too, is rejected with -1 and leaves the vector as it is. -/
theorem pushback_negative_capacity (v : Vector) (x : Nat) (hx : x ≠ 0) (h1 : v.capacity < 0)
    (h2 : -1073741824 ≤ v.capacity) (h3 : v.element_count ≥ v.capacity) :
    Vector_pushback v x = (-1, v) := by
  have hex : Vector_expand v = (-1, v) := by
    unfold Vector_expand
    rw [if_pos (by unfold wrap32; omega)]
  unfold Vector_pushback
  rw [if_neg hx, if_pos h3, hex]
  simp

theorem leastDoubling_start (c : Nat) : leastDoubling c c 0 :=
  ⟨0, by simp, Nat.zero_le _, fun j hj => absurd hj (Nat.not_lt_zero j)⟩

theorem leastDoubling_free_slot {c cap n : Nat} (h : leastDoubling c cap n) (hn : n < cap) :
    leastDoubling c cap (n + 1) := by
  obtain ⟨k, hk, _, hj⟩ := h
  exact ⟨k, hk, by omega, fun j hjk => Nat.lt_succ_of_lt (hj j hjk)⟩

theorem leastDoubling_full {c cap : Nat} (h : leastDoubling c cap cap) (h1 : 1 ≤ cap) :
    leastDoubling c (2 * cap) (cap + 1) := by
  obtain ⟨k, hk, _, _⟩ := h
  refine ⟨k + 1, by rw [hk, pow_succ]; ring, by rw [pow_succ]; nlinarith, ?_⟩
  intro j hj
  have : 2 ^ j ≤ 2 ^ k := Nat.pow_le_pow_right (by decide) (by omega)
  have : c * 2 ^ j ≤ c * 2 ^ k := Nat.mul_le_mul_left c this
  omega

/-- Successive pushes of non-null items onto a vector that holds its items: they all return
0 while the number of items stays within `2^30`, and when they all return 0 the vector holds
the old items followed by the pushed ones, in a table doubled the least number of times. -/
theorem pushback_list_holds (c : Nat) : ∀ (items : List Nat) (v : Vector) (xs : List Nat)
    (cap : Nat), Vector_holds v xs cap → 1 ≤ cap → leastDoubling c cap xs.length →
    (∀ x ∈ items, x ≠ 0) →
    (xs.length + items.length ≤ 1073741824 →
      ∀ code ∈ (Vector_pushback_list v items).1, code = 0) ∧
    ((∀ code ∈ (Vector_pushback_list v items).1, code = 0) →
      ∃ cap1, Vector_holds (Vector_pushback_list v items).2 (xs ++ items) cap1 ∧
        leastDoubling c cap1 (xs.length + items.length)) := by
  intro items
  induction items with
  | nil =>
    intro v xs cap h _ hg _
    exact ⟨fun _ code hc => by simp [Vector_pushback_list] at hc,
      fun _ => ⟨cap, by simpa [Vector_pushback_list] using h, by simpa using hg⟩⟩
  | cons x rest ih =>
    intro v xs cap h h1 hg hx
    have hx0 : x ≠ 0 := hx x (by simp)
    have hrest : ∀ y ∈ rest, y ≠ 0 := fun y hy => hx y (by simp [hy])
    have hle := h.2.2.2.1
    rw [Vector_pushback_list]
    by_cases hn : xs.length < cap
    · obtain ⟨hcode, hv⟩ := pushback_free_slot v xs cap x h hx0 hn
      obtain ⟨ihA, ihB⟩ := ih _ (xs ++ [x]) cap hv h1
        (by simpa using leastDoubling_free_slot hg hn) hrest
      simp only [List.length_append, List.length_cons, List.length_nil, List.append_assoc,
        List.singleton_append] at ihA ihB
      constructor
      · intro hlen code hc
        rcases List.mem_cons.mp hc with rfl | hc
        · exact hcode
        · exact ihA (by simp at hlen; omega) code hc
      · intro hall
        obtain ⟨cap1, hh, hgg⟩ := ihB (fun code hc => hall code (List.mem_cons_of_mem _ hc))
        exact ⟨cap1, hh, by simpa [Nat.add_assoc, Nat.add_comm 1] using hgg⟩
    · have hfull : xs.length = cap := by omega
      by_cases h2 : 2 * cap < 2147483648
      · obtain ⟨hcode, hv⟩ := pushback_full v xs cap x h hx0 hfull h1 h2
        obtain ⟨ihA, ihB⟩ := ih _ (xs ++ [x]) (2 * cap) hv (by omega)
          (by rw [hfull] at hg; simpa [hfull] using leastDoubling_full hg h1) hrest
        simp only [List.length_append, List.length_cons, List.length_nil, List.append_assoc,
          List.singleton_append] at ihA ihB
        constructor
        · intro hlen code hc
          rcases List.mem_cons.mp hc with rfl | hc
          · exact hcode
          · exact ihA (by simp at hlen; omega) code hc
        · intro hall
          obtain ⟨cap1, hh, hgg⟩ := ihB (fun code hc => hall code (List.mem_cons_of_mem _ hc))
          exact ⟨cap1, hh, by simpa [Nat.add_assoc, Nat.add_comm 1] using hgg⟩
      · have hov := pushback_overflow v xs cap x h hx0 hfull (by omega)
        constructor
        · intro hlen
          simp at hlen
          omega
        · intro hall
          have := hall (Vector_pushback v x).1 (by simp)
          rw [hov] at this
          simp at this

theorem get_of_holds (v : Vector) (xs : List Nat) (cap : Nat) (h : Vector_holds v xs cap) :
    Vector_size v = xs.length ∧ (∀ i, i < xs.length → Vector_get v i = xs.get? i) ∧
      (∀ i, xs.length ≤ i → Vector_get v i = some 0) := by
  obtain ⟨ht, hc, he, hle, hcap⟩ := h
  have hs : toU32 v.element_count = xs.length := by
    rw [he]; exact toU32_natCast _ (by omega)
  refine ⟨hs, ?_, ?_⟩
  · intro i hi
    unfold Vector_get
    rw [hs, if_neg (by omega)]
    simp [load, ht, List.getElem?_append_left hi]
  · intro i hi
    unfold Vector_get
    rw [hs, if_pos hi]

/-- C11 (amended). Vector contents: on a new vector of initial capacity `c` with
`1 <= c <= 2147483647` (the capacities the `int32_t` field holds), successive pushes of non-null
items all return 0 as long as there are at most `2^30` items; and when they all return 0,
`Vector_size` is the number `n` of items, `Vector_get(i)` is the item `x_i` for `i < n` and the
null sentinel for `i >= n`, never a read outside the allocated table. -/
theorem vector_contents (c : Nat) (items : List Nat) (hc1 : 1 ≤ c) (hc2 : c < 2147483648)
    (hx : ∀ x ∈ items, x ≠ 0) :
    (items.length ≤ 1073741824 →
      ∀ code ∈ (Vector_pushback_list (Vector_new_init_size c) items).1, code = 0) ∧
    ((∀ code ∈ (Vector_pushback_list (Vector_new_init_size c) items).1, code = 0) →
      Vector_size (Vector_pushback_list (Vector_new_init_size c) items).2 = items.length ∧
      (∀ i, i < items.length →
        Vector_get (Vector_pushback_list (Vector_new_init_size c) items).2 i = items.get? i) ∧
      (∀ i, items.length ≤ i →
        Vector_get (Vector_pushback_list (Vector_new_init_size c) items).2 i = some 0)) := by
  obtain ⟨hA, hB⟩ := pushback_list_holds c items (Vector_new_init_size c) [] c (new_holds c hc2)
    hc1 (leastDoubling_start c) hx
  refine ⟨fun hlen => hA (by simpa using hlen), fun hall => ?_⟩
  obtain ⟨cap1, hh, -⟩ := hB hall
  simpa using get_of_holds _ _ _ hh

/-- Witness of C11 (amended): five items pushed onto a new vector of capacity 2, which grows twice. -/
theorem vector_contents_witness :
    Vector_size (Vector_pushback_list (Vector_new_init_size 2) [7, 8, 9, 10, 11]).2 = 5 ∧
    Vector_get (Vector_pushback_list (Vector_new_init_size 2) [7, 8, 9, 10, 11]).2 4
      = some 11 ∧
    Vector_get (Vector_pushback_list (Vector_new_init_size 2) [7, 8, 9, 10, 11]).2 5
      = some 0 :=
  ⟨((vector_contents 2 [7, 8, 9, 10, 11] (by decide) (by decide) (by decide)).2
      (by decide)).1,
    ((vector_contents 2 [7, 8, 9, 10, 11] (by decide) (by decide) (by decide)).2
      (by decide)).2.1 4 (by decide),
    ((vector_contents 2 [7, 8, 9, 10, 11] (by decide) (by decide) (by decide)).2
      (by decide)).2.2 5 (by decide)⟩

/-- C11 (as stated) fails. On a new vector of initial capacity 4294967295 the `int32_t`
capacity is -1; the push of the non-null item 1 asks `Vector_expand` for -2 slots and returns
-1, so after the one push `Vector_size` is 0, not 1, and `Vector_get(0)` is the null sentinel,
not the item. -/
theorem vector_contents_counterexample :
    (Vector_new_init_size 4294967295).capacity = -1 ∧
    (Vector_pushback_list (Vector_new_init_size 4294967295) [1]).1 = [-1] ∧
    Vector_size (Vector_pushback_list (Vector_new_init_size 4294967295) [1]).2 = 0 ∧
    Vector_get (Vector_pushback_list (Vector_new_init_size 4294967295) [1]).2 0 = some 0 := by
  have hcap : (Vector_new_init_size 4294967295).capacity = -1 := by
    simp only [Vector_new_init_size]
    unfold wrap32
    omega
  have hcount : (Vector_new_init_size 4294967295).element_count = 0 := rfl
  have hp : Vector_pushback (Vector_new_init_size 4294967295) 1
      = (-1, Vector_new_init_size 4294967295) :=
    pushback_negative_capacity _ 1 (by decide) (by rw [hcap]; decide) (by rw [hcap]; decide)
      (by rw [hcap, hcount]; decide)
  refine ⟨hcap, ?_, ?_, ?_⟩
  · simp only [Vector_pushback_list, hp]
  · simp only [Vector_pushback_list, hp, Vector_size, hcount]
    rfl
  · simp only [Vector_pushback_list, hp, Vector_get, hcount]
    rfl

/-- C13. `Vector_set` at the end is push-back: for every vector and every item, null or not,
`Vector_set(v, x, Vector_size(v))` returns the code and the vector of `Vector_pushback(v, x)`;
`Vector_set` of a non-null item at an index below the size, on a vector whose elements lie in
its allocated slots, returns 0 and replaces slot `i` only: size and capacity are unchanged and
every other slot keeps its content. -/
theorem vector_set_spec :
    (∀ (v : Vector) (x : Nat), Vector_set v x (Vector_size v) = Vector_pushback v x) ∧
    (∀ (v : Vector) (x i : Nat), x ≠ 0 → i < Vector_size v → Vector_size v ≤ v.table.length →
      (Vector_set v x i).1 = 0 ∧
      (Vector_set v x i).2.element_count = v.element_count ∧
      (Vector_set v x i).2.capacity = v.capacity ∧
      (Vector_set v x i).2.table = v.table.set i x ∧
      Vector_get (Vector_set v x i).2 i = some x ∧
      ∀ j, j ≠ i → (Vector_set v x i).2.table.get? j = v.table.get? j) := by
  refine ⟨?_, ?_⟩
  · intro v x
    unfold Vector_set Vector_size
    rw [if_neg (Nat.lt_irrefl _), if_pos rfl]
  · intro v x i hx hi hlen
    unfold Vector_size at hi hlen
    have hst : store v.table (i : Int) x = v.table.set i x := by
      unfold store
      rw [if_pos (by omega)]
      simp
    have hset : Vector_set v x i = (0, { v with table := v.table.set i x }) := by
      unfold Vector_set
      rw [if_neg (by omega), if_neg (by omega), if_neg hx, hst]
    rw [hset]
    refine ⟨rfl, rfl, rfl, rfl, ?_, ?_⟩
    · unfold Vector_get
      simp only
      rw [if_neg (by omega)]
      simp [load, List.getElem?_set_self (show i < v.table.length by omega)]
    · intro j hj
      simp [List.getElem?_set_ne (Ne.symm hj)]

/-- Witness of C13 on a vector of capacity 4 that holds three items: the item at index 1 is
replaced. -/
theorem vector_set_spec_witness :
    (Vector_set (Vector_pushback_list (Vector_new_init_size 4) [7, 8, 9]).2 5 1).1 = 0 ∧
    (Vector_set (Vector_pushback_list (Vector_new_init_size 4) [7, 8, 9]).2 5 1).2.table
      = [7, 5, 9, 0] :=
  ⟨(vector_set_spec.2 (Vector_pushback_list (Vector_new_init_size 4) [7, 8, 9]).2 5 1
      (by decide) (by decide) (by decide)).1,
    (vector_set_spec.2 (Vector_pushback_list (Vector_new_init_size 4) [7, 8, 9]).2 5 1
      (by decide) (by decide) (by decide)).2.2.2.1⟩

theorem reached_new (c : Nat) (hc : c < 2147483648) : Vector_reached (Vector_new_init_size c) := by
  by_cases h0 : c = 0
  · subst h0
    exact Or.inl ⟨rfl, by decide⟩
  · exact Or.inr ⟨[], c, new_holds c hc, by omega, by simp⟩

theorem reached_pushback (v : Vector) (x : Nat) (h : Vector_reached v) :
    Vector_reached (Vector_pushback v x).2 := by
  by_cases hx : x = 0
  · unfold Vector_pushback
    rw [if_pos hx]
    exact h
  · rcases h with ⟨ht, hc⟩ | ⟨xs, cap, hh, h1, hnn⟩
    · left
      have hex : Vector_expand v = (0, v) := by
        unfold Vector_expand
        rw [hc]
        simp [wrap32, memcpy, calloc, ht]
        cases v
        simp_all
      unfold Vector_pushback
      rw [if_neg hx]
      split
      · rw [hex]
        simp [store, ht, hc]
      · simp [store, ht, hc]
    · right
      have hnn1 : ∀ y ∈ xs ++ [x], y ≠ 0 := by
        intro y hy
        rcases List.mem_append.mp hy with hy | hy
        · exact hnn y hy
        · simp at hy; rw [hy]; exact hx
      by_cases hn : xs.length < cap
      · exact ⟨xs ++ [x], cap, (pushback_free_slot v xs cap x hh hx hn).2, h1, hnn1⟩
      · have hfull : xs.length = cap := by have := hh.2.2.2.1; omega
        by_cases h2 : 2 * cap < 2147483648
        · exact ⟨xs ++ [x], 2 * cap, (pushback_full v xs cap x hh hx hfull h1 h2).2,
            by omega, hnn1⟩
        · rw [pushback_overflow v xs cap x hh hx hfull (by omega)]
          exact ⟨xs, cap, hh, h1, hnn⟩

theorem reached_set (v : Vector) (x i : Nat) (h : Vector_reached v) :
    Vector_reached (Vector_set v x i).2 := by
  unfold Vector_set
  split
  · exact h
  · split
    · exact reached_pushback v x h
    · split
      · exact h
      · rename_i h1 h2 hx
        rcases h with ⟨ht, hc⟩ | ⟨xs, cap, hh, hcap, hnn⟩
        · left
          simp [store, ht, hc]
        · right
          obtain ⟨ht, hc, he, hle, hcap2⟩ := hh
          have hs : toU32 v.element_count = xs.length := by
            rw [he]; exact toU32_natCast _ (by omega)
          rw [hs] at h1 h2
          have hi : i < xs.length := by omega
          refine ⟨xs.set i x, cap, ⟨?_, hc, ?_, by simpa using hle, hcap2⟩, hcap, ?_⟩
          · simp only [store, ht]
            rw [if_pos (by simp; omega)]
            simp [List.set_append, hi]
          · simpa using he
          · intro y hy
            rcases List.mem_or_eq_of_mem_set hy with hy | hy
            · exact hnn y hy
            · rw [hy]; exact hx

theorem reached_clear (v : Vector) (h : Vector_reached v) : Vector_reached (Vector_clear v) := by
  rcases h with ⟨ht, hc⟩ | ⟨xs, cap, hh, hcap, hnn⟩
  · left
    simp [Vector_clear, ht, hc]
  · right
    obtain ⟨ht, hc, he, hle, hcap2⟩ := hh
    refine ⟨[], cap, ⟨?_, hc, rfl, Nat.zero_le _, hcap2⟩, hcap, by simp⟩
    have hl : v.table.length = cap := by rw [ht]; simp; omega
    simp [Vector_clear, hc, hl]

theorem reached_after (calls : List VectorCall) : ∀ (v : Vector), Vector_reached v →
    Vector_reached (Vector_after v calls) := by
  induction calls with
  | nil => intro v h; exact h
  | cons call rest ih =>
    intro v h
    unfold Vector_after
    rw [List.foldl_cons]
    apply ih
    cases call with
    | pushback data => exact reached_pushback v data h
    | set data index => exact reached_set v data index h
    | clear => exact reached_clear v h

theorem reached_slots (v : Vector) (h : Vector_reached v) :
    (v.capacity = v.table.length) ∧ ∀ i, i < Vector_size v → v.table.get? i ≠ some 0 := by
  rcases h with ⟨ht, hc⟩ | ⟨xs, cap, hh, hcap, hnn⟩
  · exact ⟨by rw [ht, hc]; rfl, fun i _ => by simp [ht]⟩
  · obtain ⟨ht, hc, he, hle, hcap2⟩ := hh
    refine ⟨by rw [ht, hc]; simp; omega, ?_⟩
    intro i hi
    have hs : Vector_size v = xs.length := by
      unfold Vector_size; rw [he]; exact toU32_natCast _ (by omega)
    rw [hs] at hi
    rw [ht]
    simp only [List.get?_eq_getElem?, List.getElem?_append_left hi, List.getElem?_eq_getElem hi]
    intro h0
    exact hnn _ (List.getElem_mem hi) (by simpa using h0)

/-- C14. Vector rejections are atomic: `Vector_pushback` of a null item returns -2,
`Vector_set` of a null item at an index up to the size returns -2, `Vector_set` at an index
above the size returns -1 whatever the item, each leaving the vector (size, capacity, table)
exactly as it was. Consequently, after any sequence of push-back, set and clear calls on a new
vector (its initial size an `int32_t`), no slot at an index below the size holds null. -/
theorem vector_rejections :
    (∀ v : Vector, Vector_pushback v 0 = (-2, v)) ∧
    (∀ (v : Vector) (i : Nat), i ≤ Vector_size v → Vector_set v 0 i = (-2, v)) ∧
    (∀ (v : Vector) (x i : Nat), Vector_size v < i → Vector_set v x i = (-1, v)) ∧
    (∀ (c : Nat) (calls : List VectorCall), c < 2147483648 →
      ∀ i, i < Vector_size (Vector_after (Vector_new_init_size c) calls) →
        (Vector_after (Vector_new_init_size c) calls).table.get? i ≠ some 0) := by
  refine ⟨?_, ?_, ?_, ?_⟩
  · intro v
    unfold Vector_pushback
    rw [if_pos rfl]
  · intro v i hi
    unfold Vector_size at hi
    unfold Vector_set
    rw [if_neg (by omega)]
    split
    · unfold Vector_pushback
      rw [if_pos rfl]
    · rw [if_pos rfl]
  · intro v x i hi
    unfold Vector_size at hi
    unfold Vector_set
    rw [if_pos hi]
  · intro c calls hc
    exact (reached_slots _ (reached_after calls _ (reached_new c hc))).2

/-- Witness of C14: a null push onto a full vector of capacity 2 is rejected without growth,
and after a mixed sequence of calls the two slots below the size are non-null. -/
theorem vector_rejections_witness :
    Vector_set (Vector_pushback_list (Vector_new_init_size 2) [7, 8]).2 0 2
      = (-2, (Vector_pushback_list (Vector_new_init_size 2) [7, 8]).2) ∧
    Vector_set (Vector_pushback_list (Vector_new_init_size 2) [7, 8]).2 5 3
      = (-1, (Vector_pushback_list (Vector_new_init_size 2) [7, 8]).2) ∧
    (Vector_after (Vector_new_init_size 2)
      [.pushback 7, .pushback 0, .set 0 0, .set 9 5, .set 8 1, .set 6 0]).table.get? 1
        ≠ some 0 :=
  ⟨vector_rejections.2.1 _ 2 (by decide), vector_rejections.2.2.1 _ 5 3 (by decide),
    vector_rejections.2.2.2 2 _ (by decide) 1 (by decide)⟩

/-- C15. `Vector_clear`: for every vector, after the call the size is 0 and the capacity is
unchanged; when the table has its `capacity` slots (as it has after any sequence of calls on a
new vector), every one of them holds null; `Vector_get` returns the null sentinel for every
index, and `Vector_back` returns the null sentinel. -/
theorem vector_clear_spec :
    (∀ v : Vector, Vector_size (Vector_clear v) = 0 ∧
      (Vector_clear v).capacity = v.capacity ∧
      (∀ i, Vector_get (Vector_clear v) i = some 0) ∧
      Vector_back (Vector_clear v) = some 0) ∧
    (∀ (v : Vector) (i : Nat), v.capacity ≤ v.table.length → (i : Int) < v.capacity →
      (Vector_clear v).table.get? i = some 0) ∧
    (∀ (c : Nat) (calls : List VectorCall) (i : Nat), c < 2147483648 →
      (i : Int) < (Vector_after (Vector_new_init_size c) calls).capacity →
      (Vector_clear (Vector_after (Vector_new_init_size c) calls)).table.get? i = some 0) := by
  have hslots : ∀ (v : Vector) (i : Nat), v.capacity ≤ v.table.length → (i : Int) < v.capacity →
      (Vector_clear v).table.get? i = some 0 := by
    intro v i hcap hi
    have h1 : i < v.capacity.toNat := by omega
    have h2 : min v.capacity.toNat v.table.length = v.capacity.toNat := by omega
    simp only [Vector_clear, h2, List.get?_eq_getElem?]
    rw [List.getElem?_append_left (by simpa using h1)]
    simp [h1]
  refine ⟨?_, hslots, ?_⟩
  · intro v
    refine ⟨by simp [Vector_clear, Vector_size, toU32], rfl, ?_, by simp [Vector_clear, Vector_back]⟩
    intro i
    simp [Vector_get, Vector_clear, toU32]
  · intro c calls i hc hi
    have := (reached_slots _ (reached_after calls _ (reached_new c hc))).1
    exact hslots _ i (by omega) hi

/-- Witness of C15: a vector of capacity 4 that holds three items is cleared. -/
theorem vector_clear_spec_witness :
    (Vector_clear (Vector_pushback_list (Vector_new_init_size 4) [7, 8, 9]).2).table.get? 2
      = some 0 :=
  vector_clear_spec.2.1 (Vector_pushback_list (Vector_new_init_size 4) [7, 8, 9]).2 2
    (by decide) (by decide)

/-! ## Vector: iterator and deserialization -/

theorem next_list_holds (v : Vector) (xs : List Nat) (cap : Nat) (h : Vector_holds v xs cap) :
    ∀ (calls p : Nat), p ≤ xs.length →
      (VIterator_next_list { vector := v, index := p } calls).1
        = ((xs.drop p).map some ++ List.replicate (calls - (xs.length - p)) (some 0)).take calls
      ∧ (VIterator_next_list { vector := v, index := p } calls).2
        = { vector := v, index := ((min (p + calls) xs.length : Nat) : Int) } := by
  obtain ⟨ht, hc, he, hle, hcap⟩ := h
  intro calls
  induction calls with
  | zero =>
    intro p hp
    simp [VIterator_next_list, Nat.min_eq_left hp]
  | succ k ih =>
    intro p hp
    rw [VIterator_next_list]
    by_cases hlt : p < xs.length
    · have hn : VIterator_next { vector := v, index := (p : Int) }
          = (xs.get? p, { vector := v, index := ((p + 1 : Nat) : Int) }) := by
        unfold VIterator_next
        simp only
        rw [if_neg (by rw [he]; omega), wrap32_eq (by omega) (by omega)]
        simp [load, ht, List.getElem?_append_left hlt]
      rw [hn]
      obtain ⟨ih1, ih2⟩ := ih (p + 1) (by omega)
      simp only
      rw [ih1, ih2]
      refine ⟨?_, by congr 2; omega⟩
      rw [List.drop_eq_getElem_cons hlt]
      simp only [List.map_cons, List.cons_append, List.take_succ_cons, List.get?_eq_getElem?,
        List.getElem?_eq_getElem hlt]
      rw [show k + 1 - (xs.length - p) = k - (xs.length - (p + 1)) by omega]
    · have hpe : p = xs.length := by omega
      have hn : VIterator_next { vector := v, index := (p : Int) }
          = (some 0, { vector := v, index := (p : Int) }) := by
        unfold VIterator_next
        simp only
        rw [if_pos (by rw [he]; omega)]
      rw [hn]
      obtain ⟨ih1, ih2⟩ := ih p hp
      simp only
      rw [ih1, ih2]
      subst hpe
      simp [List.replicate_succ]

/-- C16. Vector iterator: for a vector that holds `x_0 .. x_(n-1)`, the successive
`VIterator_next` calls on a new iterator return `x_0`, .., `x_(n-1)` in order and then the
null sentinel on every further call, the position after `k` calls being `min k n`;
`VIterator_peak` returns what the next `VIterator_next` returns; and after `VIterator_reset`
the iterator is the new iterator again, so the same sequence is produced. -/
theorem vector_iterator (v : Vector) (xs : List Nat) (cap : Nat) (h : Vector_holds v xs cap) :
    (∀ calls, (VIterator_next_list (VIterator_new v) calls).1
      = (xs.map some ++ List.replicate (calls - xs.length) (some 0)).take calls) ∧
    (∀ calls, (VIterator_next_list (VIterator_new v) calls).2.index
      = ((min calls xs.length : Nat) : Int)) ∧
    (∀ it : VIterator, VIterator_peak it = (VIterator_next it).1) ∧
    (∀ calls, VIterator_reset (VIterator_next_list (VIterator_new v) calls).2
      = VIterator_new v) := by
  have hnew : VIterator_new v = { vector := v, index := ((0 : Nat) : Int) } := rfl
  refine ⟨?_, ?_, ?_, ?_⟩
  · intro calls
    rw [hnew, (next_list_holds v xs cap h calls 0 (Nat.zero_le _)).1]
    simp
  · intro calls
    rw [hnew, (next_list_holds v xs cap h calls 0 (Nat.zero_le _)).2]
    simp
  · intro it
    unfold VIterator_peak VIterator_next
    split <;> rfl
  · intro calls
    rw [hnew, (next_list_holds v xs cap h calls 0 (Nat.zero_le _)).2]
    rfl

/-- Witness of C16: five `VIterator_next` calls on a vector that holds three items. -/
theorem vector_iterator_witness :
    (VIterator_next_list
        (VIterator_new (Vector_pushback_list (Vector_new_init_size 4) [7, 8, 9]).2) 5).1
      = [some 7, some 8, some 9, some 0, some 0] :=
  (vector_iterator (Vector_pushback_list (Vector_new_init_size 4) [7, 8, 9]).2 [7, 8, 9] 4
    (by unfold Vector_holds; decide)).1 5

theorem deserialize_loop_spec {σ : Type} (reader : σ → Nat × σ) (cap : Nat) :
    ∀ (count : Nat) (fp : σ) (this : Vector) (items : List Nat),
      Vector_holds this (items.filter (fun p => p ≠ 0)) cap → items.length + count ≤ cap →
      Vector_holds (Vector_deserialize_loop reader count fp this items).1
          ((Vector_deserialize_loop reader count fp this items).2.2.filter (fun p => p ≠ 0)) cap ∧
        (Vector_deserialize_loop reader count fp this items).2.1
          = (fun s => (reader s).2)^[count] fp ∧
        (Vector_deserialize_loop reader count fp this items).2.2
          = items ++ (List.range count).map
              (fun i => (reader ((fun s => (reader s).2)^[i] fp)).1) := by
  intro count
  induction count with
  | zero =>
    intro fp this items h _
    simpa [Vector_deserialize_loop] using h
  | succ k ih =>
    intro fp this items h hlen
    rw [Vector_deserialize_loop]
    have hkept : (items.filter (fun p => p ≠ 0)).length ≤ items.length :=
      List.length_filter_le _ _
    have hnext : Vector_holds
        (if (reader fp).1 ≠ 0 then (Vector_pushback this (reader fp).1).2 else this)
        ((items ++ [(reader fp).1]).filter (fun p => p ≠ 0)) cap := by
      by_cases hx : (reader fp).1 = 0
      · rw [if_neg (by simp [hx])]
        simpa [List.filter_append, hx] using h
      · rw [if_pos hx]
        have := (pushback_free_slot this _ cap (reader fp).1 h hx (by omega)).2
        simpa [List.filter_append, hx] using this
    obtain ⟨h1, h2, h3⟩ := ih (reader fp).2 _ (items ++ [(reader fp).1]) hnext
      (by simp; omega)
    refine ⟨h1, ?_, ?_⟩
    · rw [h2, Function.iterate_succ_apply]
    · rw [h3, List.range_succ_eq_map]
      simp [Function.comp_def]

/-- C18. `Vector_deserialize`: on a stream that starts with the 4-byte element count `n` (an
`int32_t`, as `Vector_serialize` writes it), the item reader is called exactly `n` times, on
the successive states of the stream; the vector returned has capacity `n` and holds the
non-null reader results in read order; its size is the number of non-null results, which is
`n` exactly when no call returned null; the function returns the vector in every case. -/
theorem vector_deserialize_spec {σ : Type} (fread_count : σ → Nat × σ) (reader : σ → Nat × σ)
    (fp : σ) (hn : (fread_count fp).1 < 2147483648) :
    (Vector_deserialize fread_count reader fp).2.2
      = (List.range (fread_count fp).1).map
          (fun i => (reader ((fun s => (reader s).2)^[i] (fread_count fp).2)).1) ∧
    (Vector_deserialize fread_count reader fp).2.2.length = (fread_count fp).1 ∧
    (Vector_deserialize fread_count reader fp).2.1
      = (fun s => (reader s).2)^[(fread_count fp).1] (fread_count fp).2 ∧
    (Vector_deserialize fread_count reader fp).1.capacity = (fread_count fp).1 ∧
    Vector_holds (Vector_deserialize fread_count reader fp).1
      ((Vector_deserialize fread_count reader fp).2.2.filter (fun p => p ≠ 0))
      (fread_count fp).1 ∧
    Vector_size (Vector_deserialize fread_count reader fp).1
      = ((Vector_deserialize fread_count reader fp).2.2.filter (fun p => p ≠ 0)).length ∧
    (Vector_size (Vector_deserialize fread_count reader fp).1 = (fread_count fp).1 ↔
      ∀ p ∈ (Vector_deserialize fread_count reader fp).2.2, p ≠ 0) := by
  obtain ⟨h1, h2, h3⟩ := deserialize_loop_spec reader (fread_count fp).1 (fread_count fp).1
    (fread_count fp).2 (Vector_new_init_size (fread_count fp).1) []
    (by simpa using new_holds _ hn) (by simp)
  have hlen : (Vector_deserialize fread_count reader fp).2.2.length = (fread_count fp).1 := by
    unfold Vector_deserialize
    rw [h3]
    simp
  have hsize := (get_of_holds _ _ _ h1).1
  refine ⟨by simpa [Vector_deserialize] using h3, hlen, h2, h1.2.1, h1, hsize, ?_⟩
  unfold Vector_deserialize at hlen ⊢
  rw [hsize]
  constructor
  · intro he p hp
    simpa using (List.filter_length_eq_length.mp (he.trans hlen.symm)) p hp
  · intro hall
    exact (List.filter_length_eq_length.mpr (fun p hp => by simpa using hall p hp)).trans hlen

/-- Witness of C18 on a stream of numbers: the count 3, then the items 7, 0 and 9, each read
by taking the next number; the null result is skipped and no error is reported. -/
theorem vector_deserialize_spec_witness :
    Vector_holds
      (Vector_deserialize (fun s : List Nat => (s.headD 0, s.tail))
        (fun s : List Nat => (s.headD 0, s.tail)) [3, 7, 0, 9, 4]).1 [7, 9] 3 ∧
    Vector_size
      (Vector_deserialize (fun s : List Nat => (s.headD 0, s.tail))
        (fun s : List Nat => (s.headD 0, s.tail)) [3, 7, 0, 9, 4]).1 = 2 :=
  ⟨(vector_deserialize_spec (fun s : List Nat => (s.headD 0, s.tail))
      (fun s : List Nat => (s.headD 0, s.tail)) [3, 7, 0, 9, 4] (by decide)).2.2.2.2.1,
    (vector_deserialize_spec (fun s : List Nat => (s.headD 0, s.tail))
      (fun s : List Nat => (s.headD 0, s.tail)) [3, 7, 0, 9, 4] (by decide)).2.2.2.2.2.1⟩

theorem deserialize_loop_trace {σ : Type} (reader : σ → Nat × σ) :
    ∀ (count : Nat) (fp : σ) (this : Vector) (items : List Nat),
      (Vector_deserialize_loop reader count fp this items).2.1
          = (fun s => (reader s).2)^[count] fp ∧
        (Vector_deserialize_loop reader count fp this items).2.2
          = items ++ (List.range count).map
              (fun i => (reader ((fun s => (reader s).2)^[i] fp)).1) := by
  intro count
  induction count with
  | zero => intro fp this items; simp [Vector_deserialize_loop]
  | succ k ih =>
    intro fp this items
    rw [Vector_deserialize_loop]
    obtain ⟨h2, h3⟩ := ih (reader fp).2
      (if (reader fp).1 ≠ 0 then (Vector_pushback this (reader fp).1).2 else this)
      (items ++ [(reader fp).1])
    refine ⟨?_, ?_⟩
    · rw [h2, Function.iterate_succ_apply]
    · rw [h3, List.range_succ_eq_map]
      simp [Function.comp_def]

/-- A vector whose capacity is negative and whose doubled capacity is negative too rejects
every push, so the loop of `Vector_deserialize` returns it as it was. -/
theorem deserialize_loop_rejected {σ : Type} (reader : σ → Nat × σ) (this : Vector)
    (h1 : this.capacity < 0) (h2 : -1073741824 ≤ this.capacity)
    (h3 : this.element_count ≥ this.capacity) :
    ∀ (count : Nat) (fp : σ) (items : List Nat),
      (Vector_deserialize_loop reader count fp this items).1 = this := by
  have hpush : ∀ x, x ≠ 0 → (Vector_pushback this x).2 = this := by
    intro x hx
    have hex : Vector_expand this = (-1, this) := by
      unfold Vector_expand
      rw [if_pos (by unfold wrap32; omega)]
    unfold Vector_pushback
    rw [if_neg hx, if_pos h3, hex]
    simp
  intro count
  induction count with
  | zero => intro fp items; rfl
  | succ k ih =>
    intro fp items
    rw [Vector_deserialize_loop]
    by_cases hx : (reader fp).1 = 0
    · rw [if_neg (by simp [hx])]
      exact ih _ _
    · rw [if_pos hx, hpush _ hx]
      exact ih _ _

theorem deserialize_negative_capacity (n : Nat) (h1 : wrap32 n < 0)
    (h2 : -1073741824 ≤ wrap32 n) :
    (Vector_deserialize (fun _ : Unit => (n, ())) (fun _ : Unit => (1, ())) ()).2.2
      = List.replicate n 1 ∧
    Vector_size (Vector_deserialize (fun _ : Unit => (n, ())) (fun _ : Unit => (1, ())) ()).1
      = 0 := by
  unfold Vector_deserialize
  simp only
  constructor
  · rw [(deserialize_loop_trace _ n () _ []).2]
    induction n with
    | zero => rfl
    | succ k _ => simp [List.map_const']
  · rw [deserialize_loop_rejected _ (Vector_new_init_size n) h1 h2
      (by show (0 : Int) ≥ wrap32 n; omega)]
    rfl

/-- C18 (as stated) fails. On a stream whose 4-byte count is 4294967295 and whose reader
returns the non-null pointer 1 at every call, the 4294967295 results are all non-null, but
the vector returned has size 0: its `int32_t` capacity is -1, so every push asks
`Vector_expand` for -2 slots and is rejected. -/
theorem vector_deserialize_counterexample :
    (Vector_deserialize (fun _ : Unit => (4294967295, ())) (fun _ : Unit => (1, ())) ()).2.2
      = List.replicate 4294967295 1 ∧
    Vector_size
      (Vector_deserialize (fun _ : Unit => (4294967295, ())) (fun _ : Unit => (1, ())) ()).1
      = 0 :=
  deserialize_negative_capacity 4294967295 (by unfold wrap32; omega) (by unfold wrap32; omega)

/-! ## Strings with a backslash before a quote -/

/-- C17 (failing input). On the six characters quote, `a`, backslash, quote, `b`, quote,
`parse_str` returns the two characters `a`, backslash and leaves the cursor on `b`: the quote
after the backslash ends the string, because `prev` never holds the character read before. -/
theorem parse_str_escaped_quote :
    parse_str ['"', 'a', '\\', '"', 'b', '"'] = some (['a', '\\'], ['b', '"']) := by
  decide

/-! ## Empty objects -/

theorem noEmptyDictList_append (l : List (JsonObj Num)) (x : JsonObj Num) :
    noEmptyDictList (l ++ [x]) = (noEmptyDictList l && noEmptyDict x) := by
  induction l with
  | nil => simp [noEmptyDictList]
  | cons y ys ih => simp [noEmptyDictList, ih, Bool.and_assoc]

theorem noEmptyDictPairs_append (d : List (List Char × JsonObj Num)) (key : List Char)
    (value : JsonObj Num) :
    noEmptyDictPairs (d ++ [(key, value)]) = (noEmptyDictPairs d && noEmptyDict value) := by
  induction d with
  | nil => simp [noEmptyDictPairs]
  | cons p ps ih =>
    obtain ⟨k, v⟩ := p
    simp [noEmptyDictPairs, ih, Bool.and_assoc]

theorem scalar_noEmptyDict (L : Libc Num) {sp : List Char} {v : JsonObj Num}
    {rest : List Char} :
    (JsonObj_parse_str sp = some (v, rest) → noEmptyDict v = true) ∧
    (JsonObj_parse_bool_true sp = some (v, rest) → noEmptyDict v = true) ∧
    (JsonObj_parse_bool_false sp = some (v, rest) → noEmptyDict v = true) ∧
    (JsonObj_parse_null sp = some (v, rest) → noEmptyDict v = true) ∧
    (JsonObj_parse_number L sp = some (v, rest) → noEmptyDict v = true) := by
  refine ⟨?_, ?_, ?_, ?_, ?_⟩
  · intro h
    simp only [JsonObj_parse_str, JsonObj_new_string] at h
    split at h <;> simp at h
    rw [← h.1]; rfl
  · intro h
    simp only [JsonObj_parse_bool_true, JsonObj_new_bool] at h
    split at h
    · simp at h
    · split at h <;> simp at h
      rw [← h.1]; rfl
  · intro h
    simp only [JsonObj_parse_bool_false, JsonObj_new_bool] at h
    split at h
    · simp at h
    · split at h <;> simp at h
      rw [← h.1]; rfl
  · intro h
    simp only [JsonObj_parse_null, JsonObj_new_null] at h
    split at h
    · simp at h
    · split at h <;> simp at h
      rw [← h.1]; rfl
  · intro h
    simp only [JsonObj_parse_number, JsonObj_new_number] at h
    split at h
    · simp at h
    · split at h <;> simp at h
      rw [← h.1]; rfl

/-- No tree returned by the parsing functions holds an empty dict. -/
theorem parse_noEmptyDict (L : Libc Num) : ∀ fuel : Nat,
    (∀ sp v rest, parse_unknown L fuel sp = .ok (v, rest) → noEmptyDict v = true) ∧
    (∀ acc sp v rest, noEmptyDictList acc = true →
      JsonObj_parse_array_loop L fuel acc sp = .ok (v, rest) → noEmptyDict v = true) ∧
    (∀ acc sp v rest, noEmptyDictPairs acc = true →
      JsonObj_parse_dict_loop L fuel acc sp = .ok (v, rest) → noEmptyDict v = true) := by
  intro fuel
  induction fuel with
  | zero =>
    refine ⟨?_, ?_, ?_⟩ <;> intros <;> simp_all [parse_unknown, JsonObj_parse_array_loop,
      JsonObj_parse_dict_loop]
  | succ fuel ih =>
    obtain ⟨ihU, ihA, ihD⟩ := ih
    refine ⟨?_, ?_, ?_⟩
    · intro sp v rest h
      unfold parse_unknown at h
      split at h
      · exact ihD _ _ _ _ (by rfl) h
      · split at h
        · exact (scalar_noEmptyDict L).1 (ofOption_eq_ok h)
        · split at h
          · exact ihA _ _ _ _ (by rfl) h
          · split at h
            · exact (scalar_noEmptyDict L).2.1 (ofOption_eq_ok h)
            · split at h
              · exact (scalar_noEmptyDict L).2.2.1 (ofOption_eq_ok h)
              · split at h
                · exact (scalar_noEmptyDict L).2.2.2.1 (ofOption_eq_ok h)
                · exact (scalar_noEmptyDict L).2.2.2.2 (ofOption_eq_ok h)
    · intro acc sp v rest hacc h
      unfold JsonObj_parse_array_loop at h
      split at h
      · simp at h
        rw [← h.1, noEmptyDict]
        exact hacc
      · split at h
        · simp at h
        · simp at h
        · rename_i json_obj sp1 hu
          have hx := ihU _ _ _ hu
          have hacc1 : noEmptyDictList (List_append acc json_obj) = true := by
            rw [List_append, noEmptyDictList_append, hacc, hx]; rfl
          split at h
          · exact ihA _ _ _ _ hacc1 h
          · exact ihA _ _ _ _ hacc1 h
    · intro acc sp v rest hacc h
      unfold JsonObj_parse_dict_loop at h
      split at h
      · split at h
        · simp at h
        · split at h
          · simp at h
          · split at h
            · simp at h
            · simp at h
            · rename_i _ key sp1 hk _ _ value sp2 hu
              have hx := ihU _ _ _ hu
              have hacc1 : noEmptyDictPairs (HashTable_insert acc key value) = true := by
                rw [HashTable_insert, noEmptyDictPairs_append, hacc, hx]; rfl
              split at h
              · exact ihD _ _ _ _ hacc1 h
              · split at h
                · simp at h
                  rw [← h.1, noEmptyDict, hacc1]
                  simp [HashTable_insert]
                · simp at h
      · simp at h

/-- An empty object, with any blanks between its braces and anything after it, is not parsed
as a value. -/
theorem parse_unknown_empty_object (L : Libc Num) (fuel : Nat) (ws tail : List Char)
    (hws : ∀ c ∈ ws, isBlank c) :
    parse_unknown L (fuel + 2) ('{' :: (ws ++ '}' :: tail)) = .fail := by
  rw [parse_unknown, skip_empty_cons_of_not_blank _ _ (by simp [isBlank])]
  simp only [deref, List.headD_cons, List.tail_cons, if_true]
  rw [JsonObj_parse_dict_loop, skip_empty_blank_append _ _ hws,
    skip_empty_cons_of_not_blank _ _ (by simp [isBlank])]
  simp [deref]

/-- C19. Empty objects are rejected: a Dict returned by `JsonObj_parse_dict` holds at least one
pair; the text made of `{`, any run of blanks and `}` (the text `{}` included) yields no
value; a pair whose value is an empty object makes the dict loop fail, whatever was parsed
before and whatever follows; no tree returned by `JsonObj_parse_string` holds an empty dict at
any depth; the text `{"a": {}}` yields no value. -/
theorem empty_object_rejected (L : Libc Num) :
    (∀ fuel sp v rest, JsonObj_parse_dict L fuel sp = .ok (v, rest) →
      ∃ d, d ≠ [] ∧ v = .JDict d) ∧
    (∀ ws : List Char, (∀ c ∈ ws, isBlank c) →
      JsonObj_parse_string L ('{' :: (ws ++ ['}'])) = .fail) ∧
    JsonObj_parse_string L ['{', '}'] = .fail ∧
    (∀ fuel acc (b1 key b2 b3 ws tail : List Char), (∀ c ∈ b1, isBlank c) →
      quotable key = true → (∀ c ∈ b2, isBlank c) → (∀ c ∈ b3, isBlank c) →
      (∀ c ∈ ws, isBlank c) →
      JsonObj_parse_dict_loop L (fuel + 3) acc
        (b1 ++ '"' :: (key ++ '"' :: (b2 ++ ':' :: (b3 ++ '{' :: (ws ++ '}' :: tail)))))
        = .fail) ∧
    (∀ sp v, JsonObj_parse_string L sp = .ok v → noEmptyDict v = true) ∧
    JsonObj_parse_string L ['{', '"', 'a', '"', ':', ' ', '{', '}', '}'] = .fail := by
  have hblank : ∀ ws : List Char, (∀ c ∈ ws, isBlank c) →
      JsonObj_parse_string L ('{' :: (ws ++ ['}'])) = .fail := by
    intro ws hws
    unfold JsonObj_parse_string JsonObj_parse_string_fuel
    have hf : 2 * ('{' :: (ws ++ ['}'])).length + 1 = (2 * ws.length + 3) + 2 := by
      simp; omega
    rw [hf, parse_unknown_empty_object L _ ws [] hws]
  refine ⟨?_, hblank, by simpa using hblank [] (by simp), ?_, ?_, ?_⟩
  · intro fuel sp v rest h
    exact (loop_tags L fuel).2 _ _ _ _ h
  · intro fuel acc b1 key b2 b3 ws tail h1 hk h2 h3 hws
    rw [JsonObj_parse_dict_loop, skip_empty_blank_append _ _ h1,
      skip_empty_cons_of_not_blank _ _ (by simp [isBlank])]
    simp only [deref, List.headD_cons, if_true]
    rw [parse_str_quoted _ _ hk]
    simp only
    rw [skip_empty_blank_append _ _ h2, skip_empty_cons_of_not_blank _ _ (by simp [isBlank])]
    simp only [List.headD_cons, ne_eq, not_true_eq_false, if_false, List.tail_cons]
    rw [skip_empty_blank_append _ _ h3, skip_empty_cons_of_not_blank _ _ (by simp [isBlank]),
      parse_unknown_empty_object L fuel ws tail hws]
  · intro sp v h
    unfold JsonObj_parse_string JsonObj_parse_string_fuel at h
    split at h
    · simp at h
    · simp at h
    · rename_i this rest hu
      have hn := (parse_noEmptyDict L _).1 _ _ _ hu
      split at h
      · simp at h; rw [← h]; exact hn
      · simp at h
  · simp [JsonObj_parse_string, JsonObj_parse_string_fuel, parse_unknown,
      JsonObj_parse_dict_loop, parse_str, parse_str_loop, skip_empty, deref, NUL,
      Outcome.ofOption]

/-- Witness of C19: the text of `{`, a space, a newline and `}`; and the pair `"a" : { }`
after one parsed pair and before more text. -/
theorem empty_object_rejected_witness :
    JsonObj_parse_string decimal9 ['{', ' ', '\n', '}'] = .fail ∧
    JsonObj_parse_dict_loop decimal9 (0 + 3) [(['k'], .JNull)]
      ([' '] ++ '"' :: (['a'] ++ '"' :: ([' '] ++ ':' :: ([' '] ++ '{' :: ([' '] ++ '}'
        :: [',', '"', 'b', '"', ':', '1', '}']))))) = .fail :=
  ⟨(empty_object_rejected decimal9).2.1 [' ', '\n'] (by simp [isBlank]),
    (empty_object_rejected decimal9).2.2.2.1 0 _ [' '] ['a'] [' '] [' '] [' '] _
      (by simp [isBlank]) rfl (by simp [isBlank]) (by simp [isBlank]) (by simp [isBlank])⟩

/-! ## A scalar written directly before a closing bracket -/

theorem read_token_loop_over_bracket (t : List Char) : ∀ (s acc : List Char),
    (∀ c ∈ s, c ≠ NUL ∧ ¬ isTokenEnd c) →
    read_token_loop (s ++ ']' :: t) acc = read_token_loop t (acc ++ s ++ [']']) := by
  intro s
  induction s with
  | nil =>
    intro acc _
    rw [List.nil_append, read_token_loop, if_neg (by simp [NUL]), if_neg (by simp [isTokenEnd])]
    simp
  | cons c r ih =>
    intro acc h
    have hc := h c (by simp)
    rw [List.cons_append, read_token_loop, if_neg hc.1, if_neg hc.2,
      ih _ (fun x hx => h x (by simp [hx]))]
    simp

/-- The token read at a scalar that is written directly before a closing bracket runs over
the bracket. -/
theorem read_token_over_bracket (s t tok rest : List Char)
    (hs : ∀ c ∈ s, c ≠ NUL ∧ ¬ isTokenEnd c)
    (h : read_token (s ++ ']' :: t) = some (tok, rest)) : ']' ∈ tok := by
  rw [read_token, read_token_loop_over_bracket t s [] hs] at h
  obtain ⟨pre, d, tl, -, -, h3, -, -⟩ := read_token_loop_spec _ _ _ _ h
  rw [h3]
  simp

/-- A scalar written directly before a closing bracket is not parsed as a value, for a
`strtod` that does not convert a closing bracket. -/
theorem parse_unknown_scalar_bracket (L : Libc Num)
    (hL : ∀ tok, ']' ∈ tok → (L.strtod tok).2 ≠ tok.length) (fuel : Nat) (s t : List Char)
    (hs : ∀ c ∈ s, c ≠ NUL ∧ ¬ isTokenEnd c) (hne : s ≠ [])
    (h1 : deref s ≠ '{') (h2 : deref s ≠ '"') (h3 : deref s ≠ '[') :
    parse_unknown L (fuel + 1) (s ++ ']' :: t) = .fail := by
  obtain ⟨c, r, rfl⟩ := List.exists_cons_of_ne_nil hne
  have hsk : skip_empty (c :: r ++ ']' :: t) = c :: r ++ ']' :: t :=
    skip_empty_cons_of_not_blank _ _ (not_blank_of_not_tokenEnd (hs c (by simp)).2)
  have hd : deref (c :: r ++ ']' :: t) = c := rfl
  simp only [deref, List.headD_cons] at h1 h2 h3
  have hlit : ∀ (lit : List Char) (v : JsonObj Num), ']' ∉ lit →
      Outcome.ofOption (match read_token (c :: r ++ ']' :: t) with
        | none => none
        | some (str, sp1) => if str ≠ lit then none else some (v, sp1)) = .fail := by
    intro lit v hlit
    cases hr : read_token (c :: r ++ ']' :: t) with
    | none => rfl
    | some a =>
      obtain ⟨tok, rest⟩ := a
      have hb := read_token_over_bracket _ t tok rest hs hr
      have : tok ≠ lit := fun he => hlit (he ▸ hb)
      simp [this, Outcome.ofOption]
  rw [parse_unknown, hsk, hd, if_neg h1, if_neg h2, if_neg h3]
  split
  · exact hlit _ _ (by simp)
  · split
    · exact hlit _ _ (by simp)
    · split
      · exact hlit _ _ (by simp)
      · unfold JsonObj_parse_number
        cases hr : read_token (c :: r ++ ']' :: t) with
        | none => rfl
        | some a =>
          obtain ⟨tok, rest⟩ := a
          have hb := read_token_over_bracket _ t tok rest hs hr
          simp [hL tok hb, Outcome.ofOption]

theorem digits_no_bracket (l : List Char) (h : ∀ c ∈ l, c.isDigit = true ∨ c = '.' ∨ c = '-' ∨ c = '+') :
    ']' ∉ l := by
  intro hb
  rcases h _ hb with h | h | h | h
  · exact absurd h (by decide)
  · exact absurd h (by decide)
  · exact absurd h (by decide)
  · exact absurd h (by decide)

theorem number_body_full (s1 : List Char)
    (h : (s1.takeWhile Char.isDigit).length
        + (if deref (s1.dropWhile Char.isDigit) = '.' then 1 else 0)
        + (if deref (s1.dropWhile Char.isDigit) = '.' then
            (s1.dropWhile Char.isDigit).tail.takeWhile Char.isDigit else []).length
      = s1.length) :
    ∀ c ∈ s1, c.isDigit = true ∨ c = '.' ∨ c = '-' ∨ c = '+' := by
  have hs : s1.takeWhile Char.isDigit ++ s1.dropWhile Char.isDigit = s1 :=
    List.takeWhile_append_dropWhile _ _
  have hl := congrArg List.length hs
  rw [List.length_append] at hl
  intro c hc
  rw [← hs] at hc
  by_cases hd : deref (s1.dropWhile Char.isDigit) = '.'
  · rw [if_pos hd, if_pos hd] at h
    have h2 := deref_cons_of_ne_NUL hd (by decide)
    have ht : (s1.dropWhile Char.isDigit).tail.takeWhile Char.isDigit
        ++ (s1.dropWhile Char.isDigit).tail.dropWhile Char.isDigit
        = (s1.dropWhile Char.isDigit).tail := List.takeWhile_append_dropWhile _ _
    have hl2 := congrArg List.length h2
    have hl3 := congrArg List.length ht
    rw [List.length_cons] at hl2
    rw [List.length_append] at hl3
    have hnil : (s1.dropWhile Char.isDigit).tail.dropWhile Char.isDigit = [] :=
      List.length_eq_zero.mp (by omega)
    rw [hnil, List.append_nil] at ht
    rcases List.mem_append.mp hc with hc | hc
    · exact Or.inl (List.mem_takeWhile_imp hc)
    · rw [h2] at hc
      rcases List.mem_cons.mp hc with hc | hc
      · exact Or.inr (Or.inl hc)
      · rw [← ht] at hc
        exact Or.inl (List.mem_takeWhile_imp hc)
  · rw [if_neg hd, if_neg hd] at h
    have hnil : s1.dropWhile Char.isDigit = [] :=
      List.length_eq_zero.mp (by simp at h; omega)
    rw [hnil, List.append_nil] at hc
    exact Or.inl (List.mem_takeWhile_imp hc)

theorem decimal9_strtod_consumed (str : List Char) (nsign : Nat)
    (hn : nsign = if deref str = '-' ∨ deref str = '+' then 1 else 0) :
    (decimal9_strtod str).2 = 0 ∨
    (decimal9_strtod str).2
      = nsign + ((str.drop nsign).takeWhile Char.isDigit).length
          + (if deref ((str.drop nsign).dropWhile Char.isDigit) = '.' then 1 else 0)
          + (if deref ((str.drop nsign).dropWhile Char.isDigit) = '.' then
              ((str.drop nsign).dropWhile Char.isDigit).tail.takeWhile Char.isDigit
            else []).length := by
  subst hn
  unfold decimal9_strtod
  simp only [apply_ite Prod.snd]
  by_cases hz : ((str.drop (if deref str = '-' ∨ deref str = '+' then 1 else 0)).takeWhile
      Char.isDigit).length
      + (if deref ((str.drop (if deref str = '-' ∨ deref str = '+' then 1 else 0)).dropWhile
          Char.isDigit) = '.' then
          ((str.drop (if deref str = '-' ∨ deref str = '+' then 1 else 0)).dropWhile
            Char.isDigit).tail.takeWhile Char.isDigit
        else []).length = 0
  · left; rw [if_pos hz]
  · right; rw [if_neg hz]

/-- The executable `strtod` converts no closing bracket. -/
theorem decimal9_strtod_bracket (tok : List Char) (hb : ']' ∈ tok) :
    (decimal9.strtod tok).2 ≠ tok.length := by
  intro hlen
  apply digits_no_bracket tok _ hb
  change (decimal9_strtod tok).2 = tok.length at hlen
  cases tok with
  | nil => simp at hb
  | cons c r =>
    rw [List.length_cons] at hlen
    by_cases hsign : c = '-' ∨ c = '+'
    · rcases decimal9_strtod_consumed (c :: r) 1 (by simp [deref, hsign]) with h0 | h0
      · omega
      · simp only [List.drop_succ_cons, List.drop_zero] at h0
        have := number_body_full r (by omega)
        intro x hx
        rcases List.mem_cons.mp hx with rfl | hx
        · rcases hsign with h | h
          · exact Or.inr (Or.inr (Or.inl h))
          · exact Or.inr (Or.inr (Or.inr h))
        · exact this x hx
    · rcases decimal9_strtod_consumed (c :: r) 0 (by simp [deref, hsign]) with h0 | h0
      · omega
      · simp only [List.drop_zero] at h0
        exact number_body_full (c :: r) (by rw [List.length_cons]; omega)

/-- C20. The closing bracket does not end a token: `read_token` stops only at a space, tab,
CR, LF, comma or `}` and runs over a `]`; so, for a `strtod` that converts no `]`, a number or
a literal written directly before `]` is not parsed as a value, and an array loop that meets
such an element fails; the failure of a later turn of the array loop, of an array that is a
value, of the value of a pair, and of the top-level value each make the enclosing function
fail. The texts `{"a":[1]}`, `{"a":[1,2]}` and `{"a":[true]}` yield no
value, whereas `{"a":[1 ]}` parses to Dict{a: Array[Number 1]}. -/
theorem bracket_in_token (L : Libc Num) (one : Num) (h1 : L.strtod ['1'] = (one, 1))
    (hL : ∀ tok, ']' ∈ tok → (L.strtod tok).2 ≠ tok.length) :
    (∀ sp tok rest, read_token sp = some (tok, rest) →
      isTokenEnd (deref rest) ∧ ∀ c ∈ tok, ¬ isTokenEnd c) ∧
    (∀ s t tok rest, (∀ c ∈ s, c ≠ NUL ∧ ¬ isTokenEnd c) →
      read_token (s ++ ']' :: t) = some (tok, rest) → ']' ∈ tok) ∧
    (∀ fuel s t, (∀ c ∈ s, c ≠ NUL ∧ ¬ isTokenEnd c) → s ≠ [] →
      deref s ≠ '{' → deref s ≠ '"' → deref s ≠ '[' →
      parse_unknown L (fuel + 1) (s ++ ']' :: t) = .fail) ∧
    (∀ fuel acc b s t, (∀ c ∈ b, isBlank c) → (∀ c ∈ s, c ≠ NUL ∧ ¬ isTokenEnd c) → s ≠ [] →
      deref s ≠ '{' → deref s ≠ '"' → deref s ≠ '[' → deref s ≠ ']' →
      JsonObj_parse_array_loop L (fuel + 2) acc (b ++ (s ++ ']' :: t)) = .fail) ∧
    (∀ fuel acc sp x sp1, deref (skip_empty sp) ≠ ']' →
      parse_unknown L fuel (skip_empty sp) = .ok (x, sp1) →
      JsonObj_parse_array_loop L fuel (List_append acc x)
        (if deref (skip_empty sp1) = ',' then (skip_empty sp1).tail else skip_empty sp1)
        = .fail →
      JsonObj_parse_array_loop L (fuel + 1) acc sp = .fail) ∧
    (∀ fuel sp, deref (skip_empty sp) = '[' →
      JsonObj_parse_array L fuel (skip_empty sp) = .fail →
      parse_unknown L (fuel + 1) sp = .fail) ∧
    (∀ fuel acc sp key sp1, deref (skip_empty sp) = '"' →
      parse_str (skip_empty sp) = some (key, sp1) → deref (skip_empty sp1) = ':' →
      parse_unknown L fuel (skip_empty (skip_empty sp1).tail) = .fail →
      JsonObj_parse_dict_loop L (fuel + 1) acc sp = .fail) ∧
    (∀ fuel sp, parse_unknown L fuel sp = .fail → JsonObj_parse_string_fuel L fuel sp = .fail) ∧
    JsonObj_parse_string L ['{', '"', 'a', '"', ':', '[', '1', ']', '}'] = .fail ∧
    JsonObj_parse_string L ['{', '"', 'a', '"', ':', '[', '1', ',', '2', ']', '}'] = .fail ∧
    JsonObj_parse_string L ['{', '"', 'a', '"', ':', '[', 't', 'r', 'u', 'e', ']', '}']
      = .fail ∧
    JsonObj_parse_string L ['{', '"', 'a', '"', ':', '[', '1', ' ', ']', '}']
      = .ok (.JDict [(['a'], .JArray [.JNumber one])]) := by
  have hb1 := hL ['1', ']'] (by simp)
  have hb2 := hL ['2', ']'] (by simp)
  simp only [List.length_cons, List.length_nil] at hb1 hb2
  refine ⟨?_, ?_, ?_, ?_, ?_, ?_, ?_, ?_, ?_, ?_, ?_, ?_⟩
  · intro sp tok rest h
    obtain ⟨d, tl, -, h2, h3, h4⟩ := read_token_suffix h
    exact ⟨by rw [h2]; exact h3, fun c hc => (h4 c hc).2⟩
  · intro s t tok rest hs h
    exact read_token_over_bracket s t tok rest hs h
  · intro fuel s t hs hne c1 c2 c3
    exact parse_unknown_scalar_bracket L hL fuel s t hs hne c1 c2 c3
  · intro fuel acc b s t hb hs hne c1 c2 c3 c4
    obtain ⟨c, r, rfl⟩ := List.exists_cons_of_ne_nil hne
    have hsk : skip_empty (b ++ (c :: r ++ ']' :: t)) = c :: r ++ ']' :: t := by
      rw [skip_empty_blank_append _ _ hb]
      exact skip_empty_cons_of_not_blank _ _ (not_blank_of_not_tokenEnd (hs c (by simp)).2)
    rw [JsonObj_parse_array_loop, hsk, if_neg (by simpa [deref] using c4),
      parse_unknown_scalar_bracket L hL fuel (c :: r) t hs hne c1 c2 c3]
  · intro fuel acc sp x sp1 c hu hnext
    rw [JsonObj_parse_array_loop, if_neg c, hu]
    simp only
    split
    · rename_i hc; rw [if_pos hc] at hnext; exact hnext
    · rename_i hc; rw [if_neg hc] at hnext; exact hnext
  · intro fuel sp c h
    rw [parse_unknown_calls_parse_array L fuel sp c, h]
  · intro fuel acc sp key sp1 c hk c2 h
    rw [JsonObj_parse_dict_loop, if_pos c, hk]
    simp [c2, h]
  · intro fuel sp h
    unfold JsonObj_parse_string_fuel
    rw [h]
  · simp [JsonObj_parse_string, JsonObj_parse_string_fuel, parse_unknown,
      JsonObj_parse_dict_loop, JsonObj_parse_array_loop, parse_str, parse_str_loop, skip_empty,
      deref, JsonObj_parse_number, read_token, read_token_loop, isTokenEnd, NUL,
      Outcome.ofOption, hb1]
  · simp [JsonObj_parse_string, JsonObj_parse_string_fuel, parse_unknown,
      JsonObj_parse_dict_loop, JsonObj_parse_array_loop, parse_str, parse_str_loop, skip_empty,
      deref, JsonObj_parse_number, read_token, read_token_loop, isTokenEnd, NUL,
      Outcome.ofOption, h1, hb2]
  · simp [JsonObj_parse_string, JsonObj_parse_string_fuel, parse_unknown,
      JsonObj_parse_dict_loop, JsonObj_parse_array_loop, parse_str, parse_str_loop, skip_empty,
      deref, JsonObj_parse_bool_true, read_token, read_token_loop, isTokenEnd, NUL,
      Outcome.ofOption]
  · simp [JsonObj_parse_string, JsonObj_parse_string_fuel, parse_unknown,
      JsonObj_parse_dict_loop, JsonObj_parse_array_loop, parse_str, parse_str_loop, skip_empty,
      deref, JsonObj_parse_number, read_token, read_token_loop, isTokenEnd, NUL,
      Outcome.ofOption, h1, HashTable_insert, List_append, JsonObj_new_number]

/-- Witness of C20 on the executable libc instance. -/
theorem bracket_in_token_witness :
    JsonObj_parse_string decimal9 ['{', '"', 'a', '"', ':', '[', '1', ']', '}'] = .fail ∧
    JsonObj_parse_string decimal9 ['{', '"', 'a', '"', ':', '[', '1', ' ', ']', '}']
      = .ok (.JDict [(['a'], .JArray [.JNumber 1000000000])]) :=
  ⟨(bracket_in_token decimal9 1000000000 rfl decimal9_strtod_bracket).2.2.2.2.2.2.2.2.1,
    (bracket_in_token decimal9 1000000000 rfl decimal9_strtod_bracket).2.2.2.2.2.2.2.2.2.2.2⟩

/-! ## Commas between the elements of an array -/

theorem skip_empty_idem (sp : List Char) : skip_empty (skip_empty sp) = skip_empty sp := by
  induction sp with
  | nil => rfl
  | cons c r ih =>
    by_cases h : c = ' ' ∨ c = '\n' ∨ c = '\t' ∨ c = '\r'
    · rw [skip_empty, if_pos h]; exact ih
    · rw [skip_empty, if_neg h, skip_empty, if_neg h]

/-- A value that was returned with some fuel is returned with any larger fuel. -/
theorem parse_unknown_ok_fuel_le (L : Libc Num) {fuel : Nat} {sp : List Char}
    {r : JsonObj Num × List Char} (h : parse_unknown L fuel sp = .ok r) (k : Nat) :
    parse_unknown L (fuel + k) sp = .ok r := by
  rw [parse_unknown_fuel_le L sp fuel (by rw [h]; simp) k, h]

/-- C21. Commas in arrays are optional. A turn of the loop of `JsonObj_parse_array` that parsed
an element goes round again from the next non-blank character, stepping over a comma if that
character is one and over nothing otherwise; so two elements separated by blanks only are both
appended, and a comma that is followed (after blanks) by the closing bracket ends the array.
The texts `{"a":[1 2 ]}`, `{"a":[1, 2, ]}` and `{"a":[1, 2 ]}` all parse to
Dict{a: Array[Number 1, Number 2]}. -/
theorem array_commas_optional (L : Libc Num) (one two : Num)
    (h1 : L.strtod ['1'] = (one, 1)) (h2 : L.strtod ['2'] = (two, 1)) :
    (∀ fuel acc sp x sp1, deref (skip_empty sp) ≠ ']' →
      parse_unknown L fuel (skip_empty sp) = .ok (x, sp1) → deref (skip_empty sp1) ≠ ',' →
      JsonObj_parse_array_loop L (fuel + 1) acc sp
        = JsonObj_parse_array_loop L fuel (List_append acc x) (skip_empty sp1)) ∧
    (∀ fuel acc sp x sp1, deref (skip_empty sp) ≠ ']' →
      parse_unknown L fuel (skip_empty sp) = .ok (x, sp1) → deref (skip_empty sp1) = ',' →
      JsonObj_parse_array_loop L (fuel + 1) acc sp
        = JsonObj_parse_array_loop L fuel (List_append acc x) (skip_empty sp1).tail) ∧
    (∀ fuel acc sp x y sp1 sp2, deref (skip_empty sp) ≠ ']' →
      parse_unknown L fuel (skip_empty sp) = .ok (x, sp1) →
      deref (skip_empty sp1) ≠ ',' → deref (skip_empty sp1) ≠ ']' →
      parse_unknown L fuel (skip_empty sp1) = .ok (y, sp2) →
      deref (skip_empty sp2) = ']' →
      JsonObj_parse_array_loop L (fuel + 3) acc sp
        = .ok (.JArray (acc ++ [x, y]), (skip_empty sp2).tail)) ∧
    (∀ fuel acc sp x sp1, deref (skip_empty sp) ≠ ']' →
      parse_unknown L fuel (skip_empty sp) = .ok (x, sp1) → deref (skip_empty sp1) = ',' →
      deref (skip_empty (skip_empty sp1).tail) = ']' →
      JsonObj_parse_array_loop L (fuel + 2) acc sp
        = .ok (.JArray (acc ++ [x]), (skip_empty (skip_empty sp1).tail).tail)) ∧
    (∀ rest, JsonObj_parse_array L 3 ('[' :: '1' :: ' ' :: '2' :: ' ' :: ']' :: rest)
      = .ok (.JArray [.JNumber one, .JNumber two], rest)) ∧
    (∀ rest, JsonObj_parse_array L 3 ('[' :: '1' :: ',' :: ' ' :: '2' :: ',' :: ' ' :: ']' :: rest)
      = .ok (.JArray [.JNumber one, .JNumber two], rest)) ∧
    JsonObj_parse_string L ['{', '"', 'a', '"', ':', '[', '1', ' ', '2', ' ', ']', '}']
      = .ok (.JDict [(['a'], .JArray [.JNumber one, .JNumber two])]) ∧
    JsonObj_parse_string L
        ['{', '"', 'a', '"', ':', '[', '1', ',', ' ', '2', ',', ' ', ']', '}']
      = .ok (.JDict [(['a'], .JArray [.JNumber one, .JNumber two])]) ∧
    JsonObj_parse_string L ['{', '"', 'a', '"', ':', '[', '1', ',', ' ', '2', ' ', ']', '}']
      = .ok (.JDict [(['a'], .JArray [.JNumber one, .JNumber two])]) := by
  refine ⟨?_, ?_, ?_, ?_, ?_, ?_, ?_, ?_, ?_⟩
  · intro fuel acc sp x sp1 c hu hc
    rw [JsonObj_parse_array_loop, if_neg c, hu]
    simp only
    rw [if_neg hc]
  · intro fuel acc sp x sp1 c hu hc
    rw [JsonObj_parse_array_loop, if_neg c, hu]
    simp only
    rw [if_pos hc]
  · intro fuel acc sp x y sp1 sp2 c hx hc1 hc2 hy hc3
    rw [JsonObj_parse_array_loop, if_neg c, parse_unknown_ok_fuel_le L hx 2]
    simp only
    rw [if_neg hc1, JsonObj_parse_array_loop, skip_empty_idem, if_neg hc2,
      parse_unknown_ok_fuel_le L hy 1]
    simp only
    rw [if_neg (by rw [hc3]; decide), JsonObj_parse_array_loop, skip_empty_idem, if_pos hc3]
    simp [List_append]
  · intro fuel acc sp x sp1 c hx hc1 hc2
    rw [JsonObj_parse_array_loop, if_neg c, parse_unknown_ok_fuel_le L hx 1]
    simp only
    rw [if_pos hc1, JsonObj_parse_array_loop, if_pos hc2]
    simp [List_append]
  · intro rest
    simp [JsonObj_parse_array, parse_unknown, JsonObj_parse_array_loop, skip_empty, deref,
      JsonObj_parse_number, read_token, read_token_loop, isTokenEnd, NUL, Outcome.ofOption, h1,
      h2, List_append, JsonObj_new_number]
  · intro rest
    simp [JsonObj_parse_array, parse_unknown, JsonObj_parse_array_loop, skip_empty, deref,
      JsonObj_parse_number, read_token, read_token_loop, isTokenEnd, NUL, Outcome.ofOption, h1,
      h2, List_append, JsonObj_new_number]
  · simp [JsonObj_parse_string, JsonObj_parse_string_fuel, parse_unknown,
      JsonObj_parse_dict_loop, JsonObj_parse_array_loop, parse_str, parse_str_loop, skip_empty,
      deref, JsonObj_parse_number, read_token, read_token_loop, isTokenEnd, NUL,
      Outcome.ofOption, h1, h2, HashTable_insert, List_append, JsonObj_new_number]
  · simp [JsonObj_parse_string, JsonObj_parse_string_fuel, parse_unknown,
      JsonObj_parse_dict_loop, JsonObj_parse_array_loop, parse_str, parse_str_loop, skip_empty,
      deref, JsonObj_parse_number, read_token, read_token_loop, isTokenEnd, NUL,
      Outcome.ofOption, h1, h2, HashTable_insert, List_append, JsonObj_new_number]
  · simp [JsonObj_parse_string, JsonObj_parse_string_fuel, parse_unknown,
      JsonObj_parse_dict_loop, JsonObj_parse_array_loop, parse_str, parse_str_loop, skip_empty,
      deref, JsonObj_parse_number, read_token, read_token_loop, isTokenEnd, NUL,
      Outcome.ofOption, h1, h2, HashTable_insert, List_append, JsonObj_new_number]

/-- Witness of C21 on the executable libc instance: the three example texts, and the loop over
`1 2 ]` from an empty array. -/
theorem array_commas_optional_witness :
    JsonObj_parse_string decimal9 ['{', '"', 'a', '"', ':', '[', '1', ' ', '2', ' ', ']', '}']
      = .ok (.JDict [(['a'], .JArray [.JNumber 1000000000, .JNumber 2000000000])]) ∧
    JsonObj_parse_string decimal9
        ['{', '"', 'a', '"', ':', '[', '1', ',', ' ', '2', ',', ' ', ']', '}']
      = .ok (.JDict [(['a'], .JArray [.JNumber 1000000000, .JNumber 2000000000])]) ∧
    JsonObj_parse_string decimal9
        ['{', '"', 'a', '"', ':', '[', '1', ',', ' ', '2', ' ', ']', '}']
      = .ok (.JDict [(['a'], .JArray [.JNumber 1000000000, .JNumber 2000000000])]) ∧
    JsonObj_parse_array_loop decimal9 4 [] ['1', ' ', '2', ' ', ']']
      = .ok (.JArray [.JNumber 1000000000, .JNumber 2000000000], []) :=
  ⟨(array_commas_optional decimal9 1000000000 2000000000 rfl rfl).2.2.2.2.2.2.1,
    (array_commas_optional decimal9 1000000000 2000000000 rfl rfl).2.2.2.2.2.2.2.1,
    (array_commas_optional decimal9 1000000000 2000000000 rfl rfl).2.2.2.2.2.2.2.2,
    (array_commas_optional decimal9 1000000000 2000000000 rfl rfl).2.2.1 1 []
      ['1', ' ', '2', ' ', ']'] (.JNumber 1000000000) (.JNumber 2000000000) [' ', '2', ' ', ']']
      [' ', ']'] (by decide) rfl (by decide) (by decide) rfl (by decide)⟩

/-! ## The text after a parsed value -/

theorem skip_empty_blanks (sp : List Char) :
    ∃ ws, (∀ c ∈ ws, isBlank c) ∧ sp = ws ++ skip_empty sp := by
  induction sp with
  | nil => exact ⟨[], by simp, rfl⟩
  | cons c rest ih =>
    by_cases h : c = ' ' ∨ c = '\n' ∨ c = '\t' ∨ c = '\r'
    · obtain ⟨ws, hb, hw⟩ := ih
      refine ⟨c :: ws, ?_, ?_⟩
      · intro x hx
        rcases List.mem_cons.mp hx with rfl | hx
        · exact h
        · exact hb x hx
      · rw [skip_empty, if_pos h, List.cons_append, ← hw]
    · exact ⟨[], by simp, by rw [skip_empty, if_neg h]; rfl⟩

theorem deref_append (p a : List Char) (hp : p ≠ []) : deref (p ++ a) = deref p := by
  cases p with
  | nil => exact absurd rfl hp
  | cons c r => rfl

/-- What `skip_empty` does to a text depends on the text up to the first character that is not
a blank only. -/
theorem skip_empty_swap {sp p a : List Char} (b : List Char) (hp : p ≠ [])
    (h : skip_empty sp = p ++ a) : skip_empty (p ++ b) = p ++ b := by
  cases p with
  | nil => exact absurd rfl hp
  | cons c r =>
    have hi := skip_empty_idem sp
    rw [h, List.cons_append, skip_empty] at hi
    rw [List.cons_append, skip_empty]
    by_cases hc : c = ' ' ∨ c = '\n' ∨ c = '\t' ∨ c = '\r'
    · rw [if_pos hc] at hi
      have := skip_empty_length_le (r ++ a)
      rw [hi] at this
      simp at this
    · rw [if_neg hc]

theorem deref_swap {sp p a : List Char} (b : List Char) (hp : p ≠ [])
    (h : skip_empty sp = p ++ a) : deref (p ++ b) = deref (skip_empty sp) := by
  rw [h, deref_append p b hp, deref_append p a hp]

theorem parse_unknown_blank (L : Libc Num) (fuel : Nat) (ws s : List Char)
    (h : ∀ c ∈ ws, isBlank c) : parse_unknown L fuel (ws ++ s) = parse_unknown L fuel s := by
  cases fuel with
  | zero => rw [parse_unknown, parse_unknown]
  | succ fuel => rw [parse_unknown, parse_unknown, skip_empty_blank_append ws s h]

theorem array_loop_blank (L : Libc Num) (fuel : Nat) (acc : List (JsonObj Num))
    (ws s : List Char) (h : ∀ c ∈ ws, isBlank c) :
    JsonObj_parse_array_loop L fuel acc (ws ++ s) = JsonObj_parse_array_loop L fuel acc s := by
  cases fuel with
  | zero => rw [JsonObj_parse_array_loop, JsonObj_parse_array_loop]
  | succ fuel =>
    rw [JsonObj_parse_array_loop, JsonObj_parse_array_loop, skip_empty_blank_append ws s h]

theorem dict_loop_blank (L : Libc Num) (fuel : Nat) (acc : List (List Char × JsonObj Num))
    (ws s : List Char) (h : ∀ c ∈ ws, isBlank c) :
    JsonObj_parse_dict_loop L fuel acc (ws ++ s) = JsonObj_parse_dict_loop L fuel acc s := by
  cases fuel with
  | zero => rw [JsonObj_parse_dict_loop, JsonObj_parse_dict_loop]
  | succ fuel =>
    rw [JsonObj_parse_dict_loop, JsonObj_parse_dict_loop, skip_empty_blank_append ws s h]

/-- The loop of `parse_str` reads nothing after the closing quote. -/
theorem parse_str_loop_replace : ∀ (s : List Char) (prev : Char) (acc str rest : List Char),
    parse_str_loop s prev acc = some (str, rest) →
      ∃ mid, s = mid ++ '"' :: rest ∧
        ∀ u, parse_str_loop (mid ++ '"' :: u) prev acc = some (str, u) := by
  intro s
  induction s with
  | nil => intro prev acc str rest h; simp [parse_str_loop] at h
  | cons c r ih =>
    intro prev acc str rest h
    rw [parse_str_loop] at h
    by_cases c1 : c = NUL
    · rw [if_pos c1] at h; simp at h
    · rw [if_neg c1] at h
      by_cases c2 : c = '\\' ∧ prev = '\\'
      · rw [if_pos c2] at h
        obtain ⟨mid, hm, hu⟩ := ih _ _ _ _ h
        refine ⟨c :: mid, by rw [hm]; rfl, ?_⟩
        intro u
        rw [List.cons_append, parse_str_loop, if_neg c1, if_pos c2]
        exact hu u
      · rw [if_neg c2] at h
        by_cases c3 : c = '"' ∧ prev ≠ '\\'
        · rw [if_pos c3] at h
          simp at h
          refine ⟨[], by simp [c3.1, h.2], ?_⟩
          intro u
          rw [List.nil_append, parse_str_loop, if_neg (by decide), if_neg (by simp),
            if_pos ⟨rfl, c3.2⟩, h.1]
        · rw [if_neg c3] at h
          obtain ⟨mid, hm, hu⟩ := ih _ _ _ _ h
          refine ⟨c :: mid, by rw [hm]; rfl, ?_⟩
          intro u
          rw [List.cons_append, parse_str_loop, if_neg c1, if_neg c2, if_neg c3]
          exact hu u

theorem parse_str_replace {sp str rest : List Char} (h : parse_str sp = some (str, rest)) :
    ∃ pre, pre ≠ [] ∧ sp = pre ++ rest ∧ ∀ u, parse_str (pre ++ u) = some (str, u) := by
  cases sp with
  | nil => simp [parse_str] at h
  | cons c r =>
    rw [parse_str] at h
    by_cases hq : c = '"'
    · rw [if_pos hq] at h
      obtain ⟨mid, hm, hu⟩ := parse_str_loop_replace _ _ _ _ _ h
      refine ⟨c :: mid ++ ['"'], by simp, by rw [hm]; simp, ?_⟩
      intro u
      have : c :: mid ++ ['"'] ++ u = c :: (mid ++ '"' :: u) := by simp
      rw [this, parse_str, if_pos hq]
      exact hu u
    · rw [if_neg hq] at h; simp at h

/-- Of the text after the token, `read_token` reads the first character only. -/
theorem read_token_replace {sp tok rest : List Char} (h : read_token sp = some (tok, rest)) :
    sp = tok ++ rest ∧ ∀ u, deref u = deref rest → read_token (tok ++ u) = some (tok, u) := by
  obtain ⟨d, tl, h1, h2, h3, h4⟩ := read_token_suffix h
  refine ⟨by rw [h1, h2], ?_⟩
  intro u hu
  refine read_token_token tok u ?_ h4
  rw [hu, h2]
  exact h3

/-- The scalar branches of `parse_unknown` read, of the text after the value, at most the
first character. -/
theorem scalar_replace (L : Libc Num) {sp : List Char} {v : JsonObj Num} {rest : List Char} :
    (JsonObj_parse_str sp = some (v, rest) → ∃ pre, pre ≠ [] ∧ sp = pre ++ rest ∧
      ∀ u, deref u = deref rest → JsonObj_parse_str (pre ++ u) = some (v, u)) ∧
    (JsonObj_parse_bool_true sp = some (v, rest) → ∃ pre, pre ≠ [] ∧ sp = pre ++ rest ∧
      ∀ u, deref u = deref rest → JsonObj_parse_bool_true (pre ++ u) = some (v, u)) ∧
    (JsonObj_parse_bool_false sp = some (v, rest) → ∃ pre, pre ≠ [] ∧ sp = pre ++ rest ∧
      ∀ u, deref u = deref rest → JsonObj_parse_bool_false (pre ++ u) = some (v, u)) ∧
    (JsonObj_parse_null sp = some (v, rest) → ∃ pre, pre ≠ [] ∧ sp = pre ++ rest ∧
      ∀ u, deref u = deref rest → JsonObj_parse_null (pre ++ u) = some (v, u)) ∧
    (JsonObj_parse_number L sp = some (v, rest) → ∃ pre, pre ≠ [] ∧ sp = pre ++ rest ∧
      ∀ u, deref u = deref rest → JsonObj_parse_number L (pre ++ u) = some (v, u)) := by
  refine ⟨?_, ?_, ?_, ?_, ?_⟩
  · intro h
    unfold JsonObj_parse_str at h
    split at h
    · simp at h
    · rename_i str sp1 hs
      simp at h
      obtain ⟨pre, hp, he, hu⟩ := parse_str_replace hs
      refine ⟨pre, hp, by rw [he, h.2], ?_⟩
      intro u _
      rw [JsonObj_parse_str, hu u]
      simp [h.1]
  · intro h
    unfold JsonObj_parse_bool_true at h
    split at h
    · simp at h
    · rename_i str sp1 hs
      split at h
      · simp at h
      · rename_i hne
        simp at h hne
        obtain ⟨he, hu⟩ := read_token_replace hs
        refine ⟨str, by simp [hne], by rw [he, h.2], ?_⟩
        intro u hd
        rw [JsonObj_parse_bool_true, hu u (by rw [hd, h.2])]
        simp [hne, h.1]
  · intro h
    unfold JsonObj_parse_bool_false at h
    split at h
    · simp at h
    · rename_i str sp1 hs
      split at h
      · simp at h
      · rename_i hne
        simp at h hne
        obtain ⟨he, hu⟩ := read_token_replace hs
        refine ⟨str, by simp [hne], by rw [he, h.2], ?_⟩
        intro u hd
        rw [JsonObj_parse_bool_false, hu u (by rw [hd, h.2])]
        simp [hne, h.1]
  · intro h
    unfold JsonObj_parse_null at h
    split at h
    · simp at h
    · rename_i str sp1 hs
      split at h
      · simp at h
      · rename_i hne
        simp at h hne
        obtain ⟨he, hu⟩ := read_token_replace hs
        refine ⟨str, by simp [hne], by rw [he, h.2], ?_⟩
        intro u hd
        rw [JsonObj_parse_null, hu u (by rw [hd, h.2])]
        simp [hne, h.1]
  · intro h
    unfold JsonObj_parse_number at h
    split at h
    · simp at h
    · rename_i str sp1 hs
      split at h
      · simp at h
      · rename_i hne
        simp at h
        obtain ⟨he, hu⟩ := read_token_replace hs
        refine ⟨str, by intro h0; simp [h0] at hne, by rw [he, h.2], ?_⟩
        intro u hd
        rw [JsonObj_parse_number, hu u (by rw [hd, h.2])]
        simp only
        rw [if_neg hne]
        simp [h.1]

theorem deref_mid (a p x y : List Char) (hp : p ≠ []) :
    deref (a ++ (p ++ x)) = deref (a ++ (p ++ y)) := by
  cases a with
  | nil => simp [deref_append _ _ hp]
  | cons c r => rfl

/-- The three mutually recursive parsing functions read, of the text after the place they
return from, at most the first character (`parse_unknown`, for the character that ends a token)
or nothing (the two loops, which return just after their closing bracket): that text can be
replaced by any other. -/
theorem parse_replace (L : Libc Num) : ∀ fuel : Nat,
    (∀ sp v rest, parse_unknown L fuel sp = .ok (v, rest) →
      ∃ pre, pre ≠ [] ∧ sp = pre ++ rest ∧
        ∀ u, deref u = deref rest → parse_unknown L fuel (pre ++ u) = .ok (v, u)) ∧
    (∀ acc sp v rest, JsonObj_parse_array_loop L fuel acc sp = .ok (v, rest) →
      ∃ pre, sp = pre ++ ']' :: rest ∧
        ∀ u, JsonObj_parse_array_loop L fuel acc (pre ++ ']' :: u) = .ok (v, u)) ∧
    (∀ acc sp v rest, JsonObj_parse_dict_loop L fuel acc sp = .ok (v, rest) →
      ∃ pre, sp = pre ++ '}' :: rest ∧
        ∀ u, JsonObj_parse_dict_loop L fuel acc (pre ++ '}' :: u) = .ok (v, u)) := by
  intro fuel
  induction fuel with
  | zero =>
    refine ⟨?_, ?_, ?_⟩ <;> intros <;> simp_all [parse_unknown, JsonObj_parse_array_loop,
      JsonObj_parse_dict_loop]
  | succ fuel ih =>
    obtain ⟨ihU, ihA, ihD⟩ := ih
    have wrap : ∀ (sp : List Char) (v : JsonObj Num) (rest pre : List Char), pre ≠ [] →
        skip_empty sp = pre ++ rest →
        (∀ u, deref u = deref rest → skip_empty (pre ++ u) = pre ++ u →
          deref (pre ++ u) = deref (skip_empty sp) →
          parse_unknown L (fuel + 1) (pre ++ u) = .ok (v, u)) →
        ∃ pre1, pre1 ≠ [] ∧ sp = pre1 ++ rest ∧
          ∀ u, deref u = deref rest → parse_unknown L (fuel + 1) (pre1 ++ u) = .ok (v, u) := by
      intro sp v rest pre hp he hu
      obtain ⟨ws, hb, hw⟩ := skip_empty_blanks sp
      refine ⟨ws ++ pre, by simp [hp], by rw [List.append_assoc, ← he, ← hw], ?_⟩
      intro u hd
      rw [List.append_assoc, parse_unknown_blank L _ ws _ hb]
      exact hu u hd (skip_empty_swap u hp he) (deref_swap u hp he)
    refine ⟨?_, ?_, ?_⟩
    · intro sp v rest h
      rw [parse_unknown] at h
      by_cases c1 : deref (skip_empty sp) = '{'
      · rw [if_pos c1] at h
        obtain ⟨pre, hp, hu⟩ := ihD _ _ _ _ h
        have hs : skip_empty sp = ('{' :: pre ++ ['}']) ++ rest := by
          rw [deref_cons_of_ne_NUL c1 (by decide), hp]; simp
        apply wrap sp v rest _ (by simp) hs
        intro u _ hsk hd
        rw [parse_unknown, hsk, hd, if_pos c1]
        have ht : ('{' :: pre ++ ['}'] ++ u).tail = pre ++ '}' :: u := by simp
        rw [ht]
        exact hu u
      · rw [if_neg c1] at h
        by_cases c2 : deref (skip_empty sp) = '"'
        · rw [if_pos c2] at h
          obtain ⟨pre, hp, he, hu⟩ := (scalar_replace L).1 (ofOption_eq_ok h)
          apply wrap sp v rest pre hp he
          intro u hdu hsk hd
          rw [parse_unknown, hsk, hd, if_neg c1, if_pos c2, hu u hdu]
          rfl
        · rw [if_neg c2] at h
          by_cases c3 : deref (skip_empty sp) = '['
          · rw [if_pos c3] at h
            obtain ⟨pre, hp, hu⟩ := ihA _ _ _ _ h
            have hs : skip_empty sp = ('[' :: pre ++ [']']) ++ rest := by
              rw [deref_cons_of_ne_NUL c3 (by decide), hp]; simp
            apply wrap sp v rest _ (by simp) hs
            intro u _ hsk hd
            rw [parse_unknown, hsk, hd, if_neg c1, if_neg c2, if_pos c3]
            have ht : ('[' :: pre ++ [']'] ++ u).tail = pre ++ ']' :: u := by simp
            rw [ht]
            exact hu u
          · rw [if_neg c3] at h
            by_cases c4 : deref (skip_empty sp) = 't'
            · rw [if_pos c4] at h
              obtain ⟨pre, hp, he, hu⟩ := (scalar_replace L).2.1 (ofOption_eq_ok h)
              apply wrap sp v rest pre hp he
              intro u hdu hsk hd
              rw [parse_unknown, hsk, hd, if_neg c1, if_neg c2, if_neg c3, if_pos c4, hu u hdu]
              rfl
            · rw [if_neg c4] at h
              by_cases c5 : deref (skip_empty sp) = 'f'
              · rw [if_pos c5] at h
                obtain ⟨pre, hp, he, hu⟩ := (scalar_replace L).2.2.1 (ofOption_eq_ok h)
                apply wrap sp v rest pre hp he
                intro u hdu hsk hd
                rw [parse_unknown, hsk, hd, if_neg c1, if_neg c2, if_neg c3, if_neg c4,
                  if_pos c5, hu u hdu]
                rfl
              · rw [if_neg c5] at h
                by_cases c6 : deref (skip_empty sp) = 'n'
                · rw [if_pos c6] at h
                  obtain ⟨pre, hp, he, hu⟩ := (scalar_replace L).2.2.2.1 (ofOption_eq_ok h)
                  apply wrap sp v rest pre hp he
                  intro u hdu hsk hd
                  rw [parse_unknown, hsk, hd, if_neg c1, if_neg c2, if_neg c3, if_neg c4,
                    if_neg c5, if_pos c6, hu u hdu]
                  rfl
                · rw [if_neg c6] at h
                  obtain ⟨pre, hp, he, hu⟩ := (scalar_replace L).2.2.2.2 (ofOption_eq_ok h)
                  apply wrap sp v rest pre hp he
                  intro u hdu hsk hd
                  rw [parse_unknown, hsk, hd, if_neg c1, if_neg c2, if_neg c3, if_neg c4,
                    if_neg c5, if_neg c6, hu u hdu]
                  rfl
    · intro acc sp v rest h
      obtain ⟨ws, hb, hw⟩ := skip_empty_blanks sp
      rw [JsonObj_parse_array_loop] at h
      by_cases c1 : deref (skip_empty sp) = ']'
      · rw [if_pos c1] at h
        simp at h
        refine ⟨ws, ?_, ?_⟩
        · rw [← h.2, ← deref_cons_of_ne_NUL c1 (by decide)]; exact hw
        · intro u
          rw [array_loop_blank L _ _ ws _ hb, JsonObj_parse_array_loop,
            skip_empty_cons_of_not_blank _ _ (by simp [isBlank])]
          simp [deref, h.1]
      · rw [if_neg c1] at h
        cases hr : parse_unknown L fuel (skip_empty sp) with
        | timeout => rw [hr] at h; simp at h
        | fail => rw [hr] at h; simp at h
        | ok a =>
          obtain ⟨x, sp1⟩ := a
          rw [hr] at h
          simp only at h
          obtain ⟨pre1, hp1, he1, hu1⟩ := ihU _ _ _ hr
          obtain ⟨ws1, hb1, hw1⟩ := skip_empty_blanks sp1
          by_cases c2 : deref (skip_empty sp1) = ','
          · rw [if_pos c2] at h
            obtain ⟨pre2, he2, hu2⟩ := ihA _ _ _ _ h
            have hs1 : skip_empty sp1 = [','] ++ (pre2 ++ ']' :: rest) := by
              rw [deref_cons_of_ne_NUL c2 (by decide), he2]; simp
            refine ⟨ws ++ (pre1 ++ (ws1 ++ ',' :: pre2)), ?_, ?_⟩
            · rw [hw, he1, hw1, hs1]; simp
            · intro u
              have ht : ws ++ (pre1 ++ (ws1 ++ ',' :: pre2)) ++ ']' :: u
                  = ws ++ (pre1 ++ (ws1 ++ ([','] ++ (pre2 ++ ']' :: u)))) := by simp
              have hU : deref (ws1 ++ ([','] ++ (pre2 ++ ']' :: u))) = deref sp1 := by
                rw [hw1, hs1]
                exact deref_mid ws1 [','] _ _ (by simp)
              rw [ht, array_loop_blank L _ _ ws _ hb, JsonObj_parse_array_loop,
                skip_empty_swap _ hp1 he1, deref_swap _ hp1 he1, if_neg c1, hu1 _ hU]
              simp only
              rw [skip_empty_blank_append ws1 _ hb1]
              simp only [List.singleton_append,
                skip_empty_cons_of_not_blank ',' _ (by simp [isBlank]), deref, List.headD_cons,
                if_true, List.tail_cons]
              exact hu2 u
          · rw [if_neg c2] at h
            obtain ⟨pre2, he2, hu2⟩ := ihA _ _ _ _ h
            have hs1 : skip_empty sp1 = (pre2 ++ [']']) ++ rest := by rw [he2]; simp
            refine ⟨ws ++ (pre1 ++ (ws1 ++ pre2)), ?_, ?_⟩
            · rw [hw, he1, hw1, hs1]; simp
            · intro u
              have ht : ws ++ (pre1 ++ (ws1 ++ pre2)) ++ ']' :: u
                  = ws ++ (pre1 ++ (ws1 ++ ((pre2 ++ [']']) ++ u))) := by simp
              have hU : deref (ws1 ++ ((pre2 ++ [']']) ++ u)) = deref sp1 := by
                rw [hw1, hs1]
                exact deref_mid ws1 _ _ _ (by simp)
              rw [ht, array_loop_blank L _ _ ws _ hb, JsonObj_parse_array_loop,
                skip_empty_swap _ hp1 he1, deref_swap _ hp1 he1, if_neg c1, hu1 _ hU]
              simp only
              rw [skip_empty_blank_append ws1 _ hb1, skip_empty_swap u (by simp) hs1,
                deref_swap u (by simp) hs1, if_neg c2]
              have ht2 : pre2 ++ [']'] ++ u = pre2 ++ ']' :: u := by simp
              rw [ht2]
              exact hu2 u
    · intro acc sp v rest h
      obtain ⟨ws, hb, hw⟩ := skip_empty_blanks sp
      rw [JsonObj_parse_dict_loop] at h
      by_cases c1 : deref (skip_empty sp) = '"'
      · rw [if_pos c1] at h
        cases hk : parse_str (skip_empty sp) with
        | none => rw [hk] at h; simp at h
        | some a =>
          obtain ⟨key, sp1⟩ := a
          rw [hk] at h
          simp only at h
          obtain ⟨prek, hpk, hek, huk⟩ := parse_str_replace hk
          obtain ⟨ws1, hb1, hw1⟩ := skip_empty_blanks sp1
          by_cases c2 : deref (skip_empty sp1) = ':'
          · rw [if_neg (not_not.mpr c2)] at h
            obtain ⟨ws2, hb2, hw2⟩ := skip_empty_blanks (skip_empty sp1).tail
            have hs1 : skip_empty sp1 = ':' :: (skip_empty sp1).tail :=
              deref_cons_of_ne_NUL c2 (by decide)
            cases hr : parse_unknown L fuel (skip_empty (skip_empty sp1).tail) with
            | timeout => rw [hr] at h; simp at h
            | fail => rw [hr] at h; simp at h
            | ok a =>
              obtain ⟨value, sp2⟩ := a
              rw [hr] at h
              simp only at h
              obtain ⟨pre1, hp1, he1, hu1⟩ := ihU _ _ _ hr
              obtain ⟨ws3, hb3, hw3⟩ := skip_empty_blanks sp2
              have hkv : sp = ws ++ (prek ++ (ws1 ++ ':' :: (ws2 ++ (pre1 ++ sp2)))) := by
                rw [← he1, ← hw2, ← hs1, ← hw1, ← hek, ← hw]
              have run : ∀ (z : List Char), deref z = deref sp2 →
                  JsonObj_parse_dict_loop L (fuel + 1) acc
                    (ws ++ (prek ++ (ws1 ++ ':' :: (ws2 ++ (pre1 ++ z))))) =
                  if deref (skip_empty z) = ',' then
                    JsonObj_parse_dict_loop L fuel (HashTable_insert acc key value)
                      (skip_empty z).tail
                  else if deref (skip_empty z) = '}' then
                    .ok (.JDict (HashTable_insert acc key value), (skip_empty z).tail)
                  else .fail := by
                intro z hz
                rw [dict_loop_blank L _ _ ws _ hb, JsonObj_parse_dict_loop,
                  skip_empty_swap _ hpk hek, deref_swap _ hpk hek, if_pos c1, huk]
                simp only
                rw [skip_empty_blank_append ws1 _ hb1,
                  skip_empty_cons_of_not_blank ':' _ (by simp [isBlank])]
                simp only [deref, List.headD_cons, ne_eq, not_true_eq_false, if_false,
                  List.tail_cons]
                rw [skip_empty_blank_append ws2 _ hb2, skip_empty_swap _ hp1 he1, hu1 z hz]
              by_cases c3 : deref (skip_empty sp2) = ','
              · rw [if_pos c3] at h
                obtain ⟨pre2, he2, hu2⟩ := ihD _ _ _ _ h
                have hs2 : skip_empty sp2 = [','] ++ (pre2 ++ '}' :: rest) := by
                  rw [deref_cons_of_ne_NUL c3 (by decide), he2]; simp
                refine ⟨ws ++ (prek ++ (ws1 ++ ':' :: (ws2 ++ (pre1 ++ (ws3 ++ ',' :: pre2))))),
                  ?_, ?_⟩
                · rw [hkv, hw3, hs2]; simp
                · intro u
                  have ht : ws ++ (prek ++ (ws1 ++ ':' :: (ws2 ++ (pre1 ++ (ws3 ++ ',' :: pre2)))))
                        ++ '}' :: u
                      = ws ++ (prek ++ (ws1 ++ ':' :: (ws2 ++ (pre1 ++
                          (ws3 ++ ([','] ++ (pre2 ++ '}' :: u))))))) := by simp
                  have hU : deref (ws3 ++ ([','] ++ (pre2 ++ '}' :: u))) = deref sp2 := by
                    rw [hw3, hs2]
                    exact deref_mid ws3 [','] _ _ (by simp)
                  rw [ht, run _ hU, skip_empty_blank_append ws3 _ hb3]
                  simp only [List.singleton_append,
                    skip_empty_cons_of_not_blank ',' _ (by simp [isBlank]), deref,
                    List.headD_cons, if_true, List.tail_cons]
                  exact hu2 u
              · rw [if_neg c3] at h
                by_cases c4 : deref (skip_empty sp2) = '}'
                · rw [if_pos c4] at h
                  simp at h
                  have hs2 : skip_empty sp2 = ['}'] ++ rest := by
                    rw [deref_cons_of_ne_NUL c4 (by decide), h.2]; simp
                  refine ⟨ws ++ (prek ++ (ws1 ++ ':' :: (ws2 ++ (pre1 ++ ws3)))), ?_, ?_⟩
                  · rw [hkv, hw3, hs2]; simp
                  · intro u
                    have ht : ws ++ (prek ++ (ws1 ++ ':' :: (ws2 ++ (pre1 ++ ws3)))) ++ '}' :: u
                        = ws ++ (prek ++ (ws1 ++ ':' :: (ws2 ++ (pre1 ++
                            (ws3 ++ (['}'] ++ u)))))) := by simp
                    have hU : deref (ws3 ++ (['}'] ++ u)) = deref sp2 := by
                      rw [hw3, hs2]
                      exact deref_mid ws3 ['}'] _ _ (by simp)
                    rw [ht, run _ hU, skip_empty_blank_append ws3 _ hb3]
                    simp [skip_empty_cons_of_not_blank '}' _ (by simp [isBlank]), deref, h.1]
                · rw [if_neg c4] at h; simp at h
          · rw [if_pos c2] at h; simp at h
      · rw [if_neg c1] at h; simp at h

/-- Two runs of `parse_unknown` on the same text that both have fuel enough agree. -/
theorem parse_unknown_fuel_agree (L : Libc Num) {n m : Nat} {sp : List Char}
    {r : JsonObj Num × List Char} (h : parse_unknown L n sp = .ok r)
    (hm : parse_unknown L m sp ≠ .timeout) : parse_unknown L m sp = .ok r := by
  rcases Nat.le_total n m with hle | hle
  · obtain ⟨k, rfl⟩ := Nat.exists_eq_add_of_le hle
    exact parse_unknown_ok_fuel_le L h k
  · obtain ⟨k, rfl⟩ := Nat.exists_eq_add_of_le hle
    rw [← parse_unknown_fuel_le L sp m hm k]
    exact h

/-- A dictionary returned by `parse_unknown` ends at a `}` of the text, and the run has read
nothing after it. -/
theorem parse_unknown_dict_replace (L : Libc Num) {fuel : Nat} {sp rest : List Char}
    {d : List (List Char × JsonObj Num)}
    (h : parse_unknown L fuel sp = .ok (.JDict d, rest)) :
    ∃ pre, sp = pre ++ '}' :: rest ∧
      ∀ u, parse_unknown L fuel (pre ++ '}' :: u) = .ok (.JDict d, u) := by
  cases fuel with
  | zero => simp [parse_unknown] at h
  | succ fuel =>
    obtain ⟨ws, hb, hw⟩ := skip_empty_blanks sp
    have h0 := h
    unfold parse_unknown at h
    split at h
    · rename_i hc
      obtain ⟨pre, hp, hu⟩ := (parse_replace L fuel).2.2 _ _ _ _ h
      refine ⟨ws ++ '{' :: pre, ?_, ?_⟩
      · have : ws ++ '{' :: pre ++ '}' :: rest = ws ++ '{' :: (pre ++ '}' :: rest) := by simp
        rw [this, ← hp, ← deref_cons_of_ne_NUL hc (by decide)]
        exact hw
      · intro u
        have : ws ++ '{' :: pre ++ '}' :: u = ws ++ '{' :: (pre ++ '}' :: u) := by simp
        rw [this, parse_unknown_blank L _ ws _ hb, parse_unknown,
          skip_empty_cons_of_not_blank '{' _ (by simp [isBlank])]
        simp only [deref, List.headD_cons, if_true, List.tail_cons]
        exact hu u
    · split at h
      · have := ofOption_eq_ok h
        simp [JsonObj_parse_str, JsonObj_new_string] at this
        split at this <;> simp at this
      · split at h
        · obtain ⟨l, hl⟩ := (loop_tags L fuel).1 _ _ _ _ h
          simp at hl
        · split at h
          · have := ofOption_eq_ok h
            simp [JsonObj_parse_bool_true, JsonObj_new_bool] at this
            split at this <;> simp at this
          · split at h
            · have := ofOption_eq_ok h
              simp [JsonObj_parse_bool_false, JsonObj_new_bool] at this
              split at this <;> simp at this
            · split at h
              · have := ofOption_eq_ok h
                simp [JsonObj_parse_null, JsonObj_new_null] at this
                split at this <;> simp at this
              · have := ofOption_eq_ok h
                simp [JsonObj_parse_number, JsonObj_new_number] at this
                split at this <;> simp at this

/-- What `JsonObj_parse_string_fuel` returns is a dictionary that `parse_unknown` returned. -/
theorem parse_string_fuel_ok (L : Libc Num) {fuel : Nat} {sp : List Char} {j : JsonObj Num}
    (h : JsonObj_parse_string_fuel L fuel sp = .ok j) :
    ∃ d rest, j = .JDict d ∧ parse_unknown L fuel sp = .ok (.JDict d, rest) := by
  unfold JsonObj_parse_string_fuel at h
  split at h
  · simp at h
  · simp at h
  · rename_i this rest hu
    split at h
    · rename_i dict
      simp at h
      exact ⟨dict, rest, h.symm, hu⟩
    · simp at h

/-- A text that starts with a text on which `parse_unknown` returns a dictionary, followed by
anything in place of what came after the closing brace, parses to that dictionary. -/
theorem parse_string_replace (L : Libc Num) {fuel : Nat} {pre : List Char}
    {d : List (List Char × JsonObj Num)}
    (hu : ∀ u, parse_unknown L fuel (pre ++ '}' :: u) = .ok (.JDict d, u)) (u : List Char) :
    parse_unknown L (2 * (pre ++ '}' :: u).length + 1) (pre ++ '}' :: u) = .ok (.JDict d, u) ∧
      JsonObj_parse_string L (pre ++ '}' :: u) = .ok (.JDict d) := by
  have hp := parse_unknown_fuel_agree L (hu u)
    ((parse_fuel_enough L (2 * (pre ++ '}' :: u).length + 1)).1 _ (Nat.le_refl _))
  refine ⟨hp, ?_⟩
  rw [JsonObj_parse_string, JsonObj_parse_string_fuel, hp]

/-- C22. Text after the top-level object is ignored. If `JsonObj_parse_string` returns a tree
for a text `s`, it returns the same tree for `s` followed by any text `t`. The tree was
returned with the cursor just after a `}` of `s`, and the parser has read nothing after that
brace: with any text `u` in place of what follows it, the run returns the same tree with the
cursor on `u`. The text `{"a": 1 } garbage` parses to Dict{a: Number 1}. -/
theorem trailing_text_ignored (L : Libc Num) (one : Num) (h1 : L.strtod ['1'] = (one, 1)) :
    (∀ s t j, JsonObj_parse_string L s = .ok j → JsonObj_parse_string L (s ++ t) = .ok j) ∧
    (∀ s j, JsonObj_parse_string L s = .ok j →
      ∃ pre rest, s = pre ++ '}' :: rest ∧
        parse_unknown L (2 * s.length + 1) s = .ok (j, rest) ∧
        ∀ u, parse_unknown L (2 * (pre ++ '}' :: u).length + 1) (pre ++ '}' :: u) = .ok (j, u) ∧
          JsonObj_parse_string L (pre ++ '}' :: u) = .ok j) ∧
    JsonObj_parse_string L
        ['{', '"', 'a', '"', ':', ' ', '1', ' ', '}', ' ', 'g', 'a', 'r', 'b', 'a', 'g', 'e']
      = .ok (.JDict [(['a'], .JNumber one)]) := by
  have key : ∀ s j, JsonObj_parse_string L s = .ok j →
      ∃ pre rest, s = pre ++ '}' :: rest ∧
        parse_unknown L (2 * s.length + 1) s = .ok (j, rest) ∧
        ∀ u, parse_unknown L (2 * (pre ++ '}' :: u).length + 1) (pre ++ '}' :: u) = .ok (j, u) ∧
          JsonObj_parse_string L (pre ++ '}' :: u) = .ok j := by
    intro s j h
    obtain ⟨d, rest, rfl, hp⟩ := parse_string_fuel_ok L h
    obtain ⟨pre, he, hu⟩ := parse_unknown_dict_replace L hp
    exact ⟨pre, rest, he, hp, parse_string_replace L hu⟩
  refine ⟨?_, key, ?_⟩
  · intro s t j h
    obtain ⟨pre, rest, he, -, hu⟩ := key s j h
    have : s ++ t = pre ++ '}' :: (rest ++ t) := by rw [he]; simp
    rw [this]
    exact (hu _).2
  · simp [JsonObj_parse_string, JsonObj_parse_string_fuel, parse_unknown,
      JsonObj_parse_dict_loop, parse_str, parse_str_loop, skip_empty,
      deref, JsonObj_parse_number, read_token, read_token_loop, isTokenEnd, NUL,
      Outcome.ofOption, h1, HashTable_insert, JsonObj_new_number]

/-- Witness of C22 on the executable libc instance: the text `{"a": 1 }` and the same text
followed by ` garbage`. -/
theorem trailing_text_ignored_witness :
    JsonObj_parse_string decimal9 ['{', '"', 'a', '"', ':', ' ', '1', ' ', '}']
      = .ok (.JDict [(['a'], .JNumber 1000000000)]) ∧
    JsonObj_parse_string decimal9
        (['{', '"', 'a', '"', ':', ' ', '1', ' ', '}'] ++ [' ', 'g', 'a', 'r', 'b', 'a', 'g', 'e'])
      = .ok (.JDict [(['a'], .JNumber 1000000000)]) :=
  ⟨rfl, (trailing_text_ignored decimal9 1000000000 rfl).1
    ['{', '"', 'a', '"', ':', ' ', '1', ' ', '}'] [' ', 'g', 'a', 'r', 'b', 'a', 'g', 'e']
    (.JDict [(['a'], .JNumber 1000000000)]) rfl⟩

end CUtil
